import Mathlib

/-!
docs-zh tooling: terminology checker, terminology manager, quality score,
navigation tree.

A shallow embedding of the scripts under `docs-zh/scripts`:

* `terminology-checker.js` : `escapeRegex`, `checkFile`, `checkDirectory`, `autoFix`
* `terminology-manager.js` : `loadTerminology`, the lookups, `addTerm`, `updateTerm`,
  `removeTerm`, `saveTerminology`, `validateConsistency`
* `quality-check.js`       : `generateOverallReport`, `getGrade`, `hasMatchingBraces`
* `generate-navigation.js` : `buildNavigationTree`, `convertToNavigation`,
  `getOrderedKeys`, `getFileOrder`, `generateBreadcrumbsData`

Conventions of the embedding:

* JavaScript strings are sequences of UTF-16 code units; wherever the scripts
  compare or scan strings by unit the embedding works on `codeUnits`.
* The regular-expression engine of the runtime is a parameter of the checker
  (`RegExpEngine`); `jsRegExp` implements it for a fragment of the pattern
  syntax and reports every other pattern as `unsupported`.
* Numbers are rationals extended by the infinities and NaN (`JsNum`).  The
  score of `generateOverallReport` is embedded twice: with exact arithmetic
  (`generateOverallReport`) and with the rounding of IEEE 754 binary64 after
  every operation (`generateOverallReport64`).
* An exception thrown by a script is an `Except` error.  Plain objects are
  association lists in insertion order; the properties they inherit from
  `Object.prototype` are listed in `objectPrototypeKeys`, and a run that would
  store or return such an inherited value ends in `NavError.unmodelled`.
* The title read from a file (`extractTitle`) is a parameter of
  `buildNavigationTree`.
-/

namespace DocsZh

/-! ## Strings as UTF-16 code units -/

/-- UTF-16 encoding of one character (a surrogate pair above U+FFFF). -/
def utf16 (c : Char) : List Nat :=
  if c.toNat < 0x10000 then [c.toNat]
  else [0xD800 + (c.toNat - 0x10000) / 0x400, 0xDC00 + (c.toNat - 0x10000) % 0x400]

/-- The code units of a string, the view JavaScript has of it. -/
def codeUnits (s : String) : List Nat :=
  s.toList.flatMap utf16

/-! ## Regular expressions

`checkFile` builds its patterns with `new RegExp(source, flags)` and counts
matches with `content.match(regex)`.  The regular-expression engine belongs to
the JavaScript runtime, not to the repository; the checker is therefore
embedded over an arbitrary engine (`RegExpEngine`), and `jsRegExp` implements
the engine for the pattern fragment needed to run the checker on examples. -/

/-- Ways in which `new RegExp(source, flags)` fails to give a usable count. -/
inductive RegExpError where
  /-- The constructor throws `SyntaxError`. -/
  | syntaxError
  /-- The pattern lies outside the fragment implemented by `jsRegExp`. -/
  | unsupported
deriving DecidableEq, Repr

/-- A regular-expression engine: `matchCount source ignoreCase content` is
`(content.match(new RegExp(source, ignoreCase ? 'gi' : 'g')) || []).length`,
or the error raised by the constructor. -/
structure RegExpEngine where
  matchCount : String → Bool → String → Except RegExpError Nat

/-- Atoms of the implemented pattern fragment. -/
inductive Atom where
  /-- A literal code unit. -/
  | unit (u : Nat)
  /-- The wildcard `.`. -/
  | anyChar
  /-- The assertion `\b`. -/
  | wordBoundary
deriving DecidableEq, Repr

/-- The syntax characters of a pattern: `^ $ \ . * + ? ( ) [ ] { } |`. -/
def syntaxChars : List Nat :=
  [94, 36, 92, 46, 42, 43, 63, 40, 41, 91, 93, 123, 125, 124]

/-- Parser for the fragment: literal code units, `.`, `\b`, and a backslash
followed by a syntax character or `/`.  A trailing backslash is a syntax
error; every other construct is reported as unsupported. -/
def parsePattern : List Nat → Except RegExpError (List Atom)
  | [] => .ok []
  | [92] => .error .syntaxError
  | 92 :: c :: rest =>
    if c = 98 then (parsePattern rest).map (Atom.wordBoundary :: ·)
    else if c ∈ syntaxChars ∨ c = 47 then (parsePattern rest).map (Atom.unit c :: ·)
    else .error .unsupported
  | c :: rest =>
    if c = 46 then (parsePattern rest).map (Atom.anyChar :: ·)
    else if c ∈ syntaxChars then .error .unsupported
    else (parsePattern rest).map (Atom.unit c :: ·)

/-- The test `IsWordChar` of the language standard: `[A-Za-z0-9_]`. -/
def isWordChar (u : Nat) : Bool :=
  (48 ≤ u && u ≤ 57) || (65 ≤ u && u ≤ 90) || (97 ≤ u && u ≤ 122) || u = 95

/-- Line terminators, which `.` does not match. -/
def isLineTerminator (u : Nat) : Bool :=
  u = 10 || u = 13 || u = 0x2028 || u = 0x2029

/-- The case folding `Canonicalize` of the language standard, on the code units
for which `jsRegExp` uses it: an ASCII pattern unit against any text unit. -/
def canonicalize (ignoreCase : Bool) (u : Nat) : Nat :=
  if ignoreCase && (97 ≤ u && u ≤ 122) then u - 32 else u

/-- Match the atoms at the current position; `prev` is the code unit before
the position.  Returns the number of code units matched. -/
def matchHere (ignoreCase : Bool) : List Atom → Option Nat → List Nat → Option Nat
  | [], _, _ => some 0
  | .unit _ :: _, _, [] => none
  | .unit u :: atoms, _, c :: cs =>
    if canonicalize ignoreCase u = canonicalize ignoreCase c then
      (matchHere ignoreCase atoms (some c) cs).map (· + 1)
    else none
  | .anyChar :: _, _, [] => none
  | .anyChar :: atoms, _, c :: cs =>
    if isLineTerminator c then none
    else (matchHere ignoreCase atoms (some c) cs).map (· + 1)
  | .wordBoundary :: atoms, prev, input =>
    if (prev.elim false isWordChar) != (input.head?.elim false isWordChar) then
      matchHere ignoreCase atoms prev input
    else none

/-- Number of matches of a global regular expression: the leftmost match at or
after `lastIndex` is taken, `lastIndex` moves to its end, and past an empty
match it advances by one.  `skip` counts the code units still covered by the
previous match. -/
def countMatches (ignoreCase : Bool) (atoms : List Atom) : Option Nat → Nat → List Nat → Nat
  | prev, skip, [] =>
    if skip = 0 ∧ (matchHere ignoreCase atoms prev []).isSome then 1 else 0
  | _, skip + 1, c :: cs => countMatches ignoreCase atoms (some c) skip cs
  | prev, 0, c :: cs =>
    match matchHere ignoreCase atoms prev (c :: cs) with
    | some n => 1 + countMatches ignoreCase atoms (some c) (n - 1) cs
    | none => countMatches ignoreCase atoms (some c) 0 cs

/-- Whether an atom list can be matched case-insensitively by `canonicalize`:
all its literal units are ASCII. -/
def asciiAtoms (atoms : List Atom) : Bool :=
  atoms.all fun a => match a with
    | .unit u => u < 128
    | _ => true

/-- The engine for the implemented fragment. -/
def jsRegExp : RegExpEngine where
  matchCount source ignoreCase content :=
    match parsePattern (codeUnits source) with
    | .error e => .error e
    | .ok atoms =>
      if ignoreCase && !asciiAtoms atoms then .error .unsupported
      else .ok (countMatches ignoreCase atoms none 0 (codeUnits content))

/-! ## terminology-checker.js -/

/-- One entry of the terminology dictionary (`config/terminology.json`). -/
structure Term where
  english : String
  chinese : String
  category : Option String
  context : Option String
  alternatives : Option (List String)
  usage : String
deriving DecidableEq, Repr

/-- An issue object pushed by `checkFile`.  `should_keep_english` and
`should_translate` issues carry a `chinese` field, `alternative_used` issues a
`preferred` field. -/
structure Issue where
  type : String
  term : String
  chinese : Option String
  preferred : Option String
  count : Nat
  message : String
deriving DecidableEq, Repr

/-- The method `escapeRegex`: `string.replace(/[.*+?^${}()|[\]\\]/g, '\\$&')`; a
backslash is put before each of the fourteen characters of the class. -/
def escapeRegex (string : String) : String :=
  String.mk (string.toList.flatMap fun c =>
    if c ∈ ['.', '*', '+', '?', '^', '$', '\x7b', '\x7d', '(', ')', '|', '[', ']', '\\']
    then ['\\', c] else [c])

/-- Source of `englishRegex`: the escaped term between two `\b`. -/
def englishSource (term : Term) : String :=
  "\\b" ++ escapeRegex term.english ++ "\\b"

/-- The issue pushed at lines 37-43. -/
def shouldKeepEnglishIssue (term : Term) (n : Nat) : Issue where
  type := "should_keep_english"
  term := term.english
  chinese := some term.chinese
  preferred := none
  count := n
  message := "术语 \"" ++ term.english ++ "\" 应保持英文，但发现 " ++ toString n
    ++ " 处使用了中文 \"" ++ term.chinese ++ "\""

/-- The issue pushed at lines 48-54. -/
def shouldTranslateIssue (term : Term) (n : Nat) : Issue where
  type := "should_translate"
  term := term.english
  chinese := some term.chinese
  preferred := none
  count := n
  message := "术语 \"" ++ term.english ++ "\" 应翻译为 \"" ++ term.chinese ++ "\"，发现 "
    ++ toString n ++ " 处未翻译"

/-- The issue pushed at lines 64-70. -/
def alternativeUsedIssue (term : Term) (alt : String) (n : Nat) : Issue where
  type := "alternative_used"
  term := alt
  chinese := none
  preferred := some term.chinese
  count := n
  message := "发现使用了替代词 \"" ++ alt ++ "\"，建议使用标准术语 \"" ++ term.chinese ++ "\""

/-- The inner loop of `checkFile` over `term.alternatives` (lines 60-72). -/
def checkAlternatives (E : RegExpEngine) (content : String) (term : Term) :
    List String → List Issue → Except RegExpError (List Issue)
  | [], issues => .ok issues
  | alt :: rest, issues =>
    match E.matchCount alt false content with
    | .error e => .error e
    | .ok n =>
      checkAlternatives E content term rest
        (if n > 0 then issues ++ [alternativeUsedIssue term alt n] else issues)

/-- One iteration of the loop of `checkFile` (lines 28-73): the issues pushed
for `term` are appended to `issues`. -/
def checkTerm (E : RegExpEngine) (content : String) (term : Term) (issues : List Issue) :
    Except RegExpError (List Issue) :=
  match E.matchCount (englishSource term) true content with
  | .error e => .error e
  | .ok englishMatches =>
    match E.matchCount term.chinese false content with
    | .error e => .error e
    | .ok chineseMatches =>
      let issues :=
        if term.usage = "keep_english" then
          if chineseMatches > 0 then issues ++ [shouldKeepEnglishIssue term chineseMatches]
          else issues
        else
          if englishMatches > 0 ∧ chineseMatches = 0 then
            issues ++ [shouldTranslateIssue term englishMatches]
          else issues
      match term.alternatives with
      | some (alt :: rest) => checkAlternatives E content term (alt :: rest) issues
      | _ => .ok issues

/-- The loop of `checkFile` over `this.terminology` (lines 27-74). -/
def checkFileLoop (E : RegExpEngine) (content : String) :
    List Term → List Issue → Except RegExpError (List Issue)
  | [], issues => .ok issues
  | term :: rest, issues =>
    match checkTerm E content term issues with
    | .error e => .error e
    | .ok issues => checkFileLoop E content rest issues

/-- The method `checkFile`, on the content read from the file: the loop runs
from `issues = []` and the final list is returned; an exception of a `RegExp`
constructor leaves the method. -/
def checkFile (E : RegExpEngine) (content : String) (terminology : List Term) :
    Except RegExpError (List Issue) :=
  checkFileLoop E content terminology []

/-- The term of the example of the specification. -/
def agentTerm : Term :=
  { english := "agent", chinese := "智能体", category := none, context := none,
    alternatives := none, usage := "preferred" }

/-- A term that stays in English, for the examples. -/
def llmTerm : Term :=
  { english := "LLM", chinese := "大语言模型", category := some "technical",
    context := some "保持英文", alternatives := none, usage := "keep_english" }

/-- A term with deprecated spellings, for the examples. -/
def toolTerm : Term :=
  { english := "tool", chinese := "工具", category := some "concept", context := none,
    alternatives := some ["器具", "用具"], usage := "preferred" }

/-! ## JavaScript numbers -/

/-- A JavaScript number: doubles are idealised as exact rationals, together
with the two infinities and NaN that division by zero and missing fields
produce. -/
inductive JsNum where
  | num (q : ℚ)
  | posInf
  | negInf
  | nan
deriving DecidableEq

namespace JsNum

def neg : JsNum → JsNum
  | num q => num (-q)
  | posInf => negInf
  | negInf => posInf
  | nan => nan

def add : JsNum → JsNum → JsNum
  | nan, _ => nan
  | _, nan => nan
  | posInf, negInf => nan
  | negInf, posInf => nan
  | posInf, _ => posInf
  | _, posInf => posInf
  | negInf, _ => negInf
  | _, negInf => negInf
  | num a, num b => num (a + b)

def sub (a b : JsNum) : JsNum := add a (neg b)

def mul : JsNum → JsNum → JsNum
  | nan, _ => nan
  | _, nan => nan
  | num a, num b => num (a * b)
  | num a, posInf => if a = 0 then nan else if 0 < a then posInf else negInf
  | num a, negInf => if a = 0 then nan else if 0 < a then negInf else posInf
  | posInf, num b => if b = 0 then nan else if 0 < b then posInf else negInf
  | negInf, num b => if b = 0 then nan else if 0 < b then negInf else posInf
  | posInf, posInf => posInf
  | negInf, negInf => posInf
  | posInf, negInf => negInf
  | negInf, posInf => negInf

/-- Division; a zero divisor is the positive zero (the divisors of the scripts
are counts). -/
def div : JsNum → JsNum → JsNum
  | nan, _ => nan
  | _, nan => nan
  | num a, num b =>
    if b = 0 then (if a = 0 then nan else if 0 < a then posInf else negInf)
    else num (a / b)
  | num _, posInf => num 0
  | num _, negInf => num 0
  | posInf, num b => if 0 ≤ b then posInf else negInf
  | negInf, num b => if 0 ≤ b then negInf else posInf
  | _, _ => nan

def max : JsNum → JsNum → JsNum
  | nan, _ => nan
  | _, nan => nan
  | posInf, _ => posInf
  | _, posInf => posInf
  | negInf, b => b
  | a, negInf => a
  | num a, num b => num (Max.max a b)

def min : JsNum → JsNum → JsNum
  | nan, _ => nan
  | _, nan => nan
  | negInf, _ => negInf
  | _, negInf => negInf
  | posInf, b => b
  | a, posInf => a
  | num a, num b => num (Min.min a b)

/-- `Math.round`: the nearest integer, halves rounded up. -/
def round : JsNum → JsNum
  | num q => num ⌊q + 1 / 2⌋
  | x => x

/-- The comparison `a >= b`. -/
def ge : JsNum → JsNum → Bool
  | nan, _ => false
  | _, nan => false
  | posInf, _ => true
  | _, negInf => true
  | negInf, _ => false
  | _, posInf => false
  | num a, num b => decide (b ≤ a)

end JsNum

/-! ## quality-check.js -/

/-- A count field of a result object; `none` is a missing field
(`undefined`). -/
def toNumber : Option Nat → JsNum
  | some n => .num n
  | none => .nan

/-- Truthiness of a count field: present and not zero. -/
def truthy : Option Nat → Bool
  | some n => n != 0
  | none => false

/-- `this.results.terminology`: `passed`, `totalIssues`; after a failed check
it holds `passed: false` and an `error`, and `totalIssues` is missing. -/
structure TerminologyResult where
  passed : Bool
  totalIssues : Option Nat
deriving DecidableEq

/-- `this.results.links`. -/
structure LinksResult where
  passed : Bool
  totalLinks : Option Nat
  brokenLinks : Option Nat
deriving DecidableEq

/-- `this.results.code`. -/
structure CodeResult where
  passed : Bool
  totalCodeBlocks : Option Nat
  validCodeBlocks : Option Nat
deriving DecidableEq

/-- `this.results`, without `overall`. -/
structure Results where
  terminology : TerminologyResult
  links : LinksResult
  code : CodeResult
deriving DecidableEq

/-- `this.results.overall` as written by `generateOverallReport`. -/
structure Overall where
  passed : Bool
  score : JsNum
  grade : String
deriving DecidableEq

/-- The method `getGrade`. -/
def getGrade (score : JsNum) : String :=
  if score.ge (.num 90) then "A"
  else if score.ge (.num 80) then "B"
  else if score.ge (.num 70) then "C"
  else if score.ge (.num 60) then "D"
  else "F"

/-- Lines 262-268 of `generateOverallReport`: the terminology part of
`totalScore`. -/
def addTerminologyScore (t : TerminologyResult) (totalScore : JsNum) : JsNum :=
  if t.passed then totalScore.add (.num 30)
  else if truthy t.totalIssues then
    let deduction := JsNum.min (.num 30) ((toNumber t.totalIssues).mul (.num 2))
    totalScore.add (JsNum.max (.num 0) ((JsNum.num 30).sub deduction))
  else totalScore

/-- Lines 272-277 of `generateOverallReport`: the link part of `totalScore`. -/
def addLinksScore (l : LinksResult) (totalScore : JsNum) : JsNum :=
  if l.passed then totalScore.add (.num 40)
  else if truthy l.brokenLinks then
    let ratio := (toNumber l.brokenLinks).div (toNumber l.totalLinks)
    totalScore.add (JsNum.max (.num 0) ((JsNum.num 40).mul ((JsNum.num 1).sub ratio)))
  else totalScore

/-- The divisor of the division at line 275 when that line is executed,
`none` when it is not. -/
def linksDivisor (l : LinksResult) : Option JsNum :=
  if l.passed then none
  else if truthy l.brokenLinks then some (toNumber l.totalLinks)
  else none

/-- Lines 281-286 of `generateOverallReport`: the code part of `totalScore`. -/
def addCodeScore (c : CodeResult) (totalScore : JsNum) : JsNum :=
  if c.passed then totalScore.add (.num 30)
  else if truthy c.totalCodeBlocks then
    let ratio := (toNumber c.validCodeBlocks).div (toNumber c.totalCodeBlocks)
    totalScore.add ((JsNum.num 30).mul ratio)
  else totalScore

/-- The value of `maxScore` at line 288: the three weights, added
unconditionally at lines 261, 271 and 280. -/
def maxScore : JsNum :=
  (((JsNum.num 0).add (.num 30)).add (.num 40)).add (.num 30)

/-- The value of `totalScore` at line 288. -/
def totalScore (r : Results) : JsNum :=
  addCodeScore r.code (addLinksScore r.links (addTerminologyScore r.terminology (.num 0)))

/-- The method `generateOverallReport`, with the arithmetic carried out
exactly: the value written to `this.results.overall` wherever the doubles of
the script hold the exact values; `generateOverallReport64` has the rounding
of the doubles. -/
def generateOverallReport (r : Results) : Overall :=
  let finalScore := JsNum.round (((totalScore r).div maxScore).mul (.num 100))
  { passed := finalScore.ge (.num 90), score := finalScore, grade := getGrade finalScore }

/-- The results written by `checkTerminology`, `checkLinks` and
`checkCodeExamples` for given counts. -/
def resultsOf (totalIssues brokenLinks totalLinks validCodeBlocks totalCodeBlocks : Nat) :
    Results where
  terminology := { passed := totalIssues == 0, totalIssues := some totalIssues }
  links := { passed := brokenLinks == 0, totalLinks := some totalLinks,
             brokenLinks := some brokenLinks }
  code := { passed := validCodeBlocks == totalCodeBlocks,
            totalCodeBlocks := some totalCodeBlocks,
            validCodeBlocks := some validCodeBlocks }


/-! ## Double-precision arithmetic

The numbers of the runtime are IEEE 754 binary64 values.  Every arithmetic
operation returns the double nearest to the exact result, ties going to the
even significand; `generateOverallReport64` is `generateOverallReport` with
this rounding after each operation. -/

/-- The integer nearest to `q`, a tie going to the even integer. -/
def roundHalfEven (q : ℚ) : ℤ :=
  if q - ⌊q⌋ < 1 / 2 then ⌊q⌋
  else if 1 / 2 < q - ⌊q⌋ then ⌊q⌋ + 1
  else if ⌊q⌋ % 2 = 0 then ⌊q⌋ else ⌊q⌋ + 1

/-- The exponent of the binade of `q`: the `e` with `2 ^ e ≤ |q| < 2 ^ (e + 1)`,
and `-1022`, the exponent of the subnormal numbers, below that. -/
def binade (q : ℚ) : ℤ :=
  max (Int.log 2 |q|) (-1022)

/-- The multiple of the unit in the last place (53 significant bits) that is
nearest to `q`, ties to even, before the test for overflow. -/
def roundDouble (q : ℚ) : ℚ :=
  roundHalfEven (q / 2 ^ (binade q - 52)) * 2 ^ (binade q - 52)

/-- The double nearest to a number: a result of magnitude `2 ^ 1024` or more
is an infinity. -/
def JsNum.fl : JsNum → JsNum
  | .num q =>
    if 2 ^ 1024 ≤ |roundDouble q| then (if 0 < q then .posInf else .negInf)
    else .num (roundDouble q)
  | x => x

/-- The operator `+` on doubles. -/
def JsNum.fadd (a b : JsNum) : JsNum := (a.add b).fl

/-- The operator `-` on doubles. -/
def JsNum.fsub (a b : JsNum) : JsNum := (a.sub b).fl

/-- The operator `*` on doubles. -/
def JsNum.fmul (a b : JsNum) : JsNum := (a.mul b).fl

/-- The operator `/` on doubles. -/
def JsNum.fdiv (a b : JsNum) : JsNum := (a.div b).fl

/-- Lines 262-268 of `generateOverallReport` in double arithmetic: the
terminology part of `totalScore`. -/
def addTerminologyScore64 (t : TerminologyResult) (totalScore : JsNum) : JsNum :=
  if t.passed then totalScore.fadd (.num 30)
  else if truthy t.totalIssues then
    let deduction := JsNum.min (.num 30) ((toNumber t.totalIssues).fmul (.num 2))
    totalScore.fadd (JsNum.max (.num 0) ((JsNum.num 30).fsub deduction))
  else totalScore

/-- Lines 272-277 of `generateOverallReport` in double arithmetic: the link
part of `totalScore`. -/
def addLinksScore64 (l : LinksResult) (totalScore : JsNum) : JsNum :=
  if l.passed then totalScore.fadd (.num 40)
  else if truthy l.brokenLinks then
    let ratio := (toNumber l.brokenLinks).fdiv (toNumber l.totalLinks)
    totalScore.fadd (JsNum.max (.num 0) ((JsNum.num 40).fmul ((JsNum.num 1).fsub ratio)))
  else totalScore

/-- Lines 281-286 of `generateOverallReport` in double arithmetic: the code
part of `totalScore`. -/
def addCodeScore64 (c : CodeResult) (totalScore : JsNum) : JsNum :=
  if c.passed then totalScore.fadd (.num 30)
  else if truthy c.totalCodeBlocks then
    let ratio := (toNumber c.validCodeBlocks).fdiv (toNumber c.totalCodeBlocks)
    totalScore.fadd ((JsNum.num 30).fmul ratio)
  else totalScore

/-- The value of `maxScore` at line 288 in double arithmetic. -/
def maxScore64 : JsNum :=
  (((JsNum.num 0).fadd (.num 30)).fadd (.num 40)).fadd (.num 30)

/-- The value of `totalScore` at line 288 in double arithmetic. -/
def totalScore64 (r : Results) : JsNum :=
  addCodeScore64 r.code
    (addLinksScore64 r.links (addTerminologyScore64 r.terminology (.num 0)))

/-- The method `generateOverallReport` in double arithmetic: the value written
to `this.results.overall`.  `Math.round` gives the integer nearest to its
argument, a tie going up. -/
def generateOverallReport64 (r : Results) : Overall :=
  let finalScore := JsNum.round (((totalScore64 r).fdiv maxScore64).fmul (.num 100))
  { passed := finalScore.ge (.num 90), score := finalScore, grade := getGrade finalScore }

/-! ## generate-navigation.js -/

/-- The property names every object literal inherits from `Object.prototype`:
for these keys `obj[key]` is truthy although `obj` has no such own property. -/
def objectPrototypeKeys : List String :=
  ["constructor", "__proto__", "hasOwnProperty", "isPrototypeOf", "propertyIsEnumerable",
   "toLocaleString", "toString", "valueOf", "__defineGetter__", "__defineSetter__",
   "__lookupGetter__", "__lookupSetter__"]

/-- `s.split('/')` on the characters of `s`. -/
def splitSlash : List Char → List (List Char)
  | [] => [[]]
  | c :: cs =>
    if c = '/' then [] :: splitSlash cs
    else match splitSlash cs with
      | seg :: rest => (c :: seg) :: rest
      | [] => [[c]]

/-- `file.split('/')`. -/
def split (file : String) : List String :=
  (splitSlash file.toList).map String.mk

/-- `s.replace(pat, rep)` for a string pattern: the first occurrence is
replaced. -/
def replaceFirst (pat rep : List Char) : List Char → List Char
  | [] => if pat = [] then rep else []
  | c :: cs =>
    if pat.isPrefixOf (c :: cs) then rep ++ (c :: cs).drop pat.length
    else c :: replaceFirst pat rep cs

/-- `s.replace(pat, rep)`. -/
def replace (s pat rep : String) : String :=
  String.mk (replaceFirst pat.toList rep.toList s.toList)

/-- The local variables of the loops of `path.basename`. -/
structure BasenameState where
  start : Int
  «end» : Int
  matchedSlash : Bool
  extIdx : Int
  firstNonSlashEnd : Int

/-- The loop of `path.basename(path, suffix)` (POSIX) for a non-empty suffix
not longer than the path; `n` is `i + 1`. -/
def basenameSuffixLoop (path suffix : List Char) : Nat → BasenameState → BasenameState
  | 0, st => st
  | i + 1, st =>
    let code := path.getD i ' '
    if code = '/' then
      if !st.matchedSlash then { st with start := i + 1 }
      else basenameSuffixLoop path suffix i st
    else
      let st :=
        if st.firstNonSlashEnd = -1 then
          { st with matchedSlash := false, firstNonSlashEnd := i + 1 }
        else st
      let st :=
        if st.extIdx ≥ 0 then
          if code = suffix.getD st.extIdx.toNat ' ' then
            if st.extIdx - 1 = -1 then { st with extIdx := st.extIdx - 1, «end» := i }
            else { st with extIdx := st.extIdx - 1 }
          else { st with extIdx := -1, «end» := st.firstNonSlashEnd }
        else st
      basenameSuffixLoop path suffix i st

/-- The loop of `path.basename(path)` without a usable suffix. -/
def basenamePlainLoop (path : List Char) : Nat → BasenameState → BasenameState
  | 0, st => st
  | i + 1, st =>
    if path.getD i ' ' = '/' then
      if !st.matchedSlash then { st with start := i + 1 }
      else basenamePlainLoop path i st
    else if st.«end» = -1 then
      basenamePlainLoop path i { st with matchedSlash := false, «end» := i + 1 }
    else basenamePlainLoop path i st

/-- `path.slice(start, end)` for non-negative indices. -/
def slice (path : List Char) (start stop : Int) : List Char :=
  (path.drop start.toNat).take (stop.toNat - start.toNat)

/-- Node's `path.basename(path, suffix)` (POSIX flavour). -/
def basename (path suffix : String) : String :=
  let p := path.toList
  let x := suffix.toList
  let init : BasenameState :=
    { start := 0, «end» := -1, matchedSlash := true, extIdx := (x.length : Int) - 1,
      firstNonSlashEnd := -1 }
  if 0 < x.length ∧ x.length ≤ p.length then
    if suffix = path then ""
    else
      let st := basenameSuffixLoop p x p.length init
      let stop :=
        if st.start = st.«end» then st.firstNonSlashEnd
        else if st.«end» = -1 then (p.length : Int)
        else st.«end»
      String.mk (slice p st.start stop)
  else
    let st := basenamePlainLoop p p.length init
    if st.«end» = -1 then "" else String.mk (slice p st.start st.«end»)


/-- `parseInt(digits)` for a string of decimal digits. -/
def parseDigits (digits : List Char) : Nat :=
  digits.foldl (fun n d => 10 * n + (d.toNat - 48)) 0

/-- The first match of `/factor-(\d+)/`: the digits captured by the group. -/
def factorDigits : List Char → Option (List Char)
  | [] => none
  | c :: cs =>
    if "factor-".toList.isPrefixOf (c :: cs)
        ∧ ((c :: cs).drop 7).takeWhile Char.isDigit ≠ [] then
      some (((c :: cs).drop 7).takeWhile Char.isDigit)
    else factorDigits cs

/-- The table `specialOrder` of `getFileOrder`. -/
def specialOrder : List (String × Nat) :=
  [("introduction", 1), ("installation", 2), ("first-agent", 3), ("overview", 1),
   ("terminology", 2), ("agent-architecture", 3)]

/-- The method `getFileOrder`.  The result is `none` where the script returns
a value that is not an exactly represented integer: a property that
`specialOrder` inherits from `Object.prototype` (as for `constructor.md`), or
a parsed number above `2 ^ 53`. -/
def getFileOrder (filePath : String) : Option Nat :=
  let fileName := basename filePath ".md"
  match specialOrder.lookup fileName with
  | some n => some n
  | none =>
    if fileName ∈ objectPrototypeKeys then none
    else match factorDigits fileName.toList with
      | some digits => if parseDigits digits ≤ 2 ^ 53 then some (parseDigits digits) else none
      | none => some 999

/-- The replacement `str.replace(/\b\w/g, l => l.toUpperCase())` from the
position after `prev`. -/
def capitalizeWordsFrom : Option Char → List Char → List Char
  | _, [] => []
  | prev, c :: cs =>
    (if isWordChar c.toNat ∧ !(prev.elim false fun p => isWordChar p.toNat) then c.toUpper
     else c) :: capitalizeWordsFrom (some c) cs

/-- The method `capitalizeWords`. -/
def capitalizeWords (str : List Char) : List Char :=
  capitalizeWordsFrom none str

/-- The replacement of every hyphen by a space (`replace` with the global
hyphen pattern). -/
def hyphensToSpaces (s : List Char) : List Char :=
  s.map fun c => if c = '-' then ' ' else c

/-- The first match of `/factor-(\d+)-(.+)/`: the two captured groups. -/
def factorTitleMatch : List Char → Option (List Char × List Char)
  | [] => none
  | c :: cs =>
    let digits := ((c :: cs).drop 7).takeWhile Char.isDigit
    let rest := ((c :: cs).drop 7).dropWhile Char.isDigit
    let title := (rest.drop 1).takeWhile fun d => !isLineTerminator d.toNat
    if "factor-".toList.isPrefixOf (c :: cs) ∧ digits ≠ [] ∧ rest.head? = some '-'
        ∧ title ≠ [] then
      some (digits, title)
    else factorTitleMatch cs

/-- The table `titleMap` of `formatTitle`. -/
def titleMap : List (String × String) :=
  [("getting-started", "快速开始"), ("concepts", "核心概念"), ("factors", "12个因子"),
   ("tutorials", "实践教程"), ("tools", "工具指南"), ("best-practices", "最佳实践"),
   ("community", "社区资源"), ("workshop", "Workshop教程"), ("examples", "代码示例"),
   ("advanced", "高级教程"), ("introduction", "项目介绍"), ("installation", "环境配置"),
   ("first-agent", "第一个智能体"), ("overview", "概述"), ("terminology", "术语表"),
   ("agent-architecture", "智能体架构")]

/-- The method `formatTitle`.  The result is `none` where the script returns a
property that `titleMap` inherits from `Object.prototype` instead of a
string. -/
def formatTitle (name : String) : Option String :=
  match titleMap.lookup name with
  | some title => some title
  | none =>
    if name ∈ objectPrototypeKeys then none
    else match factorTitleMatch name.toList with
      | some (num, title) =>
        some ("因子" ++ String.mk num ++ ": "
          ++ String.mk (capitalizeWords (hyphensToSpaces title)))
      | none => some (String.mk (capitalizeWords (hyphensToSpaces name.toList)))

/-- A value stored in the object `structure` of `buildNavigationTree`; the
`children` of a directory are the own properties of its `children` object in
insertion order. -/
inductive Entry where
  | file (path title : String) (order : Nat)
  | directory (children : List (String × Entry)) (path title : String)
deriving Repr

/-- A node of the navigation tree built by `convertToNavigation`. -/
inductive NavItem where
  | directory (title path : String) (children : List NavItem)
  | file (title path : String) (order : Nat)
deriving Repr

/-- Outcomes of `buildNavigationTree` other than a tree. -/
inductive NavError where
  /-- The script throws `TypeError`: it reads or writes a property of the
  `undefined` left in `current` by `current[part].children`. -/
  | typeError
  /-- The script leaves the domain of the embedding: a file key `__proto__`
  (the assignment replaces the prototype of `current`), or a title or order
  that `formatTitle` or `getFileOrder` give as `none`. -/
  | unmodelled
deriving DecidableEq, Repr

/-- The assignment `current[key] = value`: an existing property keeps its
position, a new one is added last. -/
def setKey (key : String) (value : Entry) : List (String × Entry) → List (String × Entry)
  | [] => [(key, value)]
  | (k, e) :: rest =>
    if k = key then (k, value) :: rest else (k, e) :: setKey key value rest

/-- Lines 45-68 of `buildNavigationTree` for one file: the walk over the
directory parts that are left (`pre` holds the parts already passed) and the
assignment of the file node.  `current[part]` is truthy for an own property
and for the names of `objectPrototypeKeys`; where it is not a directory node,
`current[part].children` is `undefined` and the next access throws. -/
def addFile (extractTitle : String → String) (file fileName : String) :
    List String → List String → List (String × Entry) →
      Except NavError (List (String × Entry))
  | [], _, current =>
    if replace fileName ".md" "" = "__proto__" then .error .unmodelled
    else match getFileOrder file with
      | none => .error .unmodelled
      | some order =>
        .ok (setKey (replace fileName ".md" "") (.file file (extractTitle file) order) current)
  | part :: rest, pre, current =>
    match current.lookup part with
    | some (.directory children path title) =>
      match addFile extractTitle file fileName rest (pre ++ [part]) children with
      | .error e => .error e
      | .ok children => .ok (setKey part (.directory children path title) current)
    | some (.file _ _ _) => .error .typeError
    | none =>
      if part ∈ objectPrototypeKeys then .error .typeError
      else match formatTitle part with
        | none => .error .unmodelled
        | some title =>
          match addFile extractTitle file fileName rest (pre ++ [part]) [] with
          | .error e => .error e
          | .ok children =>
            .ok (setKey part
              (.directory children ("/".intercalate (pre ++ [part])) title) current)

/-- The value `fileName` of `buildNavigationTree`: `parts[parts.length - 1]`
for `parts = file.split('/')`. -/
def fileNameOf (file : String) : String :=
  (split file).getLast?.getD ""

/-- The loop of `buildNavigationTree` over `files` (lines 36-69). -/
def buildStructure (extractTitle : String → String) :
    List String → List (String × Entry) → Except NavError (List (String × Entry))
  | [], struct => .ok struct
  | file :: rest, struct =>
    if fileNameOf file = "README.md" then buildStructure extractTitle rest struct
    else
      match addFile extractTitle file (fileNameOf file) (split file).dropLast [] struct with
      | .error e => .error e
      | .ok struct => buildStructure extractTitle rest struct

/-- Comparison of two strings by their code units, as the default comparator
of `Array.prototype.sort` does: `a` is not after `b`. -/
def unitsLe : List Nat → List Nat → Bool
  | [], _ => true
  | _ :: _, [] => false
  | a :: as, b :: bs => a < b || (a == b && unitsLe as bs)

/-- The order used by `remaining.sort()`. -/
def keyLe (a b : String) : Prop :=
  unitsLe (codeUnits a) (codeUnits b) = true

instance : DecidableRel keyLe := fun a b =>
  inferInstanceAs (Decidable (unitsLe (codeUnits a) (codeUnits b) = true))

/-- The array `order` of `getOrderedKeys`. -/
def canonicalOrder : List String :=
  ["getting-started", "concepts", "factors", "tutorials", "tools", "best-practices",
   "community"]

/-- The first loop of `getOrderedKeys` (lines 126-131) over the keys of
`order` still to visit. -/
def pickOrdered : List String → List String × List String → List String × List String
  | [], acc => acc
  | key :: rest, (ordered, remaining) =>
    if key ∈ remaining then pickOrdered rest (ordered ++ [key], remaining.erase key)
    else pickOrdered rest (ordered, remaining)

/-- The method `getOrderedKeys`. -/
def getOrderedKeys (keys : List String) : List String :=
  (pickOrdered canonicalOrder ([], keys)).1
    ++ (pickOrdered canonicalOrder ([], keys)).2.insertionSort keyLe

/-- The value `a.order || 999` of the comparator. -/
def orderOr999 : NavItem → Int
  | .directory _ _ _ => 999
  | .file _ _ order => if order = 0 then 999 else order

/-- The comparator passed to `items.sort` (lines 102-106). -/
def compareItems : NavItem → NavItem → Int
  | .directory _ _ _, .file _ _ _ => -1
  | .file _ _ _, .directory _ _ _ => 1
  | a, b => orderOr999 a - orderOr999 b

/-- The comparator does not put `a` after `b`. -/
def itemLe (a b : NavItem) : Prop :=
  compareItems a b ≤ 0

instance : DecidableRel itemLe := fun a b =>
  inferInstanceAs (Decidable (compareItems a b ≤ 0))

/-- Lines 79-108 of `convertToNavigation` once the values of `structure` are
converted: the items are taken in the order of `getOrderedKeys` and sorted;
`Array.prototype.sort` is stable.  The keys are passed in insertion order;
`Object.keys` lists integer-like keys first, which `getOrderedKeys` undoes by
sorting every key outside its fixed list. -/
def arrangeItems (converted : List (String × NavItem)) : List NavItem :=
  ((getOrderedKeys (converted.map Prod.fst)).filterMap converted.lookup).insertionSort itemLe

mutual
/-- The item pushed for one value of `structure` (lines 84-98). -/
def convertEntry : Entry → NavItem
  | .file path title order => .file title ("/" ++ replace path ".md" ".html") order
  | .directory children path title =>
    .directory title ("/" ++ path ++ "/") (arrangeItems (convertEntries children))
/-- The values of `structure`, converted, under their keys. -/
def convertEntries : List (String × Entry) → List (String × NavItem)
  | [] => []
  | (key, item) :: rest => (key, convertEntry item) :: convertEntries rest
end

/-- The method `convertToNavigation`. -/
def convertToNavigation (struct : List (String × Entry)) : List NavItem :=
  arrangeItems (convertEntries struct)

/-- The method `buildNavigationTree`: the value assigned to
`this.navigation.children`; `extractTitle` gives the title read for each
file. -/
def buildNavigationTree (extractTitle : String → String) (files : List String) :
    Except NavError (List NavItem) :=
  match buildStructure extractTitle files [] with
  | .error e => .error e
  | .ok struct => .ok (convertToNavigation struct)

/-- The method `extractTitle` when no file can be read: the title is formatted
from the file name. -/
def extractTitleUnread (filePath : String) : String :=
  (formatTitle (basename filePath ".md")).getD ""


mutual
/-- The file nodes stored in a value of `structure`, at any depth: path, title
and order of each. -/
def Entry.fileEntries : Entry → List (String × String × Nat)
  | .file path title order => [(path, title, order)]
  | .directory children _ _ => entriesFiles children
/-- The file nodes stored in `structure`, at any depth. -/
def entriesFiles : List (String × Entry) → List (String × String × Nat)
  | [] => []
  | (_, item) :: rest => item.fileEntries ++ entriesFiles rest
end

mutual
/-- The `File` nodes of a navigation node, at any depth. -/
def NavItem.fileNodes : NavItem → List NavItem
  | .file title path order => [.file title path order]
  | .directory _ _ children => fileNodesOf children
/-- The `File` nodes of a list of navigation nodes, at any depth. -/
def fileNodesOf : List NavItem → List NavItem
  | [] => []
  | item :: rest => item.fileNodes ++ fileNodesOf rest
end

/-- The `order` fields of the `File` nodes of one children list, in the order
of the list. -/
def fileOrders (items : List NavItem) : List Nat :=
  items.filterMap fun item =>
    match item with
    | .file _ _ order => some order
    | .directory _ _ _ => none

mutual
/-- The children lists inside a navigation node: the list of every
`Directory` node at any depth. -/
def NavItem.childLists : NavItem → List (List NavItem)
  | .file _ _ _ => []
  | .directory _ _ children => children :: childListsOf children
/-- The children lists inside the nodes of a list. -/
def childListsOf : List NavItem → List (List NavItem)
  | [] => []
  | item :: rest => item.childLists ++ childListsOf rest
end

/-- Whether a navigation node is a `Directory` node. -/
def NavItem.isDirectory : NavItem → Bool
  | .directory _ _ _ => true
  | .file _ _ _ => false

mutual
/-- The paths of the directory nodes stored in a value of `structure`, at any
depth. -/
def Entry.directoryPaths : Entry → List String
  | .file _ _ _ => []
  | .directory children path _ => path :: entriesDirectoryPaths children
/-- The paths of the directory nodes stored in `structure`, at any depth. -/
def entriesDirectoryPaths : List (String × Entry) → List String
  | [] => []
  | (_, item) :: rest => item.directoryPaths ++ entriesDirectoryPaths rest
end

mutual
/-- The `Directory` nodes of a navigation node, at any depth, itself
included. -/
def NavItem.directoryNodes : NavItem → List NavItem
  | .file _ _ _ => []
  | .directory title path children =>
    .directory title path children :: directoryNodesOf children
/-- The `Directory` nodes of a list of navigation nodes, at any depth. -/
def directoryNodesOf : List NavItem → List NavItem
  | [] => []
  | item :: rest => item.directoryNodes ++ directoryNodesOf rest
end

/-! ## terminology-manager.js

`String.prototype.toLowerCase` belongs to the runtime and is a parameter
(`toLowerCase`) of the methods that use it.  The dictionary file is the list of
`Term` records it holds (`JSON.parse` and `JSON.stringify` are taken to be
inverse on such records); writing the file succeeds. -/

/-- The method `map.set(key, value)` on the entries of a `Map` in insertion
order: the value of an existing key is replaced in place, a new key is added
last. -/
def mapSet {α : Type} (key : String) (value : α) : List (String × α) → List (String × α)
  | [] => [(key, value)]
  | (k, v) :: rest =>
    if k = key then (k, value) :: rest else (k, v) :: mapSet key value rest

/-- The entries left by `map.delete(key)`. -/
def mapDelete {α : Type} (key : String) : List (String × α) → List (String × α)
  | [] => []
  | (k, v) :: rest => if k = key then rest else (k, v) :: mapDelete key rest

/-- The method `set.add(value)` on the elements of a `Set` in insertion
order. -/
def setAdd {α : Type} [DecidableEq α] (value : α) (s : List α) : List α :=
  if value ∈ s then s else s ++ [value]

/-- A `TerminologyManager` together with the dictionary file it reads and
writes: the `Map` `terminology`, the `Set` `categories`, and the records of
the file at `dictionaryPath` (`none` when the file is missing or does not
parse). -/
structure Manager where
  terminology : List (String × Term)
  categories : List (Option String)
  file : Option (List Term)
deriving DecidableEq, Repr

/-- Exceptions of the manager. -/
inductive ManagerError where
  /-- The dictionary file cannot be read or parsed (rethrown by
  `loadTerminology`). -/
  | loadError
  /-- The exception `new Error(message)`. -/
  | error (message : String)
deriving DecidableEq, Repr

/-- The loop of `loadTerminology` over the parsed terms (lines 17-20). -/
def loadTerms (toLowerCase : String → String) :
    List Term → List (String × Term) × List (Option String) →
      List (String × Term) × List (Option String)
  | [], state => state
  | term :: rest, (terminology, categories) =>
    loadTerms toLowerCase rest
      (mapSet (toLowerCase term.english) term terminology, setAdd term.category categories)

/-- The method `loadTerminology`: the state it leaves and whether it threw. -/
def loadTerminology (toLowerCase : String → String) (m : Manager) :
    Manager × Except ManagerError Unit :=
  match m.file with
  | none => (m, .error .loadError)
  | some terms =>
    ({ m with
        terminology := (loadTerms toLowerCase terms (m.terminology, m.categories)).1,
        categories := (loadTerms toLowerCase terms (m.terminology, m.categories)).2 },
     .ok ())

/-- The manager after `new TerminologyManager(dictionaryPath)` and the end of
the `loadTerminology` it starts. -/
def newManager (toLowerCase : String → String) (file : Option (List Term)) :
    Manager × Except ManagerError Unit :=
  loadTerminology toLowerCase { terminology := [], categories := [], file := file }

/-- The method `getTranslation`; `none` is `null`. -/
def getTranslation (toLowerCase : String → String) (m : Manager) (englishTerm : String) :
    Option String :=
  match m.terminology.lookup (toLowerCase englishTerm) with
  | some term => some term.chinese
  | none => none

/-- The method `shouldKeepEnglish`. -/
def shouldKeepEnglish (toLowerCase : String → String) (m : Manager) (englishTerm : String) :
    Bool :=
  match m.terminology.lookup (toLowerCase englishTerm) with
  | some term => term.usage == "keep_english"
  | none => false

/-- The method `getAlternatives`. -/
def getAlternatives (toLowerCase : String → String) (m : Manager) (englishTerm : String) :
    List String :=
  match m.terminology.lookup (toLowerCase englishTerm) with
  | some term => term.alternatives.getD []
  | none => []

/-- The method `saveTerminology`: the values of the map are written to the
file. -/
def saveTerminology (m : Manager) : Manager :=
  { m with file := some (m.terminology.map Prod.snd) }

/-- The method `addTerm`; the caller passes `[]` for `alternatives` and
`'preferred'` for `usage` where the script uses its defaults. -/
def addTerm (toLowerCase : String → String) (m : Manager) (englishTerm chineseTerm : String)
    (category context : Option String) (alternatives : List String) (usage : String) :
    Manager :=
  saveTerminology
    { m with
      terminology :=
        mapSet (toLowerCase englishTerm)
          { english := englishTerm, chinese := chineseTerm, category := category,
            context := context, alternatives := some alternatives, usage := usage }
          m.terminology,
      categories := setAdd category m.categories }

/-- The object `updates` of `updateTerm`: for each property of a term, the
value the object holds for it, if it has the property. -/
structure TermPatch where
  english : Option String
  chinese : Option String
  category : Option (Option String)
  context : Option (Option String)
  alternatives : Option (Option (List String))
  usage : Option String
deriving DecidableEq, Repr

/-- The call `Object.assign(term, updates)`. -/
def TermPatch.assign (updates : TermPatch) (term : Term) : Term where
  english := updates.english.getD term.english
  chinese := updates.chinese.getD term.chinese
  category := updates.category.getD term.category
  context := updates.context.getD term.context
  alternatives := updates.alternatives.getD term.alternatives
  usage := updates.usage.getD term.usage

/-- The method `updateTerm`: the state it leaves and whether it threw.  The
term object is changed in place, under the key it already has. -/
def updateTerm (toLowerCase : String → String) (m : Manager) (englishTerm : String)
    (updates : TermPatch) : Manager × Except ManagerError Unit :=
  match m.terminology.lookup (toLowerCase englishTerm) with
  | none => (m, .error (.error ("术语 \"" ++ englishTerm ++ "\" 不存在")))
  | some term =>
    (saveTerminology
      { m with
        terminology := mapSet (toLowerCase englishTerm) (updates.assign term) m.terminology },
     .ok ())

/-- The method `removeTerm`: the state it leaves and whether it threw.  For a
key that is not in the map the script prints a warning. -/
def removeTerm (toLowerCase : String → String) (m : Manager) (englishTerm : String) :
    Manager × Except ManagerError Unit :=
  if (m.terminology.lookup (toLowerCase englishTerm)).isSome then
    (saveTerminology
      { m with terminology := mapDelete (toLowerCase englishTerm) m.terminology },
     .ok ())
  else (m, .ok ())

/-- An issue object pushed by `validateConsistency`. -/
structure ValidationIssue where
  type : String
  message : String
deriving DecidableEq, Repr

/-- The issue pushed at lines 211-214. -/
def duplicateChineseIssue (term : Term) (english first : String) : ValidationIssue where
  type := "duplicate_chinese"
  message := "中文术语 \"" ++ term.chinese ++ "\" 对应多个英文术语: " ++ english ++ ", " ++ first

/-- The issue pushed at lines 223-226. -/
def missingContextIssue (english : String) : ValidationIssue where
  type := "missing_context"
  message := "术语 \"" ++ english ++ "\" 缺少上下文说明"

/-- The characters removed by `String.prototype.trim`: white space and line
terminators. -/
def isTrimmed (c : Char) : Bool :=
  c.toNat ∈ [0x09, 0x0A, 0x0B, 0x0C, 0x0D, 0x20, 0xA0, 0x1680, 0x2028, 0x2029, 0x202F,
    0x205F, 0x3000, 0xFEFF] || (0x2000 ≤ c.toNat && c.toNat ≤ 0x200A)

/-- The method `String.prototype.trim`. -/
def trim (s : String) : String :=
  String.mk ((s.toList.dropWhile isTrimmed).reverse.dropWhile isTrimmed).reverse

/-- The test `!term.context || term.context.trim() === ''`. -/
def contextMissing (context : Option String) : Bool :=
  match context with
  | none => true
  | some s => s == "" || trim s == ""

/-- The first loop of `validateConsistency` (lines 209-218); `chineseTerms`
maps a chinese value to the key of the first term that has it. -/
def duplicateLoop :
    List (String × Term) → List (String × String) → List ValidationIssue →
      List ValidationIssue
  | [], _, issues => issues
  | (english, term) :: rest, chineseTerms, issues =>
    match chineseTerms.lookup term.chinese with
    | some first =>
      duplicateLoop rest chineseTerms (issues ++ [duplicateChineseIssue term english first])
    | none => duplicateLoop rest (mapSet term.chinese english chineseTerms) issues

/-- The second loop of `validateConsistency` (lines 221-228). -/
def missingLoop : List (String × Term) → List ValidationIssue → List ValidationIssue
  | [], issues => issues
  | (english, term) :: rest, issues =>
    if contextMissing term.context then
      missingLoop rest (issues ++ [missingContextIssue english])
    else missingLoop rest issues

/-- The method `validateConsistency`: the state it leaves and the list it
returns. -/
def validateConsistency (m : Manager) : Manager × List ValidationIssue :=
  (m, missingLoop m.terminology (duplicateLoop m.terminology [] []))

/-- The method `String.prototype.toLowerCase` on strings of ASCII characters,
where it lowers the letters `A` to `Z` and nothing else; the examples apply it
to such strings only. -/
def asciiToLowerCase (s : String) : String :=
  String.mk (s.toList.map Char.toLower)

/-- The managers reached from a new `TerminologyManager` by `loadTerminology`
and `addTerm`, the dictionary file being free to change in between. -/
inductive Manager.Built (toLowerCase : String → String) : Manager → Prop where
  | new (file : Option (List Term)) :
    Manager.Built toLowerCase { terminology := [], categories := [], file := file }
  | load {m : Manager} :
    Manager.Built toLowerCase m → Manager.Built toLowerCase (loadTerminology toLowerCase m).1
  | add {m : Manager} (englishTerm chineseTerm : String) (category context : Option String)
      (alternatives : List String) (usage : String) :
    Manager.Built toLowerCase m →
    Manager.Built toLowerCase
      (addTerm toLowerCase m englishTerm chineseTerm category context alternatives usage)
  | fileChanged {m : Manager} (file : Option (List Term)) :
    Manager.Built toLowerCase m → Manager.Built toLowerCase { m with file := file }

/-- A dictionary file with two spellings of one key, for the examples. -/
def agentTermCapital : Term :=
  { english := "Agent", chinese := "代理", category := some "concept", context := none,
    alternatives := none, usage := "preferred" }

/-- The manager built from the file with `agentTerm` and `toolTerm`, for the
examples. -/
def sampleManager : Manager :=
  (newManager asciiToLowerCase (some [agentTerm, toolTerm])).1

/-- One call of a mutating method of the manager. -/
inductive ManagerOp where
  | add (englishTerm chineseTerm : String) (category context : Option String)
      (alternatives : List String) (usage : String)
  | update (englishTerm : String) (updates : TermPatch)
  | remove (englishTerm : String)
deriving DecidableEq, Repr

/-- The manager after one call, whether the call threw or not. -/
def ManagerOp.run (toLowerCase : String → String) (m : Manager) : ManagerOp → Manager
  | .add englishTerm chineseTerm category context alternatives usage =>
    addTerm toLowerCase m englishTerm chineseTerm category context alternatives usage
  | .update englishTerm updates => (updateTerm toLowerCase m englishTerm updates).1
  | .remove englishTerm => (removeTerm toLowerCase m englishTerm).1

/-- The manager after a sequence of calls. -/
def runOps (toLowerCase : String → String) (m : Manager) (ops : List ManagerOp) : Manager :=
  ops.foldl (ManagerOp.run toLowerCase) m

/-- Whether a call leaves the `english` property of every term alone: it is
not an `updateTerm` whose `updates` has the property `english`. -/
def ManagerOp.keepsEnglish : ManagerOp → Bool
  | .update _ updates => updates.english.isNone
  | _ => true

/-- The `english` labels of the stored terms after lower-casing, in map
order. -/
def storedLabels (toLowerCase : String → String) (m : Manager) : List String :=
  m.terminology.map fun p => toLowerCase p.2.english

/-- The patch that renames a term to `Tool`, for the examples. -/
def renameToTool : TermPatch :=
  { english := some "Tool", chinese := none, category := none, context := none,
    alternatives := none, usage := none }

/-- Follows the words of the claim on `validateConsistency`: one
`duplicate_chinese` issue for each term whose chinese value equals that of a
term earlier in registry order; `before` holds the earlier entries, and the
issue names the key of the term and the key of the first earlier term with
its chinese value. -/
def duplicateChineseSpec (before : List (String × Term)) :
    List (String × Term) → List ValidationIssue
  | [] => []
  | (english, term) :: rest =>
    (match before.find? (fun p => p.2.chinese = term.chinese) with
      | some first => [duplicateChineseIssue term english first.1]
      | none => [])
    ++ duplicateChineseSpec (before ++ [(english, term)]) rest

/-- Follows the words of the claim on `validateConsistency`: one
`missing_context` issue for each term whose context is missing, in registry
order. -/
def missingContextSpec (entries : List (String × Term)) : List ValidationIssue :=
  entries.filterMap fun p =>
    if contextMissing p.2.context then some (missingContextIssue p.1) else none

/-! ## terminology-checker.js: `checkDirectory` -/

/-- Exceptions that leave `checkFile(filePath)`. -/
inductive CheckError where
  /-- The rejection of `fs.readFile(filePath, 'utf8')`. -/
  | readError (filePath : String)
  /-- An exception of a `RegExp` constructor. -/
  | regExp (e : RegExpError)
deriving DecidableEq, Repr

/-- The method `checkFile(filePath)`: the file is read (line 24) and the
dictionary is run over its content; `readFile` gives the content of a file
that can be read. -/
def checkFileAt (E : RegExpEngine) (readFile : String → Option String)
    (terminology : List Term) (filePath : String) : Except CheckError (List Issue) :=
  match readFile filePath with
  | none => .error (.readError filePath)
  | some content =>
    match checkFile E content terminology with
    | .error e => .error (.regExp e)
    | .ok issues => .ok issues

/-- The object returned by `checkDirectory`: `files` holds the properties of
`allIssues` in insertion order (the keys are paths found by the `**/*.md`
pattern). -/
structure DirectoryResult where
  files : List (String × List Issue)
  total : Nat
deriving DecidableEq, Repr

/-- The loop of `checkDirectory` over `markdownFiles` (lines 90-98); a file is
read under the path the loop joins for it. -/
def checkDirectoryLoop (E : RegExpEngine) (readFile : String → Option String)
    (terminology : List Term) :
    List String → DirectoryResult → Except CheckError DirectoryResult
  | [], result => .ok result
  | file :: rest, result =>
    match checkFileAt E readFile terminology file with
    | .error e => .error e
    | .ok issues =>
      if issues.length > 0 then
        checkDirectoryLoop E readFile terminology rest
          { files := mapSet file issues result.files,
            total := result.total + issues.length }
      else checkDirectoryLoop E readFile terminology rest result

/-- The method `checkDirectory`, on the list `markdownFiles` found in the
directory. -/
def checkDirectory (E : RegExpEngine) (readFile : String → Option String)
    (terminology : List Term) (markdownFiles : List String) :
    Except CheckError DirectoryResult :=
  checkDirectoryLoop E readFile terminology markdownFiles { files := [], total := 0 }

/-- A directory in which `b.md` can be read and `a.md` cannot, for the
examples. -/
def sampleReadFile (filePath : String) : Option String :=
  if filePath = "b.md" then some "The agent runs." else none

/-- The results of the checks when the terminology check failed with an error
and every link and code block is fine, for the examples. -/
def terminologyFailedResults : Results where
  terminology := { passed := false, totalIssues := none }
  links := { passed := true, totalLinks := some 3, brokenLinks := some 0 }
  code := { passed := true, totalCodeBlocks := some 2, validCodeBlocks := some 2 }

/-- The issues that one iteration of the loop of `checkFile` pushes for
`term`; the empty list when a `RegExp` constructor throws. -/
def termIssues (E : RegExpEngine) (content : String) (term : Term) : List Issue :=
  match checkTerm E content term [] with
  | .ok block => block
  | .error _ => []

/-- The characters of the class in the pattern of `escapeRegex`. -/
def escapedChars : List Char :=
  ['.', '*', '+', '?', '^', '$', '\x7b', '\x7d', '(', ')', '|', '[', ']', '\\']

/-- Deleting the escaping backslashes: a backslash is dropped and the
character after it is kept. -/
def dropEscapes : List Char → List Char
  | [] => []
  | [c] => [c]
  | c :: d :: rest => if c = '\\' then d :: dropEscapes rest else c :: dropEscapes (d :: rest)

/-- Follows the words of the claim on the occurrence counts: the number of
non-overlapping occurrences of the code units `pat` in a text, scanned from
left to right; `skip` counts the units still covered by the occurrence found
last. -/
def literalCountFrom (pat : List Nat) : Nat → List Nat → Nat
  | _, [] => 0
  | skip + 1, _ :: cs => literalCountFrom pat skip cs
  | 0, c :: cs =>
    if pat.isPrefixOf (c :: cs) then 1 + literalCountFrom pat (pat.length - 1) cs
    else literalCountFrom pat 0 cs

/-- Follows the words of the claim on the occurrence counts: the number of
non-overlapping literal occurrences of `target` in `text`. -/
def literalCount (target text : String) : Nat :=
  literalCountFrom (codeUnits target) 0 (codeUnits text)

/-- A term whose translation holds a dot, for the examples. -/
def runtimeTerm : Term :=
  { english := "runtime", chinese := "Node.js 运行时", category := some "technical",
    context := none, alternatives := none, usage := "preferred" }

/-! ## generate-navigation.js: `generateBreadcrumbsData` -/

/-- The assignment `breadcrumbs[key] = value` on the own properties of the
object, in insertion order: for the key `__proto__` the assignment replaces the
prototype of the object and stores no property.  (An object lists its
integer-like keys first; the lists of the embedding keep insertion order, which
no lookup depends on.) -/
def assignKey (key : String) (value : List String)
    (breadcrumbs : List (String × List String)) : List (String × List String) :=
  if key = "__proto__" then breadcrumbs else mapSet key value breadcrumbs

/-- The call `Object.assign(target, source)`: the own properties of `source`
are assigned to `target` in their order. -/
def objectAssign (target source : List (String × List String)) :
    List (String × List String) :=
  source.foldl (fun t p => mapSet p.1 p.2 t) target

mutual
/-- The body of the loop of `generateBreadcrumbsData` for one item (lines
269-277): a `File` node is stored under its path, and the object returned for
the children of a `Directory` node is assigned to `breadcrumbs`; a `File` node
has no `children`. -/
def breadcrumbsItem (parentPath : List String) :
    NavItem → List (String × List String) → List (String × List String)
  | .file title path _, breadcrumbs => assignKey path (parentPath ++ [title]) breadcrumbs
  | .directory title _ children, breadcrumbs =>
    objectAssign breadcrumbs (breadcrumbsLoop (parentPath ++ [title]) children [])
/-- The loop of `generateBreadcrumbsData` over `items` (lines 268-278). -/
def breadcrumbsLoop (parentPath : List String) :
    List NavItem → List (String × List String) → List (String × List String)
  | [], breadcrumbs => breadcrumbs
  | item :: rest, breadcrumbs =>
    breadcrumbsLoop parentPath rest (breadcrumbsItem parentPath item breadcrumbs)
end

/-- The method `generateBreadcrumbsData(items, parentPath)`. -/
def generateBreadcrumbsData (items : List NavItem) (parentPath : List String) :
    List (String × List String) :=
  breadcrumbsLoop parentPath items []

mutual
/-- Follows the words of the claim on the breadcrumbs: for each `File` node
inside a node, its path with the titles of its enclosing `Directory` nodes
from the outermost to the innermost, followed by its own title; `ancestors`
holds the titles of the directories around the node. -/
def NavItem.trails (ancestors : List String) : NavItem → List (String × List String)
  | .file title path _ => [(path, ancestors ++ [title])]
  | .directory title _ children => trailsOf (ancestors ++ [title]) children
/-- Follows the words of the claim on the breadcrumbs: the `File` nodes of a
list of nodes, at any depth, each with its path and its trail of titles. -/
def trailsOf (ancestors : List String) : List NavItem → List (String × List String)
  | [] => []
  | item :: rest => item.trails ancestors ++ trailsOf ancestors rest
end

mutual
/-- The `File` nodes inside a node, each with its path and its depth below
the root; `depth` is the depth of the node itself. -/
def NavItem.depths (depth : Nat) : NavItem → List (String × Nat)
  | .file _ path _ => [(path, depth)]
  | .directory _ _ children => depthsOf (depth + 1) children
/-- The `File` nodes of a list of nodes at depth `depth`, each with its path
and its depth below the root. -/
def depthsOf (depth : Nat) : List NavItem → List (String × Nat)
  | [] => []
  | item :: rest => item.depths depth ++ depthsOf depth rest
end

/-- The value under `key` in the entry of a list that comes last among those
with that key. -/
def lastLookup (key : String) : List (String × List String) → Option (List String)
  | [] => none
  | (k, v) :: rest =>
    match lastLookup key rest with
    | some w => some w
    | none => if k = key then some v else none

/-- A tree in which two files of different directories have the same path, for
the examples. -/
def samePathTree : List NavItem :=
  [.directory "指南" "/guide/" [.file "安装" "/install.html" 2],
   .directory "工具" "/tools/" [.file "配置" "/install.html" 999]]

/-- The tree of the files `guide/installation.md` and `overview.md`, for the
examples. -/
def sampleTree : List NavItem :=
  [.directory "Guide" "/guide/" [.file "环境配置" "/guide/installation.html" 2],
   .file "概述" "/overview.html" 1]

/-! ## quality-check.js: `hasMatchingBraces` -/

/-- The object `pairs` of `hasMatchingBraces`: each opening bracket with its
closing bracket. -/
def pairs : List (Char × Char) :=
  [('(', ')'), ('[', ']'), ('\x7b', '\x7d')]

/-- The loop of `hasMatchingBraces` over the characters of `code` (lines
240-249) and the final test; the top of `stack` is the head of the list.
`stack.pop()` on an empty stack gives `undefined`, for which `!last` holds. -/
def matchingLoop : List Char → List Char → Bool
  | [], stack => stack.isEmpty
  | char :: rest, stack =>
    if char ∈ pairs.map Prod.fst then matchingLoop rest (char :: stack)
    else if char ∈ pairs.map Prod.snd then
      match stack with
      | [] => false
      | last :: stack =>
        if pairs.lookup last ≠ some char then false else matchingLoop rest stack
    else matchingLoop rest stack

/-- The method `hasMatchingBraces`. -/
def hasMatchingBraces (code : String) : Bool :=
  matchingLoop code.toList []

/-- The six bracket characters. -/
def isBracket (c : Char) : Bool :=
  c ∈ pairs.map Prod.fst || c ∈ pairs.map Prod.snd

/-- Follows the words of the claim on `hasMatchingBraces`: the well nested
sequences of brackets are the empty one, a well nested one between an opening
bracket and the closing bracket of the same kind, and two well nested ones side
by side. -/
inductive WellNested : List Char → Prop where
  | nil : WellNested []
  | wrap {o c : Char} {w : List Char} :
    (o, c) ∈ pairs → WellNested w → WellNested (o :: w ++ [c])
  | append {u v : List Char} : WellNested u → WellNested v → WellNested (u ++ v)

/-! ## terminology-checker.js: `autoFix` -/

/-- A regular-expression engine with replacement: `replace source ignoreCase
content replacement` is `content.replace(regex, replacement)` for the global
regular expression of `matchCount`, or the error raised by the constructor. -/
structure ReplaceEngine extends RegExpEngine where
  replace : String → Bool → String → String → Except RegExpError String

/-- The code units of `content.replace(regex, replacement)` for a global
regular expression: every match found by the scan of `countMatches` is
replaced, the units between the matches are kept. -/
def replaceMatches (ignoreCase : Bool) (atoms : List Atom) (replacement : List Nat) :
    Option Nat → Nat → List Nat → List Nat
  | prev, skip, [] =>
    if skip = 0 ∧ (matchHere ignoreCase atoms prev []).isSome then replacement else []
  | _, skip + 1, c :: cs => replaceMatches ignoreCase atoms replacement (some c) skip cs
  | prev, 0, c :: cs =>
    match matchHere ignoreCase atoms prev (c :: cs) with
    | some n =>
      replacement ++ (if n = 0 then [c] else [])
        ++ replaceMatches ignoreCase atoms replacement (some c) (n - 1) cs
    | none => c :: replaceMatches ignoreCase atoms replacement (some c) 0 cs

/-- The characters of a sequence of UTF-16 code units; `none` for a sequence
with a surrogate that has no partner. -/
def decodeUnits : List Nat → Option (List Char)
  | [] => some []
  | [u] => if u < 0xD800 ∨ 0xDFFF < u then some [Char.ofNat u] else none
  | u :: v :: rest =>
    if u < 0xD800 ∨ 0xDFFF < u then (decodeUnits (v :: rest)).map (Char.ofNat u :: ·)
    else if u < 0xDC00 ∧ 0xDC00 ≤ v ∧ v ≤ 0xDFFF then
      (decodeUnits rest).map
        (Char.ofNat (0x10000 + (u - 0xD800) * 0x400 + (v - 0xDC00)) :: ·)
    else none

/-- The engine for the implemented fragment, with replacement.  A replacement
that holds `$` (the sign of the replacement patterns) and a result that is no
sequence of characters are reported as unsupported. -/
def jsReplace : ReplaceEngine where
  matchCount := jsRegExp.matchCount
  replace source ignoreCase content replacement :=
    match parsePattern (codeUnits source) with
    | .error e => .error e
    | .ok atoms =>
      if ignoreCase && !asciiAtoms atoms then .error .unsupported
      else if 36 ∈ codeUnits replacement then .error .unsupported
      else
        match decodeUnits
            (replaceMatches ignoreCase atoms (codeUnits replacement) none 0
              (codeUnits content)) with
        | some chars => .ok (String.mk chars)
        | none => .error .unsupported

/-- The object returned by `autoFix`. -/
structure AutoFixResult where
  changes : Int
  content : String
deriving DecidableEq, Repr

/-- Lines 169-172 and 178-181 of `autoFix` for one pattern source: the matches
are counted, replaced by `term.chinese` and counted again. -/
def fixPattern (E : ReplaceEngine) (source : String) (term : Term) (state : AutoFixResult) :
    Except RegExpError AutoFixResult :=
  match E.matchCount source false state.content with
  | .error e => .error e
  | .ok beforeCount =>
    match E.replace source false state.content term.chinese with
    | .error e => .error e
    | .ok content =>
      match E.matchCount source false content with
      | .error e => .error e
      | .ok afterCount =>
        .ok { changes := state.changes + ((beforeCount : Int) - afterCount),
              content := content }

/-- The inner loop of `autoFix` over `term.alternatives` (lines 176-182). -/
def fixAlternatives (E : ReplaceEngine) (term : Term) :
    List String → AutoFixResult → Except RegExpError AutoFixResult
  | [], state => .ok state
  | alt :: rest, state =>
    match fixPattern E alt term state with
    | .error e => .error e
    | .ok state => fixAlternatives E term rest state

/-- One iteration of the loop of `autoFix` (lines 166-184). -/
def fixTerm (E : ReplaceEngine) (term : Term) (state : AutoFixResult) :
    Except RegExpError AutoFixResult :=
  if term.usage = "preferred" then
    match fixPattern E (englishSource term) term state with
    | .error e => .error e
    | .ok state =>
      match term.alternatives with
      | some alternatives => fixAlternatives E term alternatives state
      | none => .ok state
  else .ok state

/-- The loop of `autoFix` over `this.terminology` (lines 165-185). -/
def autoFixLoop (E : ReplaceEngine) :
    List Term → AutoFixResult → Except RegExpError AutoFixResult
  | [], state => .ok state
  | term :: rest, state =>
    match fixTerm E term state with
    | .error e => .error e
    | .ok state => autoFixLoop E rest state

/-- The method `autoFix`, on the content read from the file: the object it
returns and the content it writes to the file (`none` when it does not
write). -/
def autoFix (E : ReplaceEngine) (terminology : List Term) (content : String)
    (dryRun : Bool) : Except RegExpError (AutoFixResult × Option String) :=
  match autoFixLoop E terminology { changes := 0, content := content } with
  | .error e => .error e
  | .ok result =>
    .ok (result, if !dryRun && decide (result.changes > 0) then some result.content else none)

/-- A term whose translation repeats the English term in brackets, for the
examples. -/
def glossTerm : Term :=
  { english := "agent", chinese := "智能体 (agent)", category := some "concept",
    context := none, alternatives := none, usage := "preferred" }

/-- A term whose translation holds the English term twice, for the
examples. -/
def doubleGlossTerm : Term :=
  { english := "LLM", chinese := "LLM 大语言模型 (LLM)", category := some "technical",
    context := none, alternatives := none, usage := "preferred" }

/-- A term that stays in English and whose translation holds a dot, for the
examples. -/
def dottedKeepTerm : Term :=
  { english := "zz", chinese := "a.b", category := none, context := none,
    alternatives := none, usage := "keep_english" }

/-- A term with a deprecated spelling that holds a dot, for the examples. -/
def dottedAltTerm : Term :=
  { english := "zz", chinese := "汉", category := none, context := none,
    alternatives := some ["a.b"], usage := "preferred" }

/-! ## Theorems: terminology checker -/

theorem checkAlternatives_append (E : RegExpEngine) (content : String) (term : Term) :
    ∀ (alts : List String) (issues : List Issue),
      checkAlternatives E content term alts issues
        = (checkAlternatives E content term alts []).map (issues ++ ·) := by
  intro alts
  induction alts with
  | nil => intro issues; simp [checkAlternatives, Except.map]
  | cons alt rest ih =>
    intro issues
    simp only [checkAlternatives]
    cases hn : E.matchCount alt false content with
    | error e => simp [Except.map]
    | ok n =>
      simp only []
      by_cases h : n > 0
      · simp only [h, if_true]
        rw [ih (issues ++ _), ih ([] ++ _)]
        cases checkAlternatives E content term rest [] <;> simp [Except.map]
      · simp only [h, if_false]
        exact ih issues

/-- The issues pushed for the alternatives: one per alternative with a
positive count, in the order of the list. -/
theorem checkAlternatives_ok (E : RegExpEngine) (content : String) (term : Term) :
    ∀ (alts : List String) (out : List Issue),
      checkAlternatives E content term alts [] = .ok out →
      ∃ counts : List Nat,
        List.Forall₂ (fun alt n => E.matchCount alt false content = .ok n) alts counts ∧
        out = (alts.zip counts).filterMap
          (fun p => if p.2 > 0 then some (alternativeUsedIssue term p.1 p.2) else none) := by
  intro alts
  induction alts with
  | nil =>
    intro out h
    simp only [checkAlternatives, Except.ok.injEq] at h
    exact ⟨[], List.Forall₂.nil, by simp [← h]⟩
  | cons alt rest ih =>
    intro out h
    simp only [checkAlternatives] at h
    cases hn : E.matchCount alt false content with
    | error e => simp [hn] at h
    | ok n =>
      simp only [hn] at h
      rw [checkAlternatives_append] at h
      cases hr : checkAlternatives E content term rest [] with
      | error e => simp [hr, Except.map] at h
      | ok tail =>
        simp only [hr, Except.map, Except.ok.injEq] at h
        obtain ⟨counts, hc, ht⟩ := ih tail hr
        refine ⟨n :: counts, List.Forall₂.cons hn hc, ?_⟩
        by_cases hpos : n > 0
        · simp [← h, hpos, ht]
        · simp [← h, hpos, ht]

theorem checkTerm_append (E : RegExpEngine) (content : String) (term : Term)
    (issues : List Issue) :
    checkTerm E content term issues
      = (checkTerm E content term []).map (issues ++ ·) := by
  unfold checkTerm
  cases E.matchCount (englishSource term) true content with
  | error e => simp [Except.map]
  | ok e =>
    cases E.matchCount term.chinese false content with
    | error e => simp [Except.map]
    | ok c =>
      simp only []
      cases halts : term.alternatives with
      | none => simp only [Except.map]; split_ifs <;> simp
      | some alts =>
        cases alts with
        | nil => simp only [Except.map]; split_ifs <;> simp
        | cons alt rest =>
          simp only []
          rw [checkAlternatives_append E content term (alt :: rest)
                (if term.usage = "keep_english" then
                  if c > 0 then issues ++ [shouldKeepEnglishIssue term c] else issues
                 else if e > 0 ∧ c = 0 then issues ++ [shouldTranslateIssue term e]
                 else issues),
              checkAlternatives_append E content term (alt :: rest)
                (if term.usage = "keep_english" then
                  if c > 0 then [] ++ [shouldKeepEnglishIssue term c] else []
                 else if e > 0 ∧ c = 0 then [] ++ [shouldTranslateIssue term e]
                 else [])]
          cases checkAlternatives E content term (alt :: rest) [] with
          | error e => simp [Except.map]
          | ok tail => simp only [Except.map]; split_ifs <;> simp

/-- The issues one term contributes: the usage issue if its condition holds,
then the issues of the alternatives. -/
theorem checkTerm_ok (E : RegExpEngine) (content : String) (term : Term)
    (block : List Issue) (h : checkTerm E content term [] = .ok block) :
    ∃ (e c : Nat) (counts : List Nat),
      E.matchCount (englishSource term) true content = .ok e ∧
      E.matchCount term.chinese false content = .ok c ∧
      List.Forall₂ (fun alt n => E.matchCount alt false content = .ok n)
        (term.alternatives.getD []) counts ∧
      block =
        (if term.usage = "keep_english" then
          if c > 0 then [shouldKeepEnglishIssue term c] else []
         else if e > 0 ∧ c = 0 then [shouldTranslateIssue term e] else [])
        ++ ((term.alternatives.getD []).zip counts).filterMap
          (fun p => if p.2 > 0 then some (alternativeUsedIssue term p.1 p.2) else none) := by
  unfold checkTerm at h
  cases he : E.matchCount (englishSource term) true content with
  | error e => simp [he] at h
  | ok e =>
    cases hc : E.matchCount term.chinese false content with
    | error e => simp [he, hc] at h
    | ok c =>
      simp only [he, hc] at h
      cases halts : term.alternatives with
      | none =>
        simp only [halts, Except.ok.injEq] at h
        refine ⟨e, c, [], rfl, rfl, by simp, ?_⟩
        rw [← h]; split_ifs <;> simp
      | some alts =>
        cases alts with
        | nil =>
          simp only [halts, Except.ok.injEq] at h
          refine ⟨e, c, [], rfl, rfl, by simp, ?_⟩
          rw [← h]; split_ifs <;> simp
        | cons alt rest =>
          simp only [halts] at h
          rw [checkAlternatives_append] at h
          cases hr : checkAlternatives E content term (alt :: rest) [] with
          | error e => simp [hr, Except.map] at h
          | ok tail =>
            simp only [hr, Except.map, Except.ok.injEq] at h
            obtain ⟨counts, hf, ht⟩ := checkAlternatives_ok E content term _ _ hr
            refine ⟨e, c, counts, rfl, rfl, by simpa using hf, ?_⟩
            rw [← h, ht]
            simp only [Option.getD_some]
            split_ifs <;> simp

/-- The result of `checkFile` is the concatenation, in dictionary order, of
the issue lists of the single terms. -/
theorem checkFileLoop_blocks (E : RegExpEngine) (content : String) :
    ∀ (dict : List Term) (acc issues : List Issue),
      checkFileLoop E content dict acc = .ok issues →
      ∃ blocks : List (List Issue),
        issues = acc ++ blocks.flatten ∧
        List.Forall₂ (fun term block => checkTerm E content term [] = .ok block)
          dict blocks := by
  intro dict
  induction dict with
  | nil =>
    intro acc issues h
    simp only [checkFileLoop, Except.ok.injEq] at h
    exact ⟨[], by simp [h], List.Forall₂.nil⟩
  | cons term rest ih =>
    intro acc issues h
    simp only [checkFileLoop] at h
    rw [checkTerm_append] at h
    cases ht : checkTerm E content term [] with
    | error e => simp [ht, Except.map] at h
    | ok block =>
      simp only [ht, Except.map] at h
      obtain ⟨blocks, hi, hf⟩ := ih _ _ h
      exact ⟨block :: blocks, by simp [hi], List.Forall₂.cons ht hf⟩

theorem checkFile_blocks (E : RegExpEngine) (content : String) (dict : List Term)
    (issues : List Issue) (h : checkFile E content dict = .ok issues) :
    ∃ blocks : List (List Issue),
      issues = blocks.flatten ∧
      List.Forall₂ (fun term block => checkTerm E content term [] = .ok block)
        dict blocks := by
  obtain ⟨blocks, hi, hf⟩ := checkFileLoop_blocks E content dict [] issues h
  exact ⟨blocks, by simpa using hi, hf⟩

theorem filter_type_of_all (l : List Issue) (t ty : String) (hl : ∀ i ∈ l, i.type = t) :
    l.filter (fun i => i.type = ty) = if t = ty then l else [] := by
  split_ifs with h
  · rw [List.filter_eq_self]
    intro i hi
    simp [hl i hi, h]
  · rw [List.filter_eq_nil_iff]
    intro i hi
    simp [hl i hi, h]

theorem alternativeIssues_type (term : Term) (l : List (String × Nat)) :
    ∀ i ∈ l.filterMap
        (fun p => if p.2 > 0 then some (alternativeUsedIssue term p.1 p.2) else none),
      i.type = "alternative_used" := by
  intro i hi
  rw [List.mem_filterMap] at hi
  obtain ⟨p, -, hp⟩ := hi
  split_ifs at hp
  cases hp
  rfl

theorem usageIssues_type (term : Term) (e c : Nat) :
    ∀ i ∈ (if term.usage = "keep_english" then
            if c > 0 then [shouldKeepEnglishIssue term c] else []
           else if e > 0 ∧ c = 0 then [shouldTranslateIssue term e] else []),
      i.type = if term.usage = "keep_english" then "should_keep_english"
               else "should_translate" := by
  intro i hi
  split_ifs at hi ⊢ <;> simp at hi <;> subst hi <;> rfl

/-- The `should_translate` issues in terms of the counts of the engine: the
issues returned by `checkFile` are the blocks pushed for the terms, in
dictionary order; for a term whose usage is not `keep_english` the block holds
a `should_translate` issue exactly when the engine's count for the pattern of
`term.english` is positive and its count for the pattern `term.chinese` is
zero; there is then one such issue and its count is the English count. -/
theorem checkFile_should_translate (E : RegExpEngine) (content : String) (dict : List Term)
    (issues : List Issue) (h : checkFile E content dict = .ok issues) :
    ∃ blocks : List (List Issue),
      issues = blocks.flatten ∧
      List.Forall₂
        (fun term block =>
          checkTerm E content term [] = .ok block ∧
          (term.usage ≠ "keep_english" →
          ∃ e c : Nat,
            E.matchCount (englishSource term) true content = .ok e ∧
            E.matchCount term.chinese false content = .ok c ∧
            (shouldTranslateIssue term e).count = e ∧
            block.filter (fun i => i.type = "should_translate")
              = if e > 0 ∧ c = 0 then [shouldTranslateIssue term e] else []))
        dict blocks := by
  obtain ⟨blocks, hi, hf⟩ := checkFile_blocks E content dict issues h
  refine ⟨blocks, hi, hf.imp ?_⟩
  intro term block hb
  refine ⟨hb, ?_⟩
  intro husage
  obtain ⟨e, c, counts, he, hc, -, hblock⟩ := checkTerm_ok E content term block hb
  refine ⟨e, c, he, hc, rfl, ?_⟩
  rw [hblock, List.filter_append,
    filter_type_of_all _ _ _ (alternativeIssues_type term _),
    filter_type_of_all _ _ _ (usageIssues_type term e c)]
  simp [husage]

/-- The `should_keep_english` issues in terms of the counts of the engine: in
the block that `checkFile` pushes for a term with usage `keep_english` there is
one `should_keep_english` issue carrying the engine's count for the pattern
`term.chinese` when that count is positive and none when it is zero, and never
a `should_translate` issue. -/
theorem checkFile_should_keep_english (E : RegExpEngine) (content : String)
    (dict : List Term) (issues : List Issue) (h : checkFile E content dict = .ok issues) :
    ∃ blocks : List (List Issue),
      issues = blocks.flatten ∧
      List.Forall₂
        (fun term block =>
          checkTerm E content term [] = .ok block ∧
          (term.usage = "keep_english" →
          ∃ c : Nat,
            E.matchCount term.chinese false content = .ok c ∧
            (shouldKeepEnglishIssue term c).count = c ∧
            block.filter (fun i => i.type = "should_keep_english")
              = (if c > 0 then [shouldKeepEnglishIssue term c] else []) ∧
            block.filter (fun i => i.type = "should_translate") = []))
        dict blocks := by
  obtain ⟨blocks, hi, hf⟩ := checkFile_blocks E content dict issues h
  refine ⟨blocks, hi, hf.imp ?_⟩
  intro term block hb
  refine ⟨hb, ?_⟩
  intro husage
  obtain ⟨e, c, counts, he, hc, -, hblock⟩ := checkTerm_ok E content term block hb
  refine ⟨c, hc, rfl, ?_, ?_⟩
  · rw [hblock, List.filter_append,
      filter_type_of_all _ _ _ (alternativeIssues_type term _),
      filter_type_of_all _ _ _ (usageIssues_type term e c)]
    simp [husage]
  · rw [hblock, List.filter_append,
      filter_type_of_all _ _ _ (alternativeIssues_type term _),
      filter_type_of_all _ _ _ (usageIssues_type term e c)]
    simp [husage]

/-- The `alternative_used` issues in terms of the counts of the engine: for
every term, the `alternative_used` issues in the block that `checkFile` pushes
for it are one per alternative for whose pattern the engine's count is
positive, in the order of `term.alternatives`; each names the alternative in
`term`, the count in `count` and `term.chinese` in `preferred`. -/
theorem checkFile_alternative_used (E : RegExpEngine) (content : String)
    (dict : List Term) (issues : List Issue) (h : checkFile E content dict = .ok issues) :
    ∃ blocks : List (List Issue),
      issues = blocks.flatten ∧
      List.Forall₂
        (fun term block =>
          checkTerm E content term [] = .ok block ∧
          ∃ counts : List Nat,
            List.Forall₂ (fun alt n => E.matchCount alt false content = .ok n)
              (term.alternatives.getD []) counts ∧
            block.filter (fun i => i.type = "alternative_used")
              = ((term.alternatives.getD []).zip counts).filterMap
                  (fun p => if p.2 > 0 then
                    some { type := "alternative_used", term := p.1, chinese := none,
                           preferred := some term.chinese, count := p.2,
                           message := (alternativeUsedIssue term p.1 p.2).message }
                    else none))
        dict blocks := by
  obtain ⟨blocks, hi, hf⟩ := checkFile_blocks E content dict issues h
  refine ⟨blocks, hi, hf.imp ?_⟩
  intro term block hb
  obtain ⟨e, c, counts, he, hc, hcounts, hblock⟩ := checkTerm_ok E content term block hb
  refine ⟨hb, counts, hcounts, ?_⟩
  rw [hblock, List.filter_append,
    filter_type_of_all _ _ _ (alternativeIssues_type term _),
    filter_type_of_all _ _ _ (usageIssues_type term e c)]
  have hne : ¬ (if term.usage = "keep_english" then "should_keep_english"
      else "should_translate") = "alternative_used" := by
    split_ifs <;> decide
  simp only [hne, if_false, if_true, List.nil_append]
  rfl

theorem checkFile_should_translate_witness :
    checkFile jsRegExp "The agent runs." [agentTerm] = .ok [shouldTranslateIssue agentTerm 1] ∧
    ∃ blocks : List (List Issue),
      [shouldTranslateIssue agentTerm 1] = blocks.flatten ∧
      List.Forall₂
        (fun term block =>
          checkTerm jsRegExp "The agent runs." term [] = .ok block ∧
          (term.usage ≠ "keep_english" →
          ∃ e c : Nat,
            jsRegExp.matchCount (englishSource term) true "The agent runs." = .ok e ∧
            jsRegExp.matchCount term.chinese false "The agent runs." = .ok c ∧
            (shouldTranslateIssue term e).count = e ∧
            block.filter (fun i => i.type = "should_translate")
              = if e > 0 ∧ c = 0 then [shouldTranslateIssue term e] else []))
        [agentTerm] blocks :=
  ⟨rfl, checkFile_should_translate jsRegExp "The agent runs." [agentTerm] _ rfl⟩

theorem checkFile_should_keep_english_witness :
    checkFile jsRegExp "大语言模型 (LLM) 与大语言模型" [llmTerm, agentTerm]
      = .ok [shouldKeepEnglishIssue llmTerm 2] ∧
    ∃ blocks : List (List Issue),
      [shouldKeepEnglishIssue llmTerm 2] = blocks.flatten ∧
      List.Forall₂
        (fun term block =>
          checkTerm jsRegExp "大语言模型 (LLM) 与大语言模型" term [] = .ok block ∧
          (term.usage = "keep_english" →
          ∃ c : Nat,
            jsRegExp.matchCount term.chinese false "大语言模型 (LLM) 与大语言模型" = .ok c ∧
            (shouldKeepEnglishIssue term c).count = c ∧
            block.filter (fun i => i.type = "should_keep_english")
              = (if c > 0 then [shouldKeepEnglishIssue term c] else []) ∧
            block.filter (fun i => i.type = "should_translate") = []))
        [llmTerm, agentTerm] blocks :=
  ⟨rfl, checkFile_should_keep_english jsRegExp "大语言模型 (LLM) 与大语言模型"
    [llmTerm, agentTerm] _ rfl⟩

theorem checkFile_alternative_used_witness :
    checkFile jsRegExp "用具和用具，还有工具" [toolTerm]
      = .ok [alternativeUsedIssue toolTerm "用具" 2] ∧
    ∃ blocks : List (List Issue),
      [alternativeUsedIssue toolTerm "用具" 2] = blocks.flatten ∧
      List.Forall₂
        (fun term block =>
          checkTerm jsRegExp "用具和用具，还有工具" term [] = .ok block ∧
          ∃ counts : List Nat,
            List.Forall₂
              (fun alt n => jsRegExp.matchCount alt false "用具和用具，还有工具" = .ok n)
              (term.alternatives.getD []) counts ∧
            block.filter (fun i => i.type = "alternative_used")
              = ((term.alternatives.getD []).zip counts).filterMap
                  (fun p => if p.2 > 0 then
                    some { type := "alternative_used", term := p.1, chinese := none,
                           preferred := some term.chinese, count := p.2,
                           message := (alternativeUsedIssue term p.1 p.2).message }
                    else none))
        [toolTerm] blocks :=
  ⟨rfl, checkFile_alternative_used jsRegExp "用具和用具，还有工具" [toolTerm] _ rfl⟩

/-- `checkFile` returns an issue list whenever the engine accepts every
pattern of the dictionary. -/
theorem checkFile_ok_of_patterns (E : RegExpEngine) (content : String) (dict : List Term)
    (h : ∀ term ∈ dict,
      (∃ e, E.matchCount (englishSource term) true content = .ok e) ∧
      (∃ c, E.matchCount term.chinese false content = .ok c) ∧
      ∀ alt ∈ term.alternatives.getD [], ∃ n, E.matchCount alt false content = .ok n) :
    ∃ issues, checkFile E content dict = .ok issues := by
  have halts : ∀ (term : Term) (alts : List String) (acc : List Issue),
      (∀ alt ∈ alts, ∃ n, E.matchCount alt false content = .ok n) →
      ∃ out, checkAlternatives E content term alts acc = .ok out := by
    intro term alts
    induction alts with
    | nil => intro acc _; exact ⟨acc, rfl⟩
    | cons alt rest ih =>
      intro acc hall
      obtain ⟨n, hn⟩ := hall alt (List.mem_cons_self _ _)
      simp only [checkAlternatives, hn]
      exact ih _ (fun a ha => hall a (List.mem_cons_of_mem _ ha))
  have hterm : ∀ (term : Term) (acc : List Issue),
      ((∃ e, E.matchCount (englishSource term) true content = .ok e) ∧
       (∃ c, E.matchCount term.chinese false content = .ok c) ∧
       ∀ alt ∈ term.alternatives.getD [], ∃ n, E.matchCount alt false content = .ok n) →
      ∃ out, checkTerm E content term acc = .ok out := by
    intro term acc ⟨⟨e, he⟩, ⟨c, hc⟩, hall⟩
    simp only [checkTerm, he, hc]
    cases ha : term.alternatives with
    | none => exact ⟨_, rfl⟩
    | some alts =>
      cases alts with
      | nil => exact ⟨_, rfl⟩
      | cons alt rest =>
        simp only [ha, Option.getD_some] at hall
        exact halts term (alt :: rest) _ hall
  unfold checkFile
  generalize ([] : List Issue) = acc
  induction dict generalizing acc with
  | nil => exact ⟨acc, rfl⟩
  | cons term rest ih =>
    obtain ⟨out, hout⟩ := hterm term acc (h term (List.mem_cons_self _ _))
    simp only [checkFileLoop, hout]
    exact ih (fun t ht => h t (List.mem_cons_of_mem _ ht)) out

/-! ## Theorems: quality score -/

theorem addTerminologyScore_resultsOf (n b t v c : Nat) (s : ℚ) :
    addTerminologyScore (resultsOf n b t v c).terminology (.num s)
      = .num (s + (if n = 0 then 30 else max 0 (30 - min 30 ((n : ℚ) * 2)))) := by
  by_cases hn : n = 0
  · simp [addTerminologyScore, resultsOf, hn, JsNum.add]
  · simp [addTerminologyScore, resultsOf, hn, truthy, toNumber, JsNum.add, JsNum.sub,
      JsNum.neg, JsNum.mul, JsNum.min, JsNum.max, sub_eq_add_neg]

theorem addLinksScore_resultsOf (n b t v c : Nat) (s : ℚ) (ht : t ≠ 0) :
    addLinksScore (resultsOf n b t v c).links (.num s)
      = .num (s + (if b = 0 then 40 else max 0 (40 * (1 - (b : ℚ) / t)))) := by
  by_cases hb : b = 0
  · simp [addLinksScore, resultsOf, hb, JsNum.add]
  · simp [addLinksScore, resultsOf, hb, ht, truthy, toNumber, JsNum.add, JsNum.sub,
      JsNum.neg, JsNum.mul, JsNum.div, JsNum.max, sub_eq_add_neg]

theorem addCodeScore_resultsOf (n b t v c : Nat) (s : ℚ) :
    addCodeScore (resultsOf n b t v c).code (.num s)
      = .num (s + (if v = c then 30 else if c = 0 then 0 else 30 * ((v : ℚ) / c))) := by
  by_cases hv : v = c
  · simp [addCodeScore, resultsOf, hv, JsNum.add]
  · by_cases hc : c = 0
    · subst hc
      simp [addCodeScore, resultsOf, hv, truthy]
    · simp [addCodeScore, resultsOf, hv, hc, truthy, toNumber, JsNum.add, JsNum.mul,
        JsNum.div]


/-- C4: the terminology contribution is 30 without issues and
`max(0, 30 - min(30, 2 n))` with `n` issues; it is never negative, it is 0
from 15 issues on, and 20 for 5 issues. -/
theorem terminology_contribution (n : Nat) (s : ℚ) :
    ∃ contribution : ℚ,
      addTerminologyScore { passed := n == 0, totalIssues := some n } (.num s)
        = .num (s + contribution) ∧
      contribution = (if n = 0 then 30 else max 0 (30 - min 30 (2 * (n : ℚ)))) ∧
      0 ≤ contribution ∧
      (15 ≤ n → contribution = 0) ∧
      (n = 5 → contribution = 20) := by
  refine ⟨if n = 0 then 30 else max 0 (30 - min 30 (2 * (n : ℚ))), ?_, rfl, ?_, ?_, ?_⟩
  · have := addTerminologyScore_resultsOf n 0 0 0 0 s
    simpa [resultsOf, mul_comm] using this
  · split_ifs <;> simp
  · intro h
    have h15 : (15 : ℚ) ≤ n := by exact_mod_cast h
    have hn : n ≠ 0 := by omega
    simp only [hn, if_false]
    rw [min_eq_left (by linarith)]
    simp
  · intro h
    subst h
    norm_num

/-- C5 (as amended): when `brokenLinks ≤ totalLinks`, as `checkLinks` counts
them, the link contribution is 40 without broken links and otherwise
`max(0, 40 (1 - brokenLinks / totalLinks))`; the division at line 275 never has
a zero divisor, and with `totalLinks = 0` the check has passed, nothing is
divided and the contribution is 40. -/
theorem links_contribution (brokenLinks totalLinks : Nat) (s : ℚ)
    (h : brokenLinks ≤ totalLinks) :
    addLinksScore { passed := brokenLinks == 0, totalLinks := some totalLinks,
                    brokenLinks := some brokenLinks } (.num s)
      = .num (s + (if brokenLinks = 0 then 40
                   else max 0 (40 * (1 - (brokenLinks : ℚ) / totalLinks)))) ∧
    linksDivisor { passed := brokenLinks == 0, totalLinks := some totalLinks,
                   brokenLinks := some brokenLinks } ≠ some (.num 0) ∧
    (totalLinks = 0 →
      linksDivisor { passed := brokenLinks == 0, totalLinks := some totalLinks,
                     brokenLinks := some brokenLinks } = none ∧
      addLinksScore { passed := brokenLinks == 0, totalLinks := some totalLinks,
                      brokenLinks := some brokenLinks } (.num s) = .num (s + 40)) := by
  refine ⟨?_, ?_, ?_⟩
  · by_cases hb : brokenLinks = 0
    · simp [addLinksScore, hb, JsNum.add]
    · have ht : totalLinks ≠ 0 := by omega
      have := addLinksScore_resultsOf 0 brokenLinks totalLinks 0 0 s ht
      simpa [resultsOf] using this
  · by_cases hb : brokenLinks = 0
    · simp [linksDivisor, hb]
    · have ht : totalLinks ≠ 0 := by omega
      simp [linksDivisor, hb, truthy, toNumber, ht]
  · intro ht
    have hb : brokenLinks = 0 := by omega
    subst hb
    simp [linksDivisor, addLinksScore, JsNum.add]

theorem links_contribution_witness :
    1 ≤ 4 ∧
    addLinksScore { passed := 1 == 0, totalLinks := some 4, brokenLinks := some 1 } (.num 30)
      = .num (30 + (if 1 = 0 then 40 else max 0 (40 * (1 - ((1 : Nat) : ℚ) / (4 : Nat))))) :=
  ⟨by decide, (links_contribution 1 4 30 (by decide)).1⟩

/-- C5 (counterexample to the claim as stated): with one broken link and
`totalLinks = 0` the check has not passed, line 275 divides by zero and the
contribution is 0, not 40. -/
theorem links_contribution_counterexample :
    addLinksScore { passed := 1 == 0, totalLinks := some 0, brokenLinks := some 1 } (.num 0)
      = .num 0 ∧
    addLinksScore { passed := 1 == 0, totalLinks := some 0, brokenLinks := some 1 } (.num 0)
      ≠ .num 40 ∧
    linksDivisor { passed := 1 == 0, totalLinks := some 0, brokenLinks := some 1 }
      = some (.num 0) := by
  refine ⟨?_, ?_, ?_⟩
  · simp [addLinksScore, truthy, toNumber, JsNum.div, JsNum.sub, JsNum.neg, JsNum.add,
      JsNum.mul, JsNum.max]
  · simp [addLinksScore, truthy, toNumber, JsNum.div, JsNum.sub, JsNum.neg, JsNum.add,
      JsNum.mul, JsNum.max]
  · simp [linksDivisor, truthy, toNumber]

/-- C7: `getGrade` maps an integer score to A from 90, B from 80 to 89, C from
70 to 79, D from 60 to 69 and F below 60, and `generateOverallReport` sets
`passed` exactly when the score is at least 90, that is when the grade is A. -/
theorem getGrade_spec (score : ℤ) (r : Results) :
    (getGrade (.num score) = "A" ↔ 90 ≤ score) ∧
    (getGrade (.num score) = "B" ↔ 80 ≤ score ∧ score ≤ 89) ∧
    (getGrade (.num score) = "C" ↔ 70 ≤ score ∧ score ≤ 79) ∧
    (getGrade (.num score) = "D" ↔ 60 ≤ score ∧ score ≤ 69) ∧
    (getGrade (.num score) = "F" ↔ score < 60) ∧
    ((generateOverallReport r).passed = true
      ↔ (generateOverallReport r).score.ge (.num 90) = true) ∧
    ((generateOverallReport r).passed = true ↔ (generateOverallReport r).grade = "A") := by
  have h90 : (JsNum.num (score : ℚ)).ge (.num 90) = decide (90 ≤ score) := by
    simp [JsNum.ge]; exact_mod_cast Iff.rfl
  have h80 : (JsNum.num (score : ℚ)).ge (.num 80) = decide (80 ≤ score) := by
    simp [JsNum.ge]; exact_mod_cast Iff.rfl
  have h70 : (JsNum.num (score : ℚ)).ge (.num 70) = decide (70 ≤ score) := by
    simp [JsNum.ge]; exact_mod_cast Iff.rfl
  have h60 : (JsNum.num (score : ℚ)).ge (.num 60) = decide (60 ≤ score) := by
    simp [JsNum.ge]; exact_mod_cast Iff.rfl
  simp only [getGrade, h90, h80, h70, h60, generateOverallReport]
  refine ⟨?_, ?_, ?_, ?_, ?_, trivial, ?_⟩
  · split_ifs <;> simp_all
  · split_ifs <;> simp_all <;> omega
  · split_ifs <;> simp_all <;> omega
  · split_ifs <;> simp_all <;> omega
  · split_ifs <;> simp_all <;> omega
  · split_ifs <;> simp_all

/-! ## Theorems: navigation tree -/

theorem mem_entriesFiles {x : String × String × Nat} :
    ∀ {s : List (String × Entry)},
      x ∈ entriesFiles s ↔ ∃ k e, (k, e) ∈ s ∧ x ∈ e.fileEntries
  | [] => by simp [entriesFiles]
  | (k, e) :: rest => by
    simp only [entriesFiles, List.mem_append, List.mem_cons, mem_entriesFiles (s := rest)]
    constructor
    · rintro (h | ⟨k', e', hm, hx⟩)
      · exact ⟨k, e, Or.inl rfl, h⟩
      · exact ⟨k', e', Or.inr hm, hx⟩
    · rintro ⟨k', e', hm | hm, hx⟩
      · cases hm; exact Or.inl hx
      · exact Or.inr ⟨k', e', hm, hx⟩

theorem mem_fileNodesOf {x : NavItem} :
    ∀ {l : List NavItem}, x ∈ fileNodesOf l ↔ ∃ item ∈ l, x ∈ item.fileNodes
  | [] => by simp [fileNodesOf]
  | item :: rest => by
    simp only [fileNodesOf, List.mem_append, List.mem_cons, mem_fileNodesOf (l := rest)]
    constructor
    · rintro (h | ⟨i, hm, hx⟩)
      · exact ⟨item, Or.inl rfl, h⟩
      · exact ⟨i, Or.inr hm, hx⟩
    · rintro ⟨i, hm | hm, hx⟩
      · subst hm; exact Or.inl hx
      · exact Or.inr ⟨i, hm, hx⟩

theorem mem_setKey {key : String} {value : Entry} {p : String × Entry} :
    ∀ {s : List (String × Entry)}, p ∈ setKey key value s → p ∈ s ∨ p = (key, value)
  | [], h => by
    simp only [setKey, List.mem_singleton] at h
    exact Or.inr h
  | (k, e) :: rest, h => by
    simp only [setKey] at h
    split_ifs at h with hk
    · rcases List.mem_cons.mp h with h | h
      · exact Or.inr (by rw [h, hk])
      · exact Or.inl (List.mem_cons_of_mem _ h)
    · rcases List.mem_cons.mp h with h | h
      · exact Or.inl (by rw [h]; exact List.mem_cons_self _ _)
      · rcases mem_setKey h with h | h
        · exact Or.inl (List.mem_cons_of_mem _ h)
        · exact Or.inr h

theorem mem_of_lookup {key : String} {e : Entry} :
    ∀ {s : List (String × Entry)}, s.lookup key = some e → (key, e) ∈ s
  | [], h => by simp at h
  | (k, v) :: rest, h => by
    rw [List.lookup_cons] at h
    split at h
    · rename_i hk
      have hk' : key = k := by simpa using hk
      cases h
      rw [hk']
      exact List.mem_cons_self _ _
    · exact List.mem_cons_of_mem _ (mem_of_lookup h)

/-- After the lines for one file every stored file node was stored before or
is the node of that file. -/
theorem addFile_files (extractTitle : String → String) (file fileName : String)
    (x : String × String × Nat) :
    ∀ (dirs pre : List String) (current result : List (String × Entry)),
      addFile extractTitle file fileName dirs pre current = .ok result →
      x ∈ entriesFiles result →
      x ∈ entriesFiles current
        ∨ ∃ order, getFileOrder file = some order ∧ x = (file, extractTitle file, order)
  | [], pre, current, result, h, hx => by
    simp only [addFile] at h
    split_ifs at h
    cases ho : getFileOrder file with
    | none => simp [ho] at h
    | some order =>
      simp only [ho, Except.ok.injEq] at h
      subst h
      obtain ⟨k, e, hm, hxe⟩ := mem_entriesFiles.mp hx
      rcases mem_setKey hm with hm | hm
      · exact Or.inl (mem_entriesFiles.mpr ⟨k, e, hm, hxe⟩)
      · cases hm
        simp only [Entry.fileEntries, List.mem_singleton] at hxe
        exact Or.inr ⟨order, rfl, hxe⟩
  | part :: rest, pre, current, result, h, hx => by
    simp only [addFile] at h
    cases hl : current.lookup part with
    | none =>
      simp only [hl] at h
      split_ifs at h
      cases hf : formatTitle part with
      | none => simp [hf] at h
      | some title =>
        simp only [hf] at h
        cases hr : addFile extractTitle file fileName rest (pre ++ [part]) [] with
        | error e => simp [hr] at h
        | ok children =>
          simp only [hr, Except.ok.injEq] at h
          subst h
          obtain ⟨k, e, hm, hxe⟩ := mem_entriesFiles.mp hx
          rcases mem_setKey hm with hm | hm
          · exact Or.inl (mem_entriesFiles.mpr ⟨k, e, hm, hxe⟩)
          · cases hm
            simp only [Entry.fileEntries] at hxe
            rcases addFile_files extractTitle file fileName x rest (pre ++ [part]) []
                children hr hxe with h1 | h1
            · simp [entriesFiles] at h1
            · exact Or.inr h1
    | some entry =>
      cases entry with
      | file p t o => simp [hl] at h
      | directory children path title =>
        simp only [hl] at h
        cases hr : addFile extractTitle file fileName rest (pre ++ [part]) children with
        | error e => simp [hr] at h
        | ok children' =>
          simp only [hr, Except.ok.injEq] at h
          subst h
          obtain ⟨k, e, hm, hxe⟩ := mem_entriesFiles.mp hx
          rcases mem_setKey hm with hm | hm
          · exact Or.inl (mem_entriesFiles.mpr ⟨k, e, hm, hxe⟩)
          · cases hm
            simp only [Entry.fileEntries] at hxe
            rcases addFile_files extractTitle file fileName x rest (pre ++ [part]) children
                children' hr hxe with h1 | h1
            · exact Or.inl (mem_entriesFiles.mpr
                ⟨part, .directory children path title, mem_of_lookup hl, by
                  simpa only [Entry.fileEntries] using h1⟩)
            · exact Or.inr h1

/-- Every file node stored by the loop over `files` was stored before the loop
or belongs to a file of the list whose name is not `README.md`. -/
theorem buildStructure_files (extractTitle : String → String) (x : String × String × Nat) :
    ∀ (files : List String) (struct result : List (String × Entry)),
      buildStructure extractTitle files struct = .ok result →
      x ∈ entriesFiles result →
      x ∈ entriesFiles struct
        ∨ ∃ file ∈ files, fileNameOf file ≠ "README.md"
            ∧ ∃ order, getFileOrder file = some order ∧ x = (file, extractTitle file, order)
  | [], struct, result, h, hx => by
    simp only [buildStructure, Except.ok.injEq] at h
    subst h
    exact Or.inl hx
  | file :: rest, struct, result, h, hx => by
    simp only [buildStructure] at h
    split_ifs at h with hr
    · rcases buildStructure_files extractTitle x rest struct result h hx with h1 | h1
      · exact Or.inl h1
      · obtain ⟨f, hf, hrest⟩ := h1
        exact Or.inr ⟨f, List.mem_cons_of_mem _ hf, hrest⟩
    · cases ha : addFile extractTitle file (fileNameOf file) (split file).dropLast []
          struct with
      | error e => simp [ha] at h
      | ok struct' =>
        simp only [ha] at h
        rcases buildStructure_files extractTitle x rest struct' result h hx with h1 | h1
        · rcases addFile_files extractTitle file _ x _ _ _ _ ha h1 with h2 | h2
          · exact Or.inl h2
          · exact Or.inr ⟨file, List.mem_cons_self _ _, hr, h2⟩
        · obtain ⟨f, hf, hrest⟩ := h1
          exact Or.inr ⟨f, List.mem_cons_of_mem _ hf, hrest⟩

theorem mem_of_lookup_item {key : String} {item : NavItem} :
    ∀ {s : List (String × NavItem)}, s.lookup key = some item → (key, item) ∈ s
  | [], h => by simp at h
  | (k, v) :: rest, h => by
    rw [List.lookup_cons] at h
    split at h
    · rename_i hk
      have hk' : key = k := by simpa using hk
      cases h
      rw [hk']
      exact List.mem_cons_self _ _
    · exact List.mem_cons_of_mem _ (mem_of_lookup_item h)

/-- The arranged items are among the converted values. -/
theorem mem_arrangeItems {item : NavItem} {converted : List (String × NavItem)}
    (h : item ∈ arrangeItems converted) : ∃ key, (key, item) ∈ converted := by
  unfold arrangeItems at h
  rw [(List.perm_insertionSort _ _).mem_iff, List.mem_filterMap] at h
  obtain ⟨key, -, hl⟩ := h
  exact ⟨key, mem_of_lookup_item hl⟩

mutual
theorem convertEntry_files (node : NavItem) :
    ∀ (e : Entry), node ∈ (convertEntry e).fileNodes →
      ∃ x ∈ e.fileEntries, node = .file x.2.1 ("/" ++ replace x.1 ".md" ".html") x.2.2
  | .file path title order, h => by
    simp only [convertEntry, NavItem.fileNodes, List.mem_singleton] at h
    exact ⟨(path, title, order), by simp [Entry.fileEntries], h⟩
  | .directory children path title, h => by
    simp only [convertEntry, NavItem.fileNodes] at h
    obtain ⟨item, hi, hn⟩ := mem_fileNodesOf.mp h
    obtain ⟨key, hk⟩ := mem_arrangeItems hi
    simpa only [Entry.fileEntries] using convertEntries_files node children key item hk hn
theorem convertEntries_files (node : NavItem) :
    ∀ (es : List (String × Entry)) (key : String) (item : NavItem),
      (key, item) ∈ convertEntries es → node ∈ item.fileNodes →
      ∃ x ∈ entriesFiles es, node = .file x.2.1 ("/" ++ replace x.1 ".md" ".html") x.2.2
  | [], key, item, h, _ => by simp [convertEntries] at h
  | (k, e) :: rest, key, item, h, hn => by
    simp only [convertEntries, List.mem_cons] at h
    rcases h with h | h
    · cases h
      obtain ⟨x, hx, hnode⟩ := convertEntry_files node e hn
      exact ⟨x, by simp [entriesFiles, hx], hnode⟩
    · obtain ⟨x, hx, hnode⟩ := convertEntries_files node rest key item h hn
      exact ⟨x, by simp [entriesFiles, hx], hnode⟩
end

theorem itemLe_total (a b : NavItem) : itemLe a b ∨ itemLe b a := by
  cases a <;> cases b <;> simp only [itemLe, compareItems, orderOr999] <;> omega

theorem itemLe_trans (a b c : NavItem) (hab : itemLe a b) (hbc : itemLe b c) :
    itemLe a c := by
  cases a <;> cases b <;> cases c <;>
    simp only [itemLe, compareItems, orderOr999] at hab hbc ⊢ <;> omega

theorem arrangeItems_sorted (converted : List (String × NavItem)) :
    (arrangeItems converted).Sorted itemLe :=
  @List.sorted_insertionSort _ itemLe _ ⟨itemLe_total⟩ ⟨itemLe_trans⟩ _

theorem mem_childListsOf {l : List NavItem} :
    ∀ {t : List NavItem}, l ∈ childListsOf t ↔ ∃ item ∈ t, l ∈ item.childLists
  | [] => by simp [childListsOf]
  | item :: rest => by
    simp only [childListsOf, List.mem_append, List.mem_cons, mem_childListsOf (t := rest)]
    constructor
    · rintro (h | ⟨i, hm, hx⟩)
      · exact ⟨item, Or.inl rfl, h⟩
      · exact ⟨i, Or.inr hm, hx⟩
    · rintro ⟨i, hm | hm, hx⟩
      · subst hm; exact Or.inl hx
      · exact Or.inr ⟨i, hm, hx⟩

mutual
theorem convertEntry_sorted (l : List NavItem) :
    ∀ (e : Entry), l ∈ (convertEntry e).childLists → l.Sorted itemLe
  | .file path title order, h => by
    simp [convertEntry, NavItem.childLists] at h
  | .directory children path title, h => by
    simp only [convertEntry, NavItem.childLists, List.mem_cons] at h
    rcases h with h | h
    · rw [h]; exact arrangeItems_sorted _
    · obtain ⟨item, hi, hl⟩ := mem_childListsOf.mp h
      obtain ⟨key, hk⟩ := mem_arrangeItems hi
      exact convertEntries_sorted l children key item hk hl
theorem convertEntries_sorted (l : List NavItem) :
    ∀ (es : List (String × Entry)) (key : String) (item : NavItem),
      (key, item) ∈ convertEntries es → l ∈ item.childLists → l.Sorted itemLe
  | [], key, item, h, _ => by simp [convertEntries] at h
  | (k, e) :: rest, key, item, h, hl => by
    simp only [convertEntries, List.mem_cons] at h
    rcases h with h | h
    · cases h
      exact convertEntry_sorted l e hl
    · exact convertEntries_sorted l rest key item h hl
end

/-- What the sort of `convertToNavigation` does achieve: in the root list and
in the list of every `Directory` node, no `File` node stands before a
`Directory` node, and the `File` nodes ascend in `order || 999` (the order
field with 0 read as 999). -/
theorem buildNavigationTree_sorted (extractTitle : String → String)
    (files : List String) (tree : List NavItem)
    (h : buildNavigationTree extractTitle files = .ok tree) :
    ∀ l ∈ tree :: childListsOf tree,
      l.Pairwise fun a b =>
        (b.isDirectory = true → a.isDirectory = true) ∧
        (a.isDirectory = false → b.isDirectory = false → orderOr999 a ≤ orderOr999 b) := by
  unfold buildNavigationTree at h
  cases hs : buildStructure extractTitle files [] with
  | error e => simp [hs] at h
  | ok struct =>
    simp only [hs, Except.ok.injEq] at h
    subst h
    intro l hl
    have hsorted : l.Sorted itemLe := by
      rcases List.mem_cons.mp hl with hl | hl
      · rw [hl]; exact arrangeItems_sorted _
      · obtain ⟨item, hi, hl'⟩ := mem_childListsOf.mp hl
        obtain ⟨key, hk⟩ := mem_arrangeItems hi
        exact convertEntries_sorted l struct key item hk hl'
    refine List.Pairwise.imp ?_ hsorted
    intro a b hab
    cases a <;> cases b <;>
      simp only [itemLe, compareItems, NavItem.isDirectory] at hab ⊢
    · simp
    · simp
    · omega
    · exact ⟨fun h => h, fun _ _ => by omega⟩

theorem buildStructure_filter (extractTitle : String → String) :
    ∀ (files : List String) (struct : List (String × Entry)),
      buildStructure extractTitle
          (files.filter fun file => fileNameOf file ≠ "README.md") struct
        = buildStructure extractTitle files struct
  | [], struct => rfl
  | file :: rest, struct => by
    by_cases hr : fileNameOf file = "README.md"
    · simp only [List.filter_cons, hr, ne_eq, not_true_eq_false, decide_False,
        buildStructure, if_true]
      exact buildStructure_filter extractTitle rest struct
    · simp only [List.filter_cons, hr, ne_eq, not_false_eq_true, decide_True,
        buildStructure, if_false, if_true]
      cases addFile extractTitle file (fileNameOf file) (split file).dropLast []
          struct with
      | error e => rfl
      | ok struct' => exact buildStructure_filter extractTitle rest struct'

/-- C10: a path whose file name is `README.md` never becomes a `File` node:
every `File` node of the tree, at any depth, is the node of a listed path
whose file name is not `README.md`, and the tree is the one built from the
list without the `README.md` paths. -/
theorem buildNavigationTree_skips_readme (extractTitle : String → String)
    (files : List String) (tree : List NavItem)
    (h : buildNavigationTree extractTitle files = .ok tree) :
    (∀ node ∈ fileNodesOf tree,
      ∃ file ∈ files, fileNameOf file ≠ "README.md" ∧
        ∃ order, getFileOrder file = some order ∧
          node = .file (extractTitle file) ("/" ++ replace file ".md" ".html") order) ∧
    buildNavigationTree extractTitle
        (files.filter fun file => fileNameOf file ≠ "README.md") = .ok tree := by
  constructor
  · intro node hnode
    unfold buildNavigationTree at h
    cases hs : buildStructure extractTitle files [] with
    | error e => simp [hs] at h
    | ok struct =>
      simp only [hs, Except.ok.injEq] at h
      subst h
      obtain ⟨item, hi, hn⟩ := mem_fileNodesOf.mp hnode
      obtain ⟨key, hk⟩ := mem_arrangeItems hi
      obtain ⟨x, hx, hx'⟩ := convertEntries_files node struct key item hk hn
      rcases buildStructure_files extractTitle x files [] struct hs hx with h1 | h1
      · simp [entriesFiles] at h1
      · obtain ⟨file, hf, hr, order, ho, hxe⟩ := h1
        subst hxe
        exact ⟨file, hf, hr, order, ho, hx'⟩
  · unfold buildNavigationTree
    rw [buildStructure_filter]
    exact h

set_option maxRecDepth 100000 in
theorem buildNavigationTree_skips_readme_witness :
    buildNavigationTree extractTitleUnread
        ["guide/README.md", "guide/installation.md", "README.md"]
      = .ok [.directory "Guide" "/guide/" [.file "环境配置" "/guide/installation.html" 2]] ∧
    (∀ node ∈ fileNodesOf
        [.directory "Guide" "/guide/" [.file "环境配置" "/guide/installation.html" 2]],
      ∃ file ∈ ["guide/README.md", "guide/installation.md", "README.md"],
        fileNameOf file ≠ "README.md" ∧
        ∃ order, getFileOrder file = some order ∧
          node = .file (extractTitleUnread file) ("/" ++ replace file ".md" ".html") order) ∧
    buildNavigationTree extractTitleUnread
        (["guide/README.md", "guide/installation.md", "README.md"].filter
          fun file => fileNameOf file ≠ "README.md")
      = .ok [.directory "Guide" "/guide/" [.file "环境配置" "/guide/installation.html" 2]] :=
  ⟨rfl, buildNavigationTree_skips_readme extractTitleUnread
    ["guide/README.md", "guide/installation.md", "README.md"] _ rfl⟩

set_option maxRecDepth 100000 in
/-- C8 (failing input): for the files `factor-0-a.md` and `factor-5-b.md` the
comparator reads the order 0 as 999 (`a.order || 999`), so the root list holds
the file of order 5 before the file of order 0: the `File` nodes are not in
ascending order of their `order` field. -/
theorem buildNavigationTree_order_zero (extractTitle : String → String) :
    buildNavigationTree extractTitle ["factor-0-a.md", "factor-5-b.md"]
      = .ok [.file (extractTitle "factor-5-b.md") "/factor-5-b.html" 5,
             .file (extractTitle "factor-0-a.md") "/factor-0-a.html" 0] ∧
    fileOrders [.file (extractTitle "factor-5-b.md") "/factor-5-b.html" 5,
                .file (extractTitle "factor-0-a.md") "/factor-0-a.html" 0] = [5, 0] ∧
    ¬ List.Sorted (· ≤ ·) [5, 0] :=
  ⟨rfl, rfl, by decide⟩

set_option maxRecDepth 100000 in
/-- C9 (failing input): the paths `a.md` and `a/b.md` give different results in
their two orders: with `a.md` first the walk for `a/b.md` meets the file node
under the key `a` and the script throws `TypeError`; with `a/b.md` first the
file node of `a.md` replaces the directory `a` and the tree holds `a` alone. -/
theorem buildNavigationTree_order_dependent (extractTitle : String → String) :
    buildNavigationTree extractTitle ["a.md", "a/b.md"] = .error .typeError ∧
    buildNavigationTree extractTitle ["a/b.md", "a.md"]
      = .ok [.file (extractTitle "a.md") "/a.html" 999] ∧
    List.Perm ["a.md", "a/b.md"] ["a/b.md", "a.md"] ∧
    buildNavigationTree extractTitle ["a.md", "a/b.md"]
      ≠ buildNavigationTree extractTitle ["a/b.md", "a.md"] := by
  have h1 : buildNavigationTree extractTitle ["a.md", "a/b.md"] = .error .typeError := rfl
  have h2 : buildNavigationTree extractTitle ["a/b.md", "a.md"]
      = .ok [.file (extractTitle "a.md") "/a.html" 999] := rfl
  refine ⟨h1, h2, List.Perm.swap _ _ _, ?_⟩
  rw [h1, h2]
  exact fun h => by cases h

set_option maxRecDepth 100000 in
/-- The example of the specification: `factor-01` comes before `factor-03` in
either order of the two paths. -/
theorem buildNavigationTree_factors_example (extractTitle : String → String) :
    buildNavigationTree extractTitle
        ["factors/factor-03-own-context.md", "factors/factor-01-natural-language.md"]
      = .ok [.directory "12个因子" "/factors/"
          [.file (extractTitle "factors/factor-01-natural-language.md")
             "/factors/factor-01-natural-language.html" 1,
           .file (extractTitle "factors/factor-03-own-context.md")
             "/factors/factor-03-own-context.html" 3]] ∧
    buildNavigationTree extractTitle
        ["factors/factor-01-natural-language.md", "factors/factor-03-own-context.md"]
      = buildNavigationTree extractTitle
        ["factors/factor-03-own-context.md", "factors/factor-01-natural-language.md"] :=
  ⟨rfl, rfl⟩

theorem mem_entriesDirectoryPaths {x : String} :
    ∀ {s : List (String × Entry)},
      x ∈ entriesDirectoryPaths s ↔ ∃ k e, (k, e) ∈ s ∧ x ∈ e.directoryPaths
  | [] => by simp [entriesDirectoryPaths]
  | (k, e) :: rest => by
    simp only [entriesDirectoryPaths, List.mem_append, List.mem_cons,
      mem_entriesDirectoryPaths (s := rest)]
    constructor
    · rintro (h | ⟨k', e', hm, hx⟩)
      · exact ⟨k, e, Or.inl rfl, h⟩
      · exact ⟨k', e', Or.inr hm, hx⟩
    · rintro ⟨k', e', hm | hm, hx⟩
      · cases hm; exact Or.inl hx
      · exact Or.inr ⟨k', e', hm, hx⟩

theorem mem_directoryNodesOf {x : NavItem} :
    ∀ {l : List NavItem}, x ∈ directoryNodesOf l ↔ ∃ item ∈ l, x ∈ item.directoryNodes
  | [] => by simp [directoryNodesOf]
  | item :: rest => by
    simp only [directoryNodesOf, List.mem_append, List.mem_cons,
      mem_directoryNodesOf (l := rest)]
    constructor
    · rintro (h | ⟨i, hm, hx⟩)
      · exact ⟨item, Or.inl rfl, h⟩
      · exact ⟨i, Or.inr hm, hx⟩
    · rintro ⟨i, hm | hm, hx⟩
      · subst hm; exact Or.inl hx
      · exact Or.inr ⟨i, hm, hx⟩

/-- After the lines for one file every stored directory was stored before or
is a directory on the way to that file. -/
theorem addFile_directories (extractTitle : String → String) (file fileName : String)
    (x : String) :
    ∀ (dirs pre : List String) (current result : List (String × Entry)),
      addFile extractTitle file fileName dirs pre current = .ok result →
      x ∈ entriesDirectoryPaths result →
      x ∈ entriesDirectoryPaths current
        ∨ ∃ taken rest, taken ≠ [] ∧ taken ++ rest = dirs
            ∧ x = "/".intercalate (pre ++ taken)
  | [], pre, current, result, h, hx => by
    simp only [addFile] at h
    split_ifs at h
    cases ho : getFileOrder file with
    | none => simp [ho] at h
    | some order =>
      simp only [ho, Except.ok.injEq] at h
      subst h
      obtain ⟨k, e, hm, hxe⟩ := mem_entriesDirectoryPaths.mp hx
      rcases mem_setKey hm with hm | hm
      · exact Or.inl (mem_entriesDirectoryPaths.mpr ⟨k, e, hm, hxe⟩)
      · cases hm
        simp [Entry.directoryPaths] at hxe
  | part :: rest, pre, current, result, h, hx => by
    have hstep : ∀ (children children' : List (String × Entry)) (path title : String),
        addFile extractTitle file fileName rest (pre ++ [part]) children = .ok children' →
        (path = "/".intercalate (pre ++ [part]) ∨ path ∈ entriesDirectoryPaths current) →
        (∀ y, y ∈ entriesDirectoryPaths children → y ∈ entriesDirectoryPaths current) →
        x ∈ entriesDirectoryPaths (setKey part (.directory children' path title) current) →
        x ∈ entriesDirectoryPaths current
          ∨ ∃ taken rest', taken ≠ [] ∧ taken ++ rest' = part :: rest
              ∧ x = "/".intercalate (pre ++ taken) := by
      intro children children' path title hr hpath hsub hx'
      obtain ⟨k, e, hm, hxe⟩ := mem_entriesDirectoryPaths.mp hx'
      rcases mem_setKey hm with hm | hm
      · exact Or.inl (mem_entriesDirectoryPaths.mpr ⟨k, e, hm, hxe⟩)
      · cases hm
        simp only [Entry.directoryPaths, List.mem_cons] at hxe
        rcases hxe with hxe | hxe
        · rcases hpath with hp | hp
          · exact Or.inr ⟨[part], rest, by simp, rfl, by rw [hxe, hp]⟩
          · exact Or.inl (by rw [hxe]; exact hp)
        · rcases addFile_directories extractTitle file fileName x rest (pre ++ [part])
              children children' hr hxe with h1 | h1
          · exact Or.inl (hsub x h1)
          · obtain ⟨taken, rest', hne, happ, hxp⟩ := h1
            refine Or.inr ⟨part :: taken, rest', by simp, by simp [happ], ?_⟩
            rw [hxp, List.append_assoc, List.singleton_append]
    simp only [addFile] at h
    cases hl : current.lookup part with
    | none =>
      simp only [hl] at h
      split_ifs at h
      cases hf : formatTitle part with
      | none => simp [hf] at h
      | some title =>
        simp only [hf] at h
        cases hr : addFile extractTitle file fileName rest (pre ++ [part]) [] with
        | error e => simp [hr] at h
        | ok children =>
          simp only [hr, Except.ok.injEq] at h
          subst h
          exact hstep [] children _ title hr (Or.inl rfl)
            (fun y hy => by simp [entriesDirectoryPaths] at hy) hx
    | some entry =>
      cases entry with
      | file p t o => simp [hl] at h
      | directory children path title =>
        simp only [hl] at h
        cases hr : addFile extractTitle file fileName rest (pre ++ [part]) children with
        | error e => simp [hr] at h
        | ok children' =>
          simp only [hr, Except.ok.injEq] at h
          subst h
          have hmem : ∀ y, y ∈ (Entry.directory children path title).directoryPaths →
              y ∈ entriesDirectoryPaths current := fun y hy =>
            mem_entriesDirectoryPaths.mpr ⟨part, _, mem_of_lookup hl, hy⟩
          exact hstep children children' path title hr
            (Or.inr (hmem path (by simp [Entry.directoryPaths])))
            (fun y hy => hmem y (by simp [Entry.directoryPaths, hy])) hx

/-- Every directory stored by the loop over `files` was stored before the loop
or lies on the way to a file of the list whose name is not `README.md`. -/
theorem buildStructure_directories (extractTitle : String → String) (x : String) :
    ∀ (files : List String) (struct result : List (String × Entry)),
      buildStructure extractTitle files struct = .ok result →
      x ∈ entriesDirectoryPaths result →
      x ∈ entriesDirectoryPaths struct
        ∨ ∃ file ∈ files, fileNameOf file ≠ "README.md"
            ∧ ∃ taken rest, taken ≠ [] ∧ taken ++ rest = (split file).dropLast
                ∧ x = "/".intercalate taken
  | [], struct, result, h, hx => by
    simp only [buildStructure, Except.ok.injEq] at h
    subst h
    exact Or.inl hx
  | file :: rest, struct, result, h, hx => by
    simp only [buildStructure] at h
    split_ifs at h with hr
    · rcases buildStructure_directories extractTitle x rest struct result h hx with h1 | h1
      · exact Or.inl h1
      · obtain ⟨f, hf, hrest⟩ := h1
        exact Or.inr ⟨f, List.mem_cons_of_mem _ hf, hrest⟩
    · cases ha : addFile extractTitle file (fileNameOf file) (split file).dropLast []
          struct with
      | error e => simp [ha] at h
      | ok struct' =>
        simp only [ha] at h
        rcases buildStructure_directories extractTitle x rest struct' result h hx
          with h1 | h1
        · rcases addFile_directories extractTitle file _ x _ _ _ _ ha h1 with h2 | h2
          · exact Or.inl h2
          · obtain ⟨taken, rest', hne, happ, hxp⟩ := h2
            exact Or.inr ⟨file, List.mem_cons_self _ _, hr, taken, rest', hne, happ,
              by simpa using hxp⟩
        · obtain ⟨f, hf, hrest⟩ := h1
          exact Or.inr ⟨f, List.mem_cons_of_mem _ hf, hrest⟩

mutual
theorem convertEntry_directories (node : NavItem) :
    ∀ (e : Entry), node ∈ (convertEntry e).directoryNodes →
      ∃ p ∈ e.directoryPaths, ∃ title children,
        node = .directory title ("/" ++ p ++ "/") children
  | .file path title order, h => by
    simp [convertEntry, NavItem.directoryNodes] at h
  | .directory children path title, h => by
    simp only [convertEntry, NavItem.directoryNodes, List.mem_cons] at h
    rcases h with h | h
    · exact ⟨path, by simp [Entry.directoryPaths], title, _, h⟩
    · obtain ⟨item, hi, hn⟩ := mem_directoryNodesOf.mp h
      obtain ⟨key, hk⟩ := mem_arrangeItems hi
      obtain ⟨p, hp, hnode⟩ := convertEntries_directories node children key item hk hn
      exact ⟨p, by simp [Entry.directoryPaths, hp], hnode⟩
theorem convertEntries_directories (node : NavItem) :
    ∀ (es : List (String × Entry)) (key : String) (item : NavItem),
      (key, item) ∈ convertEntries es → node ∈ item.directoryNodes →
      ∃ p ∈ entriesDirectoryPaths es, ∃ title children,
        node = .directory title ("/" ++ p ++ "/") children
  | [], key, item, h, _ => by simp [convertEntries] at h
  | (k, e) :: rest, key, item, h, hn => by
    simp only [convertEntries, List.mem_cons] at h
    rcases h with h | h
    · cases h
      obtain ⟨p, hp, hnode⟩ := convertEntry_directories node e hn
      exact ⟨p, by simp [entriesDirectoryPaths, hp], hnode⟩
    · obtain ⟨p, hp, hnode⟩ := convertEntries_directories node rest key item h hn
      exact ⟨p, by simp [entriesDirectoryPaths, hp], hnode⟩
end

theorem buildStructure_all_readme (extractTitle : String → String) :
    ∀ (files : List String) (struct : List (String × Entry)),
      (∀ file ∈ files, fileNameOf file = "README.md") →
      buildStructure extractTitle files struct = .ok struct
  | [], struct, _ => rfl
  | file :: rest, struct, h => by
    simp only [buildStructure, h file (List.mem_cons_self _ _), if_true]
    exact buildStructure_all_readme extractTitle rest struct
      (fun f hf => h f (List.mem_cons_of_mem _ hf))

set_option maxRecDepth 100000 in
/-- C11 (counterexample to the claim as stated): for the list
`["guide/README.md"]` the root has no children at all; there is no `Directory`
node for `guide`. -/
theorem buildNavigationTree_readme_only_counterexample :
    buildNavigationTree extractTitleUnread ["guide/README.md"] = .ok [] ∧
    directoryNodesOf ([] : List NavItem) = [] :=
  ⟨rfl, rfl⟩

/-- C11 (as amended): a directory appears in the tree only through a listed
path whose file name is not `README.md`: every `Directory` node, at any depth,
has the path of a non-empty run of leading directory parts of such a path; a
list that holds only `README.md` paths gives a root without children. -/
theorem buildNavigationTree_directories (extractTitle : String → String)
    (files : List String) (tree : List NavItem)
    (h : buildNavigationTree extractTitle files = .ok tree) :
    (∀ node ∈ directoryNodesOf tree,
      ∃ file ∈ files, fileNameOf file ≠ "README.md" ∧
        ∃ taken rest, taken ≠ [] ∧ taken ++ rest = (split file).dropLast ∧
          ∃ title children,
            node = .directory title ("/" ++ "/".intercalate taken ++ "/") children) ∧
    ((∀ file ∈ files, fileNameOf file = "README.md") → tree = []) := by
  unfold buildNavigationTree at h
  cases hs : buildStructure extractTitle files [] with
  | error e => simp [hs] at h
  | ok struct =>
    simp only [hs, Except.ok.injEq] at h
    subst h
    constructor
    · intro node hnode
      obtain ⟨item, hi, hn⟩ := mem_directoryNodesOf.mp hnode
      obtain ⟨key, hk⟩ := mem_arrangeItems hi
      obtain ⟨p, hp, title, children, hnode'⟩ :=
        convertEntries_directories node struct key item hk hn
      rcases buildStructure_directories extractTitle p files [] struct hs hp with h1 | h1
      · simp [entriesDirectoryPaths] at h1
      · obtain ⟨file, hf, hr, taken, rest, hne, happ, hxp⟩ := h1
        exact ⟨file, hf, hr, taken, rest, hne, happ, title, children, by rw [hnode', hxp]⟩
    · intro hall
      rw [buildStructure_all_readme extractTitle files [] hall] at hs
      cases hs
      rfl

set_option maxRecDepth 100000 in
theorem buildNavigationTree_directories_witness :
    buildNavigationTree extractTitleUnread
        ["guide/README.md", "tools/README.md", "tools/installation.md"]
      = .ok [.directory "工具指南" "/tools/" [.file "环境配置" "/tools/installation.html" 2]] ∧
    (∀ node ∈ directoryNodesOf
        [.directory "工具指南" "/tools/" [.file "环境配置" "/tools/installation.html" 2]],
      ∃ file ∈ ["guide/README.md", "tools/README.md", "tools/installation.md"],
        fileNameOf file ≠ "README.md" ∧
        ∃ taken rest, taken ≠ [] ∧ taken ++ rest = (split file).dropLast ∧
          ∃ title children,
            node = .directory title ("/" ++ "/".intercalate taken ++ "/") children) ∧
    ((∀ file ∈ ["guide/README.md", "tools/README.md", "tools/installation.md"],
        fileNameOf file = "README.md") →
      [NavItem.directory "工具指南" "/tools/"
        [.file "环境配置" "/tools/installation.html" 2]] = []) :=
  ⟨rfl, buildNavigationTree_directories extractTitleUnread
    ["guide/README.md", "tools/README.md", "tools/installation.md"] _ rfl⟩

/-! ## Theorems: terminology manager -/

theorem mem_mapSet {α : Type} {key : String} {value : α} {p : String × α} :
    ∀ {s : List (String × α)}, p ∈ mapSet key value s → p ∈ s ∨ p = (key, value)
  | [], h => by
    simp only [mapSet, List.mem_singleton] at h
    exact Or.inr h
  | (k, e) :: rest, h => by
    simp only [mapSet] at h
    split_ifs at h with hk
    · rcases List.mem_cons.mp h with h | h
      · exact Or.inr (by rw [h, hk])
      · exact Or.inl (List.mem_cons_of_mem _ h)
    · rcases List.mem_cons.mp h with h | h
      · exact Or.inl (by rw [h]; exact List.mem_cons_self _ _)
      · rcases mem_mapSet h with h | h
        · exact Or.inl (List.mem_cons_of_mem _ h)
        · exact Or.inr h

theorem lookup_mapSet_self {α : Type} (key : String) (value : α) :
    ∀ (s : List (String × α)), (mapSet key value s).lookup key = some value
  | [] => by simp [mapSet, List.lookup]
  | (k, e) :: rest => by
    simp only [mapSet]
    split_ifs with hk
    · simp [List.lookup, hk]
    · have hne : (key == k) = false := by simpa using fun h => hk h.symm
      simp only [List.lookup, hne]
      exact lookup_mapSet_self key value rest

theorem mem_of_mapLookup {α : Type} {key : String} {v : α} :
    ∀ {s : List (String × α)}, s.lookup key = some v → (key, v) ∈ s
  | [], h => by simp at h
  | (k, w) :: rest, h => by
    rw [List.lookup_cons] at h
    split at h
    · rename_i hk
      have hk' : key = k := by simpa using hk
      cases h
      rw [hk']
      exact List.mem_cons_self _ _
    · exact List.mem_cons_of_mem _ (mem_of_mapLookup h)

theorem mapSet_of_not_mem {α : Type} (key : String) (value : α) :
    ∀ (s : List (String × α)), key ∉ s.map Prod.fst → mapSet key value s = s ++ [(key, value)]
  | [], _ => rfl
  | (k, e) :: rest, h => by
    simp only [List.map_cons, List.mem_cons, not_or] at h
    have hk : ¬ k = key := fun hk => h.1 hk.symm
    simp only [mapSet, hk, if_false, List.cons_append]
    rw [mapSet_of_not_mem key value rest h.2]

theorem keys_mapSet {α : Type} (key : String) (value : α) :
    ∀ (s : List (String × α)),
      (mapSet key value s).map Prod.fst
        = if key ∈ s.map Prod.fst then s.map Prod.fst else s.map Prod.fst ++ [key]
  | [] => by simp [mapSet]
  | (k, e) :: rest => by
    simp only [mapSet]
    by_cases hk : k = key
    · simp [hk]
    · have hk' : ¬ key = k := fun h => hk h.symm
      simp only [hk, if_false, List.map_cons, List.mem_cons, hk', false_or]
      rw [keys_mapSet key value rest]
      split_ifs <;> simp

theorem keys_mapDelete_sublist {α : Type} (key : String) :
    ∀ (s : List (String × α)), ((mapDelete key s).map Prod.fst).Sublist (s.map Prod.fst)
  | [] => by simp [mapDelete]
  | (k, e) :: rest => by
    simp only [mapDelete]
    split_ifs
    · exact List.sublist_cons_self _ _
    · exact (keys_mapDelete_sublist key rest).cons₂ _

theorem mem_mapDelete {α : Type} {key : String} {p : String × α} :
    ∀ {s : List (String × α)}, p ∈ mapDelete key s → p ∈ s
  | [], h => by simp [mapDelete] at h
  | (k, e) :: rest, h => by
    simp only [mapDelete] at h
    split_ifs at h
    · exact List.mem_cons_of_mem _ h
    · rcases List.mem_cons.mp h with h | h
      · rw [h]; exact List.mem_cons_self _ _
      · exact List.mem_cons_of_mem _ (mem_mapDelete h)

/-- Every key of the map is the lower-cased `english` of its term: the
property that `loadTerminology` and `addTerm` keep. -/
theorem loadTerms_keyed (toLowerCase : String → String) :
    ∀ (terms : List Term) (terminology : List (String × Term))
      (categories : List (Option String)),
      (∀ p ∈ terminology, p.1 = toLowerCase p.2.english) →
      ∀ p ∈ (loadTerms toLowerCase terms (terminology, categories)).1,
        p.1 = toLowerCase p.2.english
  | [], terminology, categories, h => by simpa [loadTerms] using h
  | term :: rest, terminology, categories, h => by
    simp only [loadTerms]
    apply loadTerms_keyed toLowerCase rest
    intro p hp
    rcases mem_mapSet hp with hp | hp
    · exact h p hp
    · rw [hp]

theorem built_keyed (toLowerCase : String → String) (m : Manager)
    (hm : Manager.Built toLowerCase m) :
    ∀ p ∈ m.terminology, p.1 = toLowerCase p.2.english := by
  induction hm with
  | new file => intro p hp; simp at hp
  | @load m0 _ ih =>
    unfold loadTerminology
    cases hf : m0.file with
    | none => simpa using ih
    | some terms => exact loadTerms_keyed toLowerCase terms _ _ ih
  | add englishTerm chineseTerm category context alternatives usage _ ih =>
    intro p hp
    simp only [addTerm, saveTerminology] at hp
    rcases mem_mapSet hp with hp | hp
    · exact ih p hp
    · rw [hp]
  | fileChanged file _ ih => exact ih

/-- C12: for a registry built by `loadTerminology` and `addTerm`, the three
lookups give equal results for strings that are equal after lower-casing;
after `addTerm(E, C, ...)` the translation of every case variant of `E` is
`C`; and the translation is `null` for a string that matches no stored term
after lower-casing. -/
theorem lookup_case_insensitive (toLowerCase : String → String) (m : Manager)
    (hm : Manager.Built toLowerCase m) :
    (∀ s1 s2 : String, toLowerCase s1 = toLowerCase s2 →
      getTranslation toLowerCase m s1 = getTranslation toLowerCase m s2 ∧
      shouldKeepEnglish toLowerCase m s1 = shouldKeepEnglish toLowerCase m s2 ∧
      getAlternatives toLowerCase m s1 = getAlternatives toLowerCase m s2) ∧
    (∀ (E C : String) (category context : Option String) (alternatives : List String)
        (usage s : String),
      toLowerCase s = toLowerCase E →
      getTranslation toLowerCase
        (addTerm toLowerCase m E C category context alternatives usage) s = some C) ∧
    (∀ s : String,
      (∀ p ∈ m.terminology, toLowerCase p.2.english ≠ toLowerCase s) →
      getTranslation toLowerCase m s = none) := by
  refine ⟨?_, ?_, ?_⟩
  · intro s1 s2 h
    simp only [getTranslation, shouldKeepEnglish, getAlternatives, h, and_self]
  · intro E C category context alternatives usage s h
    simp only [getTranslation, addTerm, saveTerminology, h, lookup_mapSet_self]
  · intro s h
    simp only [getTranslation]
    cases hl : m.terminology.lookup (toLowerCase s) with
    | none => rfl
    | some term =>
      exfalso
      have hmem := mem_of_mapLookup hl
      have hkey := built_keyed toLowerCase m hm _ hmem
      exact h _ hmem hkey.symm

theorem sampleManager_built : Manager.Built asciiToLowerCase sampleManager :=
  Manager.Built.load (Manager.Built.new (some [agentTerm, toolTerm]))

theorem lookup_case_insensitive_witness :
    Manager.Built asciiToLowerCase sampleManager ∧
    getTranslation asciiToLowerCase sampleManager "AGENT" = some "智能体" ∧
    getTranslation asciiToLowerCase sampleManager "Agent"
      = getTranslation asciiToLowerCase sampleManager "agent" ∧
    getTranslation asciiToLowerCase sampleManager "workflow" = none ∧
    getTranslation asciiToLowerCase
      (addTerm asciiToLowerCase sampleManager "Prompt" "提示词" none none [] "preferred")
      "PROMPT" = some "提示词" :=
  ⟨sampleManager_built, by decide,
   ((lookup_case_insensitive asciiToLowerCase sampleManager sampleManager_built).1
      "Agent" "agent" (by decide)).1,
   (lookup_case_insensitive asciiToLowerCase sampleManager sampleManager_built).2.2
      "workflow" (by decide),
   (lookup_case_insensitive asciiToLowerCase sampleManager sampleManager_built).2.1
      "Prompt" "提示词" none none [] "preferred" "PROMPT" (by decide)⟩

/-- C13: for a key that is not in the registry, `updateTerm` throws the error
that the term does not exist and leaves the manager as it was: the map, the
categories and the dictionary file are unchanged. -/
theorem updateTerm_absent (toLowerCase : String → String) (m : Manager)
    (englishTerm : String) (updates : TermPatch)
    (h : m.terminology.lookup (toLowerCase englishTerm) = none) :
    updateTerm toLowerCase m englishTerm updates
      = (m, .error (.error ("术语 \"" ++ englishTerm ++ "\" 不存在"))) := by
  simp only [updateTerm, h]

theorem updateTerm_absent_witness :
    sampleManager.terminology.lookup (asciiToLowerCase "Workflow") = none ∧
    updateTerm asciiToLowerCase sampleManager "Workflow"
        { english := none, chinese := some "工作流", category := none, context := none,
          alternatives := none, usage := none }
      = (sampleManager, .error (.error ("术语 \"" ++ "Workflow" ++ "\" 不存在"))) :=
  ⟨by decide, updateTerm_absent asciiToLowerCase sampleManager "Workflow" _ (by decide)⟩

/-- C14 (counterexample to the claim as stated): `removeTerm` for a key that
is not in the registry returns normally; no error is thrown. -/
theorem removeTerm_absent_counterexample :
    sampleManager.terminology.lookup (asciiToLowerCase "Workflow") = none ∧
    removeTerm asciiToLowerCase sampleManager "Workflow" = (sampleManager, .ok ()) ∧
    ∀ e, (removeTerm asciiToLowerCase sampleManager "Workflow").2 ≠ .error e := by
  refine ⟨by decide, rfl, ?_⟩
  intro e
  have h : (removeTerm asciiToLowerCase sampleManager "Workflow").2 = .ok () := rfl
  rw [h]
  exact fun h => by cases h

/-- C14 (as amended): for a key that is not in the registry, `removeTerm`
returns normally and leaves the manager as it was: the map, the categories and
the dictionary file are unchanged. -/
theorem removeTerm_absent (toLowerCase : String → String) (m : Manager)
    (englishTerm : String)
    (h : m.terminology.lookup (toLowerCase englishTerm) = none) :
    removeTerm toLowerCase m englishTerm = (m, .ok ()) := by
  simp [removeTerm, h]

theorem removeTerm_absent_witness :
    sampleManager.terminology.lookup (asciiToLowerCase "Workflow") = none ∧
    removeTerm asciiToLowerCase sampleManager "Workflow" = (sampleManager, .ok ()) :=
  ⟨by decide, removeTerm_absent asciiToLowerCase sampleManager "Workflow" (by decide)⟩

/-- C15 (failing input): in the registry with the terms `agent` and `tool`,
`updateTerm("agent", {english: "Tool"})` succeeds and leaves two stored terms
whose labels are equal after lower-casing; the record stays under the key
`agent`, and loading the file it wrote keeps one of the two records only. -/
theorem updateTerm_rename_collision :
    (storedLabels asciiToLowerCase sampleManager).Nodup ∧
    (updateTerm asciiToLowerCase sampleManager "agent" renameToTool).2 = .ok () ∧
    storedLabels asciiToLowerCase
        (runOps asciiToLowerCase sampleManager [.update "agent" renameToTool])
      = ["tool", "tool"] ∧
    ¬ (storedLabels asciiToLowerCase
        (runOps asciiToLowerCase sampleManager [.update "agent" renameToTool])).Nodup ∧
    (runOps asciiToLowerCase sampleManager [.update "agent" renameToTool]).terminology.map
        Prod.fst = ["agent", "tool"] ∧
    (newManager asciiToLowerCase
        (runOps asciiToLowerCase sampleManager [.update "agent" renameToTool]).file).1.terminology
      = [("tool", toolTerm)] := by
  refine ⟨by decide, rfl, by decide, by decide, by decide, by decide⟩

/-- What the three methods do keep: in a map whose keys are the lower-cased
labels of their terms, the labels stay pairwise distinct after lower-casing
under every sequence of calls in which no `updateTerm` sets `english`. -/
theorem runOps_labels_nodup (toLowerCase : String → String) :
    ∀ (ops : List ManagerOp) (m : Manager),
      (∀ p ∈ m.terminology, p.1 = toLowerCase p.2.english) →
      (m.terminology.map Prod.fst).Nodup →
      (∀ op ∈ ops, op.keepsEnglish = true) →
      (storedLabels toLowerCase (runOps toLowerCase m ops)).Nodup := by
  have hlabels : ∀ m : Manager,
      (∀ p ∈ m.terminology, p.1 = toLowerCase p.2.english) →
      (m.terminology.map Prod.fst).Nodup → (storedLabels toLowerCase m).Nodup := by
    intro m hk hn
    have : storedLabels toLowerCase m = m.terminology.map Prod.fst := by
      unfold storedLabels
      apply List.map_congr_left
      intro p hp
      exact (hk p hp).symm
    rw [this]; exact hn
  intro ops
  induction ops with
  | nil => intro m hk hn _; exact hlabels m hk hn
  | cons op rest ih =>
    intro m hk hn hops
    have hop := hops op (List.mem_cons_self _ _)
    have hrest : ∀ o ∈ rest, o.keepsEnglish = true :=
      fun o ho => hops o (List.mem_cons_of_mem _ ho)
    show (storedLabels toLowerCase (runOps toLowerCase (op.run toLowerCase m) rest)).Nodup
    apply ih _ _ _ hrest
    · cases op with
      | add englishTerm chineseTerm category context alternatives usage =>
        intro p hp
        simp only [ManagerOp.run, addTerm, saveTerminology] at hp
        rcases mem_mapSet hp with hp | hp
        · exact hk p hp
        · rw [hp]
      | update englishTerm updates =>
        intro p hp
        simp only [ManagerOp.run, updateTerm] at hp
        cases hl : m.terminology.lookup (toLowerCase englishTerm) with
        | none => simp only [hl] at hp; exact hk p hp
        | some term =>
          simp only [hl, saveTerminology] at hp
          rcases mem_mapSet hp with hp | hp
          · exact hk p hp
          · rw [hp]
            have hold := hk _ (mem_of_mapLookup hl)
            simp only [ManagerOp.keepsEnglish, Option.isNone_iff_eq_none] at hop
            simp only [TermPatch.assign, hop, Option.getD_none]
            exact hold
      | remove englishTerm =>
        intro p hp
        simp only [ManagerOp.run, removeTerm] at hp
        split_ifs at hp
        · exact hk p (mem_mapDelete hp)
        · exact hk p hp
    · cases op with
      | add englishTerm chineseTerm category context alternatives usage =>
        simp only [ManagerOp.run, addTerm, saveTerminology, keys_mapSet]
        split_ifs with hmem
        · exact hn
        · exact List.Nodup.append hn (List.nodup_singleton _)
            (by simpa [List.disjoint_singleton] using hmem)
      | update englishTerm updates =>
        simp only [ManagerOp.run, updateTerm]
        cases hl : m.terminology.lookup (toLowerCase englishTerm) with
        | none => exact hn
        | some term =>
          simp only [saveTerminology, keys_mapSet]
          have hmem : toLowerCase englishTerm ∈ m.terminology.map Prod.fst :=
            List.mem_map.mpr ⟨_, mem_of_mapLookup hl, rfl⟩
          simp only [hmem, if_true]
          exact hn
      | remove englishTerm =>
        simp only [ManagerOp.run, removeTerm]
        split_ifs
        · exact hn.sublist (keys_mapDelete_sublist _ _)
        · exact hn

theorem loadTerms_append (toLowerCase : String → String) :
    ∀ (terms : List Term) (terminology : List (String × Term))
      (categories : List (Option String)),
      (∀ t ∈ terms, toLowerCase t.english ∉ terminology.map Prod.fst) →
      (terms.map fun t => toLowerCase t.english).Nodup →
      (loadTerms toLowerCase terms (terminology, categories)).1
        = terminology ++ terms.map fun t => (toLowerCase t.english, t)
  | [], terminology, categories, _, _ => by simp [loadTerms]
  | term :: rest, terminology, categories, hnew, hnodup => by
    simp only [loadTerms]
    rw [mapSet_of_not_mem _ _ _ (hnew term (List.mem_cons_self _ _))]
    simp only [List.map_cons, List.nodup_cons] at hnodup
    rw [loadTerms_append toLowerCase rest _ _ _ hnodup.2]
    · simp
    · intro t ht
      simp only [List.map_append, List.map_cons, List.map_nil, List.mem_append,
        List.mem_singleton, not_or]
      refine ⟨hnew t (List.mem_cons_of_mem _ ht), ?_⟩
      intro heq
      exact hnodup.1 (List.mem_map.mpr ⟨t, ht, heq⟩)

/-- C16 (counterexample to the claim as stated): a file with the records
`Agent` and `agent` is written back with the record `agent` alone. -/
theorem load_save_counterexample :
    (saveTerminology
        (newManager asciiToLowerCase (some [agentTermCapital, agentTerm])).1).file
      = some [agentTerm] ∧
    agentTermCapital ∉ [agentTerm] ∧
    ¬ List.Perm [agentTerm] [agentTermCapital, agentTerm] := by
  refine ⟨by decide, by decide, ?_⟩
  intro h
  simpa using h.length_eq

/-- C16 (as amended): for a dictionary file whose records have pairwise
distinct `english` labels after lower-casing, `loadTerminology` followed by
`saveTerminology` writes back the same records, in the same order. -/
theorem load_save_roundtrip (toLowerCase : String → String) (terms : List Term)
    (h : (terms.map fun t => toLowerCase t.english).Nodup) :
    (newManager toLowerCase (some terms)).2 = .ok () ∧
    (saveTerminology (newManager toLowerCase (some terms)).1).file = some terms ∧
    List.Perm ((saveTerminology (newManager toLowerCase (some terms)).1).file.getD []) terms := by
  have hfile : (saveTerminology (newManager toLowerCase (some terms)).1).file = some terms := by
    simp only [saveTerminology, newManager, loadTerminology]
    rw [loadTerms_append toLowerCase terms [] [] (by simp) h]
    simp [Function.comp_def]
  refine ⟨rfl, hfile, ?_⟩
  rw [hfile]
  exact List.Perm.refl _

theorem load_save_roundtrip_witness :
    ([agentTerm, toolTerm].map fun t => asciiToLowerCase t.english).Nodup ∧
    (saveTerminology (newManager asciiToLowerCase (some [agentTerm, toolTerm])).1).file
      = some [agentTerm, toolTerm] :=
  ⟨by decide, (load_save_roundtrip asciiToLowerCase [agentTerm, toolTerm] (by decide)).2.1⟩

theorem lookup_mapSet_ne {α : Type} (key other : String) (value : α) (h : other ≠ key) :
    ∀ (s : List (String × α)), (mapSet key value s).lookup other = s.lookup other
  | [] => by
    have hne : (other == key) = false := by simpa using h
    simp [mapSet, List.lookup, hne]
  | (k, e) :: rest => by
    simp only [mapSet]
    split_ifs with hk
    · have hne : (other == k) = false := by simpa [hk] using h
      simp [List.lookup, hne]
    · by_cases hok : other = k
      · simp [List.lookup, hok]
      · have hne : (other == k) = false := by simpa using hok
        simp only [List.lookup, hne]
        exact lookup_mapSet_ne key other value h rest

/-- The first loop of `validateConsistency` pushes the issues of
`duplicateChineseSpec`, as long as `chineseTerms` holds for every chinese
value the key of the first earlier term that has it. -/
theorem duplicateLoop_eq :
    ∀ (rest before : List (String × Term)) (chineseTerms : List (String × String))
      (issues : List ValidationIssue),
      (∀ c : String, chineseTerms.lookup c
        = (before.find? (fun p => p.2.chinese = c)).map Prod.fst) →
      duplicateLoop rest chineseTerms issues = issues ++ duplicateChineseSpec before rest
  | [], before, chineseTerms, issues, _ => by simp [duplicateLoop, duplicateChineseSpec]
  | (english, term) :: rest, before, chineseTerms, issues, hinv => by
    simp only [duplicateLoop, duplicateChineseSpec]
    have hc := hinv term.chinese
    cases hf : before.find? (fun p => p.2.chinese = term.chinese) with
    | none =>
      rw [hf] at hc
      simp only [Option.map_none'] at hc
      simp only [hc, List.nil_append]
      apply duplicateLoop_eq rest
      intro c
      by_cases hcc : c = term.chinese
      · subst hcc
        rw [lookup_mapSet_self, List.find?_append, hf]
        simp
      · rw [lookup_mapSet_ne _ _ _ hcc, hinv c, List.find?_append]
        cases before.find? (fun p => p.2.chinese = c) with
        | some q => simp
        | none =>
          have : ¬ term.chinese = c := fun h => hcc h.symm
          simp [this]
    | some first =>
      rw [hf] at hc
      simp only [Option.map_some'] at hc
      simp only [hc]
      rw [duplicateLoop_eq rest (before ++ [(english, term)]) chineseTerms]
      · simp
      · intro c
        rw [hinv c, List.find?_append]
        cases hq : before.find? (fun p => p.2.chinese = c) with
        | some q => simp
        | none =>
          have : ¬ term.chinese = c := by
            intro h
            rw [← h, hf] at hq
            cases hq
          simp [this]

theorem missingLoop_eq :
    ∀ (entries : List (String × Term)) (issues : List ValidationIssue),
      missingLoop entries issues = issues ++ missingContextSpec entries
  | [], issues => by simp [missingLoop, missingContextSpec]
  | (english, term) :: rest, issues => by
    simp only [missingLoop]
    split_ifs with h
    · rw [missingLoop_eq rest]
      simp [missingContextSpec, h]
    · rw [missingLoop_eq rest]
      simp [missingContextSpec, h]

/-- The issues of `duplicateChineseSpec` count the terms that do not bring a
new chinese value. -/
theorem duplicateChineseSpec_length :
    ∀ (rest before : List (String × Term)),
      (duplicateChineseSpec before rest).length
          + ((before ++ rest).map fun p => p.2.chinese).toFinset.card
        = rest.length + (before.map fun p => p.2.chinese).toFinset.card
  | [], before => by simp [duplicateChineseSpec]
  | (english, term) :: rest, before => by
    have ih := duplicateChineseSpec_length rest (before ++ [(english, term)])
    simp only [List.append_assoc, List.singleton_append] at ih
    simp only [duplicateChineseSpec, List.length_append, List.length_cons]
    cases hf : before.find? (fun p => p.2.chinese = term.chinese) with
    | some first =>
      have hmem : term.chinese ∈ (before.map fun p => p.2.chinese).toFinset := by
        have h1 := List.mem_of_find?_eq_some hf
        have h2 := List.find?_some hf
        simp only [decide_eq_true_eq] at h2
        simp only [List.mem_toFinset, List.mem_map]
        exact ⟨first, h1, h2⟩
      have hcard : ((before ++ [(english, term)]).map fun p => p.2.chinese).toFinset.card
          = (before.map fun p => p.2.chinese).toFinset.card := by
        simp only [List.map_append, List.map_cons, List.map_nil, List.toFinset_append,
          List.toFinset_cons, List.toFinset_nil, insert_emptyc_eq]
        rw [Finset.union_eq_left.mpr (Finset.singleton_subset_iff.mpr hmem)]
      simp only [List.length_singleton]
      omega
    | none =>
      have hmem : term.chinese ∉ (before.map fun p => p.2.chinese).toFinset := by
        simp only [List.mem_toFinset, List.mem_map, not_exists, not_and]
        intro q hq hqc
        have := List.find?_eq_none.mp hf q hq
        simp only [decide_eq_true_eq] at this
        exact this hqc
      have hcard : ((before ++ [(english, term)]).map fun p => p.2.chinese).toFinset.card
          = (before.map fun p => p.2.chinese).toFinset.card + 1 := by
        simp only [List.map_append, List.map_cons, List.map_nil, List.toFinset_append,
          List.toFinset_cons, List.toFinset_nil, insert_emptyc_eq]
        rw [Finset.union_comm, ← Finset.insert_eq, Finset.card_insert_of_not_mem hmem]
      simp only [List.length_nil]
      omega

theorem trim_eq_empty (s : String) :
    trim s = "" ↔ ∀ c ∈ s.toList, isTrimmed c = true := by
  have hdrop : ∀ l : List Char, l.dropWhile isTrimmed = [] ↔ ∀ c ∈ l, isTrimmed c = true := by
    intro l
    induction l with
    | nil => simp
    | cons a l ih =>
      by_cases ha : isTrimmed a = true
      · simp [List.dropWhile, ha, ih]
      · simp [List.dropWhile, ha]
  have hhead : ∀ l : List Char, (∀ c ∈ l.dropWhile isTrimmed, isTrimmed c = true) →
      l.dropWhile isTrimmed = [] := by
    intro l
    induction l with
    | nil => simp
    | cons a l ih =>
      by_cases ha : isTrimmed a = true
      · simpa [List.dropWhile, ha] using ih
      · intro h
        simp only [List.dropWhile, ha] at h
        exact absurd (h a (List.mem_cons_self _ _)) ha
  unfold trim
  constructor
  · intro h
    have h1 : ((s.toList.dropWhile isTrimmed).reverse.dropWhile isTrimmed).reverse = [] := by
      have := congrArg String.toList h
      simpa using this
    rw [List.reverse_eq_nil_iff, hdrop] at h1
    apply (hdrop _).mp
    apply hhead
    intro c hc
    exact h1 c (List.mem_reverse.mpr hc)
  · intro h
    have h0 : s.toList.dropWhile isTrimmed = [] := (hdrop _).mpr h
    rw [h0]
    rfl

/-- The test of the second loop holds for a context that is absent, empty or
made of white space only. -/
theorem contextMissing_iff (context : Option String) :
    contextMissing context = true
      ↔ context = none ∨ ∃ s, context = some s ∧ ∀ c ∈ s.toList, isTrimmed c = true := by
  cases context with
  | none => simp [contextMissing]
  | some s =>
    simp only [contextMissing, Bool.or_eq_true, beq_iff_eq, trim_eq_empty]
    constructor
    · rintro (h | h)
      · subst h
        exact Or.inr ⟨"", rfl, by simp⟩
      · exact Or.inr ⟨s, rfl, h⟩
    · rintro (h | ⟨s', hs, h⟩)
      · cases h
      · cases hs
        exact Or.inr h

/-- C17: `validateConsistency` leaves the manager as it is and returns one
`duplicate_chinese` issue for each term whose chinese value is that of an
earlier term, followed by one `missing_context` issue for each term whose
context is absent, empty or white space only; the duplicate issues number the
terms less the distinct chinese values, and the list is empty exactly when the
chinese values are pairwise distinct and no context is missing. -/
theorem validateConsistency_spec (m : Manager) :
    (validateConsistency m).1 = m ∧
    (validateConsistency m).2
      = duplicateChineseSpec [] m.terminology ++ missingContextSpec m.terminology ∧
    (duplicateChineseSpec [] m.terminology).length
        + (m.terminology.map fun p => p.2.chinese).toFinset.card
      = m.terminology.length ∧
    (∀ context : Option String,
      contextMissing context = true
        ↔ context = none
          ∨ ∃ s, context = some s ∧ ∀ c ∈ s.toList, isTrimmed c = true) ∧
    ((validateConsistency m).2 = []
      ↔ (m.terminology.map fun p => p.2.chinese).Nodup
        ∧ ∀ p ∈ m.terminology, contextMissing p.2.context = false) := by
  have hres : (validateConsistency m).2
      = duplicateChineseSpec [] m.terminology ++ missingContextSpec m.terminology := by
    simp only [validateConsistency]
    rw [missingLoop_eq, duplicateLoop_eq m.terminology [] [] [] (by simp)]
    simp
  have hlen := duplicateChineseSpec_length m.terminology []
  simp only [List.nil_append, List.map_nil, List.toFinset_nil, Finset.card_empty,
    add_zero] at hlen
  refine ⟨rfl, hres, hlen, contextMissing_iff, ?_⟩
  rw [hres, List.append_eq_nil]
  have hnodup : (m.terminology.map fun p => p.2.chinese).toFinset.card
        = (m.terminology.map fun p => p.2.chinese).length
      ↔ (m.terminology.map fun p => p.2.chinese).Nodup := by
    have h := Multiset.toFinset_card_eq_card_iff_nodup
      (m := ((m.terminology.map fun p => p.2.chinese : List String) : Multiset String))
    simpa using h
  have hdup : duplicateChineseSpec [] m.terminology = []
      ↔ (m.terminology.map fun p => p.2.chinese).Nodup := by
    rw [← hnodup, ← List.length_eq_zero, List.length_map]
    omega
  have hmiss : missingContextSpec m.terminology = []
      ↔ ∀ p ∈ m.terminology, contextMissing p.2.context = false := by
    unfold missingContextSpec
    rw [List.filterMap_eq_nil_iff]
    constructor
    · intro h p hp
      have := h p hp
      by_cases hc : contextMissing p.2.context = true
      · simp [hc] at this
      · simpa using hc
    · intro h p hp
      simp [h p hp]
  rw [hdup, hmiss]

/-! ## Theorems: directory check and score, continued -/

theorem checkDirectoryLoop_unreadable (E : RegExpEngine) (readFile : String → Option String)
    (terminology : List Term) :
    ∀ (files : List String) (result : DirectoryResult),
      (∃ f ∈ files, readFile f = none) →
      ∃ e, checkDirectoryLoop E readFile terminology files result = .error e
  | [], _, h => by simp at h
  | file :: rest, result, h => by
    simp only [checkDirectoryLoop]
    cases hc : checkFileAt E readFile terminology file with
    | error e => exact ⟨e, rfl⟩
    | ok issues =>
      have hrest : ∃ f ∈ rest, readFile f = none := by
        obtain ⟨f, hf, hnone⟩ := h
        rcases List.mem_cons.mp hf with hf | hf
        · subst hf
          simp [checkFileAt, hnone] at hc
        · exact ⟨f, hf, hnone⟩
      simp only []
      split_ifs
      · exact checkDirectoryLoop_unreadable E readFile terminology rest _ hrest
      · exact checkDirectoryLoop_unreadable E readFile terminology rest _ hrest

/-- When `checkDirectory` returns, every file of the list was read and
checked, and `total` counts the issues of all of them. -/
theorem checkDirectoryLoop_ok (E : RegExpEngine) (readFile : String → Option String)
    (terminology : List Term) :
    ∀ (files : List String) (start result : DirectoryResult),
      checkDirectoryLoop E readFile terminology files start = .ok result →
      ∃ lists : List (List Issue),
        List.Forall₂
          (fun file issues =>
            ∃ content, readFile file = some content
              ∧ checkFile E content terminology = .ok issues)
          files lists ∧
        result.total = start.total + (lists.map List.length).sum
  | [], start, result, h => by
    simp only [checkDirectoryLoop, Except.ok.injEq] at h
    exact ⟨[], List.Forall₂.nil, by simp [h]⟩
  | file :: rest, start, result, h => by
    simp only [checkDirectoryLoop] at h
    cases hc : checkFileAt E readFile terminology file with
    | error e => simp [hc] at h
    | ok issues =>
      simp only [hc] at h
      have hfile : ∃ content, readFile file = some content
          ∧ checkFile E content terminology = .ok issues := by
        unfold checkFileAt at hc
        cases hr : readFile file with
        | none => simp [hr] at hc
        | some content =>
          simp only [hr] at hc
          cases hk : checkFile E content terminology with
          | error e => simp [hk] at hc
          | ok l =>
            simp only [hk, Except.ok.injEq] at hc
            exact ⟨content, rfl, by rw [← hc]; exact hk⟩
      split_ifs at h with hpos
      · obtain ⟨lists, hf, ht⟩ := checkDirectoryLoop_ok E readFile terminology rest _ _ h
        refine ⟨issues :: lists, List.Forall₂.cons hfile hf, ?_⟩
        simp only [ht, List.map_cons, List.sum_cons]
        omega
      · obtain ⟨lists, hf, ht⟩ := checkDirectoryLoop_ok E readFile terminology rest _ _ h
        refine ⟨issues :: lists, List.Forall₂.cons hfile hf, ?_⟩
        have h0 : issues.length = 0 := by omega
        simp only [ht, List.map_cons, List.sum_cons, h0]
        omega

/-- C18 (counterexample to the claim as stated): with `a.md` unreadable and
`b.md` readable, `checkDirectory` fails with the read error of `a.md`; it
returns no result, although `b.md` alone gives one issue. -/
theorem checkDirectory_unreadable_counterexample :
    checkDirectory jsRegExp sampleReadFile [agentTerm] ["a.md", "b.md"]
      = .error (.readError "a.md") ∧
    checkDirectory jsRegExp sampleReadFile [agentTerm] ["b.md"]
      = .ok { files := [("b.md", [shouldTranslateIssue agentTerm 1])], total := 1 } :=
  ⟨rfl, rfl⟩

/-- C18 (as amended): a file that cannot be read is fatal to `checkDirectory`:
for every list of files of which one cannot be read, the method fails with an
error and returns no result. -/
theorem checkDirectory_unreadable (E : RegExpEngine) (readFile : String → Option String)
    (terminology : List Term) (files : List String)
    (h : ∃ f ∈ files, readFile f = none) :
    (∃ e, checkDirectory E readFile terminology files = .error e) ∧
    ∀ result, checkDirectory E readFile terminology files ≠ .ok result := by
  obtain ⟨e, he⟩ := checkDirectoryLoop_unreadable E readFile terminology files
    { files := [], total := 0 } h
  refine ⟨⟨e, he⟩, ?_⟩
  intro result hr
  unfold checkDirectory at hr
  rw [he] at hr
  cases hr

theorem checkDirectory_unreadable_witness :
    (∃ f ∈ ["a.md", "b.md"], sampleReadFile f = none) ∧
    (∃ e, checkDirectory jsRegExp sampleReadFile [agentTerm] ["a.md", "b.md"] = .error e) ∧
    ∀ result, checkDirectory jsRegExp sampleReadFile [agentTerm] ["a.md", "b.md"]
      ≠ .ok result :=
  ⟨⟨"a.md", by simp, by decide⟩,
   checkDirectory_unreadable jsRegExp sampleReadFile [agentTerm] ["a.md", "b.md"]
     ⟨"a.md", by simp, by decide⟩⟩

/-- C20 (counterexample to the claim as stated): with the terminology result
holding only an error and links and code both passing, the score is 70, not
100: the weight 30 of the terminology check stays in `maxScore`. -/
theorem score_terminology_failed_counterexample :
    (generateOverallReport terminologyFailedResults).score = .num 70 ∧
    (generateOverallReport terminologyFailedResults).score ≠ .num 100 ∧
    (generateOverallReport terminologyFailedResults).grade = "C" := by
  have h : (generateOverallReport terminologyFailedResults).score = .num 70 := by
    simp only [generateOverallReport, totalScore, terminologyFailedResults,
      addTerminologyScore, addLinksScore, addCodeScore, truthy, maxScore, JsNum.add,
      JsNum.div, JsNum.mul, JsNum.round]
    norm_num
  refine ⟨h, ?_, ?_⟩
  · rw [h]
    intro hne
    simp only [JsNum.num.injEq] at hne
    norm_num at hne
  · simp only [generateOverallReport] at h ⊢
    rw [h]
    simp [getGrade, JsNum.ge]
    norm_num

/-- C20 (as amended): the score is `round(100 * totalScore / maxScore)` with
`maxScore = 100` for every results object, the three weights being added
unconditionally; a check without a usable result adds nothing to `totalScore`
and keeps its weight in `maxScore`, so links and code both passing with a
terminology result that holds only an error gives 70. -/
theorem score_formula (r : Results) (links : LinksResult) (code : CodeResult) :
    maxScore = .num 100 ∧
    (generateOverallReport r).score
      = JsNum.round (((totalScore r).div (.num 100)).mul (.num 100)) ∧
    addTerminologyScore { passed := false, totalIssues := none } (.num 0) = .num 0 ∧
    (generateOverallReport
      { terminology := { passed := false, totalIssues := none },
        links := { links with passed := true },
        code := { code with passed := true } }).score = .num 70 := by
  have hmax : maxScore = .num 100 := by
    simp only [maxScore, JsNum.add]
    norm_num
  refine ⟨hmax, by simp only [generateOverallReport, hmax], ?_, ?_⟩
  · simp [addTerminologyScore, truthy]
  · simp only [generateOverallReport, totalScore, addTerminologyScore, addLinksScore,
      addCodeScore, truthy, maxScore, JsNum.add, JsNum.div, JsNum.mul, JsNum.round]
    norm_num

/-! ## Theorems: terminology checker, continued -/

theorem checkFileLoop_acc (E : RegExpEngine) (content : String) :
    ∀ (dict : List Term) (acc : List Issue),
      checkFileLoop E content dict acc
        = (checkFileLoop E content dict []).map (acc ++ ·)
  | [], acc => by simp [checkFileLoop, Except.map]
  | term :: rest, acc => by
    simp only [checkFileLoop]
    rw [checkTerm_append]
    cases ht : checkTerm E content term [] with
    | error e => simp [Except.map]
    | ok block =>
      simp only [Except.map, List.nil_append]
      rw [checkFileLoop_acc E content rest (acc ++ block),
        checkFileLoop_acc E content rest block]
      cases checkFileLoop E content rest [] with
      | error e => simp [Except.map]
      | ok tail => simp [Except.map]

theorem checkFileLoop_append (E : RegExpEngine) (content : String) :
    ∀ (d1 d2 : List Term) (acc : List Issue),
      checkFileLoop E content (d1 ++ d2) acc
        = match checkFileLoop E content d1 acc with
          | .error e => .error e
          | .ok issues => checkFileLoop E content d2 issues
  | [], d2, acc => by simp [checkFileLoop]
  | term :: rest, d2, acc => by
    simp only [List.cons_append, checkFileLoop]
    cases checkTerm E content term acc with
    | error e => rfl
    | ok issues => exact checkFileLoop_append E content rest d2 issues

/-- When every term of the dictionary gives a block, `checkFile` returns the
blocks of the terms in dictionary order. -/
theorem checkFile_eq_flatMap (E : RegExpEngine) (content : String) :
    ∀ (dict : List Term),
      (∀ term ∈ dict, ∃ block, checkTerm E content term [] = .ok block) →
      checkFile E content dict = .ok (dict.flatMap (termIssues E content))
  | [], _ => rfl
  | term :: rest, h => by
    obtain ⟨block, hb⟩ := h term (List.mem_cons_self _ _)
    have ih := checkFile_eq_flatMap E content rest
      (fun t ht => h t (List.mem_cons_of_mem _ ht))
    unfold checkFile at ih ⊢
    simp only [checkFileLoop, hb]
    rw [checkFileLoop_acc, ih]
    simp [Except.map, termIssues, hb]

/-- A dictionary for which `checkFile` returns a list gives a block for each of
its terms. -/
theorem checkTerm_ok_of_checkFile (E : RegExpEngine) (content : String) (dict : List Term)
    (issues : List Issue) (h : checkFile E content dict = .ok issues) :
    ∀ term ∈ dict, ∃ block, checkTerm E content term [] = .ok block := by
  obtain ⟨blocks, -, hf⟩ := checkFile_blocks E content dict issues h
  clear h
  intro term hterm
  induction hf with
  | nil => simp at hterm
  | cons hb _ ih =>
    rcases List.mem_cons.mp hterm with ht | ht
    · subst ht; exact ⟨_, hb⟩
    · exact ih ht

/-- C22: the terms are checked independently and the result follows
dictionary order: `checkFile` for `d1 ++ d2` returns the list for `d1`
followed by the list for `d2` (and throws when one of the two throws); for a
permutation of the dictionary it returns a permutation of the list, with the
same issues; and two calls with the same content and dictionary return the
same list. -/
theorem checkFile_append (E : RegExpEngine) (content : String) (d1 d2 : List Term) :
    (checkFile E content (d1 ++ d2)
      = match checkFile E content d1 with
        | .error e => .error e
        | .ok l1 => (checkFile E content d2).map (l1 ++ ·)) ∧
    (∀ l1 l2, checkFile E content d1 = .ok l1 → checkFile E content d2 = .ok l2 →
      checkFile E content (d1 ++ d2) = .ok (l1 ++ l2)) ∧
    (∀ l1, checkFile E content d1 = .ok l1 → List.Perm d1 d2 →
      ∃ l2, checkFile E content d2 = .ok l2 ∧ List.Perm l1 l2 ∧ ∀ i, i ∈ l1 ↔ i ∈ l2) ∧
    (∀ l l', checkFile E content d1 = .ok l → checkFile E content d1 = .ok l' → l = l') := by
  have happ : checkFile E content (d1 ++ d2)
      = match checkFile E content d1 with
        | .error e => .error e
        | .ok l1 => (checkFile E content d2).map (l1 ++ ·) := by
    unfold checkFile
    rw [checkFileLoop_append]
    cases checkFileLoop E content d1 [] with
    | error e => rfl
    | ok l1 => exact checkFileLoop_acc E content d2 l1
  refine ⟨happ, ?_, ?_, ?_⟩
  · intro l1 l2 h1 h2
    rw [happ, h1, h2]
    rfl
  · intro l1 h1 hperm
    have hall := checkTerm_ok_of_checkFile E content d1 l1 h1
    have h1' := checkFile_eq_flatMap E content d1 hall
    have h2' := checkFile_eq_flatMap E content d2
      (fun t ht => hall t (hperm.mem_iff.mpr ht))
    rw [h1] at h1'
    cases h1'
    have hp : List.Perm (d1.flatMap (termIssues E content))
        (d2.flatMap (termIssues E content)) := hperm.flatMap_right _
    exact ⟨_, h2', hp, fun i => hp.mem_iff⟩
  · intro l l' h h'
    rw [h] at h'
    cases h'
    rfl

set_option maxRecDepth 100000 in
theorem checkFile_append_witness :
    checkFile jsRegExp "The agent uses a tool." ([agentTerm] ++ [toolTerm])
      = .ok ([shouldTranslateIssue agentTerm 1] ++ [shouldTranslateIssue toolTerm 1]) ∧
    checkFile jsRegExp "The agent uses a tool." [toolTerm, agentTerm]
      = .ok [shouldTranslateIssue toolTerm 1, shouldTranslateIssue agentTerm 1] :=
  ⟨(checkFile_append jsRegExp "The agent uses a tool." [agentTerm] [toolTerm]).2.1
      _ _ rfl rfl, rfl⟩

/-! ## Theorems: navigation tree, continued -/

theorem unitsLe_total : ∀ (a b : List Nat), unitsLe a b = true ∨ unitsLe b a = true
  | [], _ => Or.inl rfl
  | _ :: _, [] => Or.inr rfl
  | a :: as, b :: bs => by
    simp only [unitsLe, Bool.or_eq_true, decide_eq_true_eq, Bool.and_eq_true, beq_iff_eq]
    rcases Nat.lt_trichotomy a b with h | h | h
    · exact Or.inl (Or.inl h)
    · rcases unitsLe_total as bs with h' | h'
      · exact Or.inl (Or.inr ⟨h, h'⟩)
      · exact Or.inr (Or.inr ⟨h.symm, h'⟩)
    · exact Or.inr (Or.inl h)

theorem unitsLe_trans :
    ∀ (a b c : List Nat), unitsLe a b = true → unitsLe b c = true → unitsLe a c = true
  | [], _, _, _, _ => rfl
  | _ :: _, [], _, h, _ => by simp [unitsLe] at h
  | _ :: _, _ :: _, [], _, h => by simp [unitsLe] at h
  | a :: as, b :: bs, c :: cs, hab, hbc => by
    simp only [unitsLe, Bool.or_eq_true, decide_eq_true_eq, Bool.and_eq_true,
      beq_iff_eq] at hab hbc ⊢
    rcases hab with hab | ⟨hab, habs⟩
    · rcases hbc with hbc | ⟨hbc, -⟩
      · exact Or.inl (by omega)
      · exact Or.inl (by omega)
    · rcases hbc with hbc | ⟨hbc, hbcs⟩
      · exact Or.inl (by omega)
      · exact Or.inr ⟨by omega, unitsLe_trans as bs cs habs hbcs⟩

theorem unitsLe_antisymm :
    ∀ (a b : List Nat), unitsLe a b = true → unitsLe b a = true → a = b
  | [], [], _, _ => rfl
  | [], _ :: _, _, h => by simp [unitsLe] at h
  | _ :: _, [], h, _ => by simp [unitsLe] at h
  | a :: as, b :: bs, hab, hba => by
    simp only [unitsLe, Bool.or_eq_true, decide_eq_true_eq, Bool.and_eq_true,
      beq_iff_eq] at hab hba
    rcases hab with hab | ⟨hab, habs⟩
    · rcases hba with hba | ⟨hba, -⟩ <;> omega
    · rcases hba with hba | ⟨-, hbas⟩
      · omega
      · rw [hab, unitsLe_antisymm as bs habs hbas]

/-- Two characters with the same UTF-16 encoding followed by the same units
are equal: the encoding of a character is never a prefix of another. -/
theorem utf16_append_inj (c d : Char) (s t : List Nat) (h : utf16 c ++ s = utf16 d ++ t) :
    c = d ∧ s = t := by
  have hc := c.valid
  have hd := d.valid
  have hcn : c.toNat < 0xD800 ∨ (0xDFFF < c.toNat ∧ c.toNat < 0x110000) := hc
  have hdn : d.toNat < 0xD800 ∨ (0xDFFF < d.toNat ∧ d.toNat < 0x110000) := hd
  have heq : c.toNat = d.toNat → c = d := by
    intro hn
    have h1 : Char.ofNat c.toNat = c := Char.ofNat_toNat c
    have h2 : Char.ofNat d.toNat = d := Char.ofNat_toNat d
    rw [← h1, ← h2, hn]
  unfold utf16 at h
  by_cases h1 : c.toNat < 0x10000 <;> by_cases h2 : d.toNat < 0x10000
  · simp only [h1, h2, if_true, List.singleton_append, List.cons.injEq] at h
    exact ⟨heq h.1, h.2⟩
  · simp only [h1, h2, if_true, if_false, List.singleton_append, List.cons_append,
      List.nil_append, List.cons.injEq] at h
    omega
  · simp only [h1, h2, if_true, if_false, List.singleton_append, List.cons_append,
      List.nil_append, List.cons.injEq] at h
    omega
  · simp only [h1, h2, if_false, List.cons_append, List.nil_append, List.cons.injEq] at h
    exact ⟨heq (by omega), h.2.2⟩

theorem utf16_ne_nil (c : Char) : utf16 c ≠ [] := by
  unfold utf16
  split_ifs <;> simp

theorem flatMap_utf16_inj :
    ∀ (a b : List Char), a.flatMap utf16 = b.flatMap utf16 → a = b
  | [], [], _ => rfl
  | [], d :: b, h => by
    simp only [List.flatMap_nil, List.flatMap_cons] at h
    have := utf16_ne_nil d
    cases hu : utf16 d with
    | nil => exact absurd hu this
    | cons x xs => rw [hu] at h; simp at h
  | c :: a, [], h => by
    simp only [List.flatMap_nil, List.flatMap_cons] at h
    have := utf16_ne_nil c
    cases hu : utf16 c with
    | nil => exact absurd hu this
    | cons x xs => rw [hu] at h; simp at h
  | c :: a, d :: b, h => by
    simp only [List.flatMap_cons] at h
    obtain ⟨hcd, hab⟩ := utf16_append_inj c d _ _ h
    rw [hcd, flatMap_utf16_inj a b hab]

/-- A string is determined by its code units. -/
theorem codeUnits_inj (a b : String) (h : codeUnits a = codeUnits b) : a = b := by
  unfold codeUnits at h
  have := flatMap_utf16_inj a.toList b.toList h
  exact String.ext this

theorem keyLe_total (a b : String) : keyLe a b ∨ keyLe b a :=
  unitsLe_total _ _

theorem keyLe_trans (a b c : String) (hab : keyLe a b) (hbc : keyLe b c) : keyLe a c :=
  unitsLe_trans _ _ _ hab hbc

theorem keyLe_antisymm (a b : String) (hab : keyLe a b) (hba : keyLe b a) : a = b :=
  codeUnits_inj a b (unitsLe_antisymm _ _ hab hba)

/-- The first loop of `getOrderedKeys`, on distinct keys: the keys of `order`
that are in `remaining` are moved to `ordered`, in the order of `order`. -/
theorem pickOrdered_eq :
    ∀ (order ordered remaining : List String), order.Nodup → remaining.Nodup →
      pickOrdered order (ordered, remaining)
        = (ordered ++ order.filter (fun k => k ∈ remaining),
           remaining.filter (fun k => k ∉ order))
  | [], ordered, remaining, _, _ => by simp [pickOrdered]
  | key :: rest, ordered, remaining, ho, hr => by
    have hkey : key ∉ rest := (List.nodup_cons.mp ho).1
    have hrest : rest.Nodup := (List.nodup_cons.mp ho).2
    simp only [pickOrdered]
    by_cases hmem : key ∈ remaining
    · simp only [hmem, if_true]
      rw [pickOrdered_eq rest _ _ hrest (hr.erase key), hr.erase_eq_filter]
      have h1 : rest.filter (fun k => k ∈ remaining.filter (fun x => x != key))
          = rest.filter (fun k => k ∈ remaining) := by
        apply List.filter_congr
        intro k hk
        have hne : k ≠ key := fun h => hkey (h ▸ hk)
        simp [List.mem_filter, hne]
      have h2 : (remaining.filter (fun x => x != key)).filter (fun k => k ∉ rest)
          = remaining.filter (fun k => k ∉ key :: rest) := by
        rw [List.filter_filter]
        apply List.filter_congr
        intro k _
        by_cases hk : k = key <;> by_cases hk' : k ∈ rest <;> simp [hk, hk']
      rw [h1, h2]
      simp [List.filter_cons, hmem]
    · simp only [hmem, if_false]
      rw [pickOrdered_eq rest _ _ hrest hr]
      have h2 : remaining.filter (fun k => k ∉ rest)
          = remaining.filter (fun k => k ∉ key :: rest) := by
        apply List.filter_congr
        intro k hk
        have hne : k ≠ key := fun h => hmem (h ▸ hk)
        simp [hne]
      rw [h2]
      simp [List.filter_cons, hmem]

theorem getOrderedKeys_eq (keys : List String) (h : keys.Nodup) :
    getOrderedKeys keys
      = canonicalOrder.filter (fun k => k ∈ keys)
        ++ (keys.filter (fun k => k ∉ canonicalOrder)).insertionSort keyLe := by
  unfold getOrderedKeys
  rw [pickOrdered_eq canonicalOrder [] keys (by decide) h]
  simp

/-- C26: for pairwise distinct keys, `getOrderedKeys` returns a permutation of
the keys: the keys of the fixed list, in the order of that list, followed by
the other keys in ascending order of their code units; the result is the same
for every list of distinct keys with the same members. -/
theorem getOrderedKeys_spec (keys : List String) (h : keys.Nodup) :
    List.Perm (getOrderedKeys keys) keys ∧
    (getOrderedKeys keys).Nodup ∧
    (∃ others : List String,
      getOrderedKeys keys = canonicalOrder.filter (fun k => k ∈ keys) ++ others ∧
      List.Perm others (keys.filter fun k => k ∉ canonicalOrder) ∧
      others.Sorted keyLe) ∧
    (canonicalOrder
      = ["getting-started", "concepts", "factors", "tutorials", "tools", "best-practices",
         "community"]) ∧
    (∀ keys' : List String, keys'.Nodup → (∀ k, k ∈ keys' ↔ k ∈ keys) →
      getOrderedKeys keys' = getOrderedKeys keys) := by
  have hperm : List.Perm (getOrderedKeys keys) keys := by
    rw [getOrderedKeys_eq keys h]
    have h1 : List.Perm (canonicalOrder.filter (fun k => k ∈ keys))
        (keys.filter (fun k => k ∈ canonicalOrder)) := by
      rw [List.perm_ext_iff_of_nodup ((by decide : canonicalOrder.Nodup).filter _)
        (h.filter _)]
      intro k
      simp [List.mem_filter, and_comm]
    have h2 := List.perm_insertionSort keyLe (keys.filter (fun k => k ∉ canonicalOrder))
    refine (h1.append h2).trans ?_
    have h3 := List.filter_append_perm (fun k => decide (k ∈ canonicalOrder)) keys
    refine List.Perm.trans ?_ h3
    apply List.Perm.append_left
    apply List.Perm.of_eq
    apply List.filter_congr
    intro k _
    simp
  refine ⟨hperm, hperm.nodup_iff.mpr h, ?_, rfl, ?_⟩
  · exact ⟨_, getOrderedKeys_eq keys h, List.perm_insertionSort _ _,
      @List.sorted_insertionSort _ keyLe _ ⟨keyLe_total⟩ ⟨keyLe_trans⟩ _⟩
  · intro keys' h' hmem
    rw [getOrderedKeys_eq keys h, getOrderedKeys_eq keys' h']
    have h1 : canonicalOrder.filter (fun k => k ∈ keys')
        = canonicalOrder.filter (fun k => k ∈ keys) := by
      apply List.filter_congr
      intro k _
      simp [hmem k]
    have h2 : List.Perm (keys'.filter (fun k => k ∉ canonicalOrder))
        (keys.filter (fun k => k ∉ canonicalOrder)) := by
      rw [List.perm_ext_iff_of_nodup (h'.filter _) (h.filter _)]
      intro k
      simp [List.mem_filter, hmem k]
    have h3 : (keys'.filter (fun k => k ∉ canonicalOrder)).insertionSort keyLe
        = (keys.filter (fun k => k ∉ canonicalOrder)).insertionSort keyLe := by
      apply @List.eq_of_perm_of_sorted _ keyLe ⟨keyLe_antisymm⟩
      · exact (List.perm_insertionSort _ _).trans (h2.trans (List.perm_insertionSort _ _).symm)
      · exact @List.sorted_insertionSort _ keyLe _ ⟨keyLe_total⟩ ⟨keyLe_trans⟩ _
      · exact @List.sorted_insertionSort _ keyLe _ ⟨keyLe_total⟩ ⟨keyLe_trans⟩ _
    rw [h1, h3]

set_option maxRecDepth 100000 in
theorem getOrderedKeys_spec_witness :
    ["zeta", "tools", "alpha", "concepts", "Beta"].Nodup ∧
    getOrderedKeys ["zeta", "tools", "alpha", "concepts", "Beta"]
      = ["concepts", "tools", "Beta", "alpha", "zeta"] ∧
    List.Perm (getOrderedKeys ["zeta", "tools", "alpha", "concepts", "Beta"])
      ["zeta", "tools", "alpha", "concepts", "Beta"] :=
  ⟨by decide, by decide,
   (getOrderedKeys_spec ["zeta", "tools", "alpha", "concepts", "Beta"] (by decide)).1⟩

/-! ## Theorems: `escapeRegex` -/

theorem escapeRegex_toList (s : String) :
    (escapeRegex s).toList
      = s.toList.flatMap fun c => if c ∈ escapedChars then ['\\', c] else [c] := rfl

theorem dropEscapes_escape :
    ∀ (l : List Char),
      dropEscapes (l.flatMap fun c => if c ∈ escapedChars then ['\\', c] else [c]) = l
  | [] => rfl
  | c :: rest => by
    have ih := dropEscapes_escape rest
    simp only [List.flatMap_cons]
    by_cases hc : c ∈ escapedChars
    · simp only [hc, if_true, List.cons_append, List.nil_append, dropEscapes]
      rw [ih]
    · simp only [hc, if_false, List.cons_append, List.nil_append]
      have hne : c ≠ '\\' := fun h => hc (by rw [h]; decide)
      cases hrest : (rest.flatMap fun c => if c ∈ escapedChars then ['\\', c] else [c]) with
      | nil =>
        rw [hrest] at ih
        simp only [dropEscapes] at ih ⊢
        rw [← ih]
      | cons d tail =>
        rw [hrest] at ih
        simp only [dropEscapes, hne, if_false]
        rw [ih]

theorem toNat_mem_syntaxChars (c : Char) : c.toNat ∈ syntaxChars ↔ c ∈ escapedChars := by
  have heq : ∀ d : Char, c.toNat = d.toNat → c = d := by
    intro d hn
    have h1 : Char.ofNat c.toNat = c := Char.ofNat_toNat c
    have h2 : Char.ofNat d.toNat = d := Char.ofNat_toNat d
    rw [← h1, ← h2, hn]
  constructor
  · intro h
    simp only [syntaxChars, List.mem_cons, List.mem_singleton, List.mem_nil_iff,
      or_false] at h
    simp only [escapedChars, List.mem_cons, List.mem_singleton, List.mem_nil_iff, or_false]
    rcases h with h | h | h | h | h | h | h | h | h | h | h | h | h | h
    · exact Or.inr (Or.inr (Or.inr (Or.inr (Or.inl (heq '^' h)))))
    · exact Or.inr (Or.inr (Or.inr (Or.inr (Or.inr (Or.inl (heq '$' h))))))
    · exact Or.inr (Or.inr (Or.inr (Or.inr (Or.inr (Or.inr (Or.inr (Or.inr (Or.inr (Or.inr
        (Or.inr (Or.inr (Or.inr (heq '\\' h)))))))))))))
    · exact Or.inl (heq '.' h)
    · exact Or.inr (Or.inl (heq '*' h))
    · exact Or.inr (Or.inr (Or.inl (heq '+' h)))
    · exact Or.inr (Or.inr (Or.inr (Or.inl (heq '?' h))))
    · exact Or.inr (Or.inr (Or.inr (Or.inr (Or.inr (Or.inr (Or.inr (Or.inr (Or.inl
        (heq '(' h)))))))))
    · exact Or.inr (Or.inr (Or.inr (Or.inr (Or.inr (Or.inr (Or.inr (Or.inr (Or.inr (Or.inl
        (heq ')' h))))))))))
    · exact Or.inr (Or.inr (Or.inr (Or.inr (Or.inr (Or.inr (Or.inr (Or.inr (Or.inr (Or.inr
        (Or.inr (Or.inl (heq '[' h))))))))))))
    · exact Or.inr (Or.inr (Or.inr (Or.inr (Or.inr (Or.inr (Or.inr (Or.inr (Or.inr (Or.inr
        (Or.inr (Or.inr (Or.inl (heq ']' h)))))))))))))
    · exact Or.inr (Or.inr (Or.inr (Or.inr (Or.inr (Or.inr (Or.inl (heq '\x7b' h)))))))
    · exact Or.inr (Or.inr (Or.inr (Or.inr (Or.inr (Or.inr (Or.inr (Or.inl
        (heq '\x7d' h))))))))
    · exact Or.inr (Or.inr (Or.inr (Or.inr (Or.inr (Or.inr (Or.inr (Or.inr (Or.inr (Or.inr
        (Or.inl (heq '|' h)))))))))))
  · intro h
    simp only [escapedChars, List.mem_cons, List.mem_singleton, List.mem_nil_iff,
      or_false] at h
    rcases h with h | h | h | h | h | h | h | h | h | h | h | h | h | h <;>
      (subst h; decide)

theorem parsePattern_unit (u : Nat) (rest : List Nat) (h92 : u ≠ 92)
    (hs : u ∉ syntaxChars) :
    parsePattern (u :: rest) = (parsePattern rest).map (Atom.unit u :: ·) := by
  have h46 : u ≠ 46 := fun h => hs (by rw [h]; decide)
  conv_lhs => unfold parsePattern
  split
  · rename_i heq; cases heq
  · rename_i heq; cases heq; exact absurd rfl h92
  · rename_i heq; cases heq; exact absurd rfl h92
  · rename_i c rest' _ _ heq
    cases heq
    simp only [h46, hs, if_false]

theorem parsePattern_escaped (c : Nat) (rest : List Nat) (hs : c ∈ syntaxChars) :
    parsePattern (92 :: c :: rest) = (parsePattern rest).map (Atom.unit c :: ·) := by
  have h98 : c ≠ 98 := fun h => by rw [h] at hs; revert hs; decide
  rw [parsePattern]
  simp only [h98, hs, if_false, true_or, if_true]

theorem parsePattern_wordBoundary (rest : List Nat) :
    parsePattern (92 :: 98 :: rest) = (parsePattern rest).map (Atom.wordBoundary :: ·) := by
  rw [parsePattern]
  simp only [if_true]

theorem not_mem_syntaxChars_of_large (n : Nat) (h : 126 ≤ n) : n ∉ syntaxChars := by
  simp only [syntaxChars, List.mem_cons, List.mem_singleton, List.mem_nil_iff, or_false]
  omega

theorem lt_of_mem_syntaxChars (n : Nat) (h : n ∈ syntaxChars) : n < 126 := by
  by_contra hn
  exact not_mem_syntaxChars_of_large n (by omega) h

/-- The escaped string is parsed as the sequence of its literal code units. -/
theorem parsePattern_escapeRegex :
    ∀ (l : List Char) (tail : List Nat),
      parsePattern
          ((l.flatMap fun c => if c ∈ escapedChars then ['\\', c] else [c]).flatMap utf16
            ++ tail)
        = (parsePattern tail).map ((l.flatMap utf16).map Atom.unit ++ ·)
  | [], tail => by
    simp only [List.flatMap_nil, List.nil_append, List.map_nil]
    cases parsePattern tail <;> simp [Except.map]
  | c :: rest, tail => by
    have ih := parsePattern_escapeRegex rest tail
    simp only [List.flatMap_cons, List.flatMap_append, List.append_assoc]
    by_cases hc : c ∈ escapedChars
    · have hs : c.toNat ∈ syntaxChars := (toNat_mem_syntaxChars c).mpr hc
      have hlt := lt_of_mem_syntaxChars _ hs
      have hu : utf16 c = [c.toNat] := by
        unfold utf16
        rw [if_pos (by omega)]
      have hb : utf16 '\\' = [92] := by decide
      simp only [hc, if_true, List.flatMap_cons, List.flatMap_nil, hu, hb,
        List.singleton_append, List.cons_append, List.nil_append, List.append_nil]
      rw [parsePattern_escaped _ _ hs, ih]
      cases parsePattern tail <;> simp [Except.map]
    · have hs : c.toNat ∉ syntaxChars := fun h => hc ((toNat_mem_syntaxChars c).mp h)
      have h92 : c.toNat ≠ 92 := fun h => hs (by rw [h]; decide)
      simp only [hc, if_false, List.flatMap_cons, List.flatMap_nil, List.append_nil]
      by_cases hsmall : c.toNat < 0x10000
      · have hu : utf16 c = [c.toNat] := by
          unfold utf16
          rw [if_pos hsmall]
        simp only [hu, List.singleton_append, List.cons_append, List.nil_append]
        rw [parsePattern_unit _ _ h92 hs, ih]
        cases parsePattern tail <;> simp [Except.map]
      · have hu : utf16 c = [0xD800 + (c.toNat - 0x10000) / 0x400,
            0xDC00 + (c.toNat - 0x10000) % 0x400] := by
          unfold utf16
          rw [if_neg hsmall]
        simp only [hu, List.cons_append, List.nil_append]
        rw [parsePattern_unit _ _ (by omega) (not_mem_syntaxChars_of_large _ (by omega)),
          parsePattern_unit _ _ (by omega) (not_mem_syntaxChars_of_large _ (by omega)), ih]
        cases parsePattern tail <;> simp [Except.map]

theorem parsePattern_englishSource (term : Term) :
    parsePattern (codeUnits (englishSource term))
      = .ok (Atom.wordBoundary :: (codeUnits term.english).map Atom.unit
          ++ [Atom.wordBoundary]) := by
  have h1 : codeUnits (englishSource term)
      = 92 :: 98 ::
        ((term.english.toList.flatMap fun c =>
            if c ∈ escapedChars then ['\\', c] else [c]).flatMap utf16 ++ [92, 98]) := by
    simp only [codeUnits, englishSource, String.toList, String.data_append,
      List.flatMap_append]
    rfl
  have h2 : parsePattern [92, 98] = .ok [Atom.wordBoundary] := rfl
  rw [h1, parsePattern_wordBoundary, parsePattern_escapeRegex, h2]
  rfl

/-- C27: `escapeRegex(s)` is `s` with a backslash put before each occurrence of
one of the fourteen characters of the class, which are the syntax characters
of the pattern grammar, every other character being kept; deleting the escaping
backslashes gives `s` back; a string without such characters is returned as it
is; and the source built from the escaped term in `checkFile` is parsed as the
literal code units of the term between two word boundaries. -/
theorem escapeRegex_spec (s : String) :
    (escapeRegex s).toList
      = (s.toList.flatMap fun c => if c ∈ escapedChars then ['\\', c] else [c]) ∧
    escapedChars
      = ['.', '*', '+', '?', '^', '$', '\x7b', '\x7d', '(', ')', '|', '[', ']', '\\'] ∧
    (∀ c : Char, c ∈ escapedChars ↔ c.toNat ∈ syntaxChars) ∧
    dropEscapes (escapeRegex s).toList = s.toList ∧
    ((∀ c ∈ s.toList, c ∉ escapedChars) → escapeRegex s = s) ∧
    (escapeRegex s).length = s.length + s.toList.countP (fun c => c ∈ escapedChars) ∧
    (∀ term : Term,
      parsePattern (codeUnits (englishSource term))
        = .ok (Atom.wordBoundary :: (codeUnits term.english).map Atom.unit
            ++ [Atom.wordBoundary])) := by
  refine ⟨rfl, rfl, fun c => (toNat_mem_syntaxChars c).symm, ?_, ?_, ?_,
    parsePattern_englishSource⟩
  · rw [escapeRegex_toList, dropEscapes_escape]
  · intro h
    apply String.ext
    show (escapeRegex s).toList = s.toList
    rw [escapeRegex_toList]
    have : ∀ l : List Char, (∀ c ∈ l, c ∉ escapedChars) →
        (l.flatMap fun c => if c ∈ escapedChars then ['\\', c] else [c]) = l := by
      intro l
      induction l with
      | nil => intro _; rfl
      | cons c rest ih =>
        intro hl
        simp only [List.flatMap_cons, hl c (List.mem_cons_self _ _), if_false,
          List.singleton_append]
        rw [ih (fun d hd => hl d (List.mem_cons_of_mem _ hd))]
    exact this _ h
  · have : ∀ l : List Char,
        (l.flatMap fun c => if c ∈ escapedChars then ['\\', c] else [c]).length
          = l.length + l.countP (fun c => c ∈ escapedChars) := by
      intro l
      induction l with
      | nil => rfl
      | cons c rest ih =>
        simp only [List.flatMap_cons, List.length_append, ih, List.length_cons,
          List.countP_cons]
        by_cases hc : c ∈ escapedChars
        · simp [hc]; omega
        · simp [hc]; omega
    show (escapeRegex s).toList.length = _
    rw [escapeRegex_toList, this]
    rfl

theorem escapeRegex_spec_witness :
    (∀ c ∈ "agent".toList, c ∉ escapedChars) ∧
    escapeRegex "agent" = "agent" ∧
    escapeRegex "C++ (v1.0)" = "C\\+\\+ \\(v1\\.0\\)" ∧
    dropEscapes (escapeRegex "C++ (v1.0)").toList = "C++ (v1.0)".toList :=
  ⟨by decide, (escapeRegex_spec "agent").2.2.2.2.1 (by decide), by decide,
   (escapeRegex_spec "C++ (v1.0)").2.2.2.1⟩

/-! ## Theorems: the counts of `checkFile` -/

theorem parsePattern_literal :
    ∀ (units : List Nat), (∀ u ∈ units, u ∉ syntaxChars) →
      parsePattern units = .ok (units.map Atom.unit)
  | [], _ => rfl
  | u :: rest, h => by
    have hs : u ∉ syntaxChars := h u (List.mem_cons_self _ _)
    have h92 : u ≠ 92 := fun h' => hs (by rw [h']; decide)
    rw [parsePattern_unit u rest h92 hs,
      parsePattern_literal rest (fun v hv => h v (List.mem_cons_of_mem _ hv))]
    rfl

theorem matchHere_literal :
    ∀ (units : List Nat) (prev : Option Nat) (input : List Nat),
      matchHere false (units.map Atom.unit) prev input
        = if units.isPrefixOf input then some units.length else none
  | [], _, _ => by simp [matchHere]
  | u :: rest, _, [] => by simp [matchHere]
  | u :: rest, prev, c :: cs => by
    simp only [List.map_cons, matchHere, canonicalize, Bool.false_and, if_false,
      List.isPrefixOf, Bool.and_eq_true, beq_iff_eq, List.length_cons]
    by_cases huc : u = c
    · simp only [huc, if_true, true_and]
      rw [matchHere_literal rest (some c) cs]
      split_ifs <;> simp
    · simp [huc]

theorem countMatches_literal (units : List Nat) (hne : units ≠ []) :
    ∀ (text : List Nat) (prev : Option Nat) (skip : Nat),
      countMatches false (units.map Atom.unit) prev skip text
        = literalCountFrom units skip text
  | [], prev, skip => by
    cases units with
    | nil => exact absurd rfl hne
    | cons u rest => simp [countMatches, literalCountFrom, matchHere]
  | c :: cs, prev, skip + 1 => by
    simp only [countMatches, literalCountFrom]
    exact countMatches_literal units hne cs (some c) skip
  | c :: cs, prev, 0 => by
    simp only [countMatches, literalCountFrom]
    rw [matchHere_literal]
    by_cases hp : units.isPrefixOf (c :: cs) = true
    · simp only [hp, if_true]
      rw [countMatches_literal units hne cs (some c) (units.length - 1)]
    · simp only [hp, if_false]
      exact countMatches_literal units hne cs (some c) 0

/-- Where the counts of `checkFile` are literal: for a pattern source that is
not empty and holds no syntax character, the engine counts the non-overlapping
literal occurrences of the source, without any word-boundary requirement. -/
theorem matchCount_literal (source content : String) (hne : codeUnits source ≠ [])
    (h : ∀ u ∈ codeUnits source, u ∉ syntaxChars) :
    jsRegExp.matchCount source false content = .ok (literalCount source content) := by
  simp only [jsRegExp, parsePattern_literal _ h, Bool.false_and, if_false]
  rw [countMatches_literal _ hne]
  rfl

set_option maxRecDepth 100000 in
/-- C21 (failing input): for the term with the translation `Node.js 运行时`
the dot of the translation is read as a wildcard: the text
`The runtime is Node js 运行时.` does not hold the translation, yet the count
for it is 1, and `checkFile` reports nothing although the English term occurs
and the translation does not. -/
theorem checkFile_chinese_wildcard :
    literalCount runtimeTerm.chinese "The runtime is Node js 运行时." = 0 ∧
    jsRegExp.matchCount runtimeTerm.chinese false "The runtime is Node js 运行时."
      = .ok 1 ∧
    jsRegExp.matchCount (englishSource runtimeTerm) true "The runtime is Node js 运行时."
      = .ok 1 ∧
    checkFile jsRegExp "The runtime is Node js 运行时." [runtimeTerm] = .ok [] ∧
    checkFile jsRegExp "The runtime is fast." [runtimeTerm]
      = .ok [shouldTranslateIssue runtimeTerm 1] :=
  ⟨by decide, rfl, rfl, rfl, rfl⟩

set_option maxRecDepth 100000 in
theorem matchCount_literal_example :
    jsRegExp.matchCount "智能体" false "智能体调用智能体" = .ok 2 ∧
    literalCount "智能体" "智能体调用智能体" = 2 :=
  ⟨matchCount_literal "智能体" "智能体调用智能体" (by decide) (by decide), by decide⟩

/-! ## Theorems: ties in `convertToNavigation` -/

theorem convertEntries_keys :
    ∀ (struct : List (String × Entry)),
      (convertEntries struct).map Prod.fst = struct.map Prod.fst
  | [] => by simp [convertEntries]
  | (k, e) :: rest => by
    simp only [convertEntries, List.map_cons]
    rw [convertEntries_keys rest]

theorem convertEntries_lookup (key : String) :
    ∀ (struct : List (String × Entry)),
      (convertEntries struct).lookup key = (struct.lookup key).map convertEntry
  | [] => by simp [convertEntries]
  | (k, e) :: rest => by
    simp only [convertEntries, List.lookup_cons]
    cases key == k with
    | true => rfl
    | false => exact convertEntries_lookup key rest

/-- The sort of `convertToNavigation` is stable over the order of
`getOrderedKeys`: two items that the comparator does not put apart stay in the
order of their keys. -/
theorem convertToNavigation_stable (struct : List (String × Entry)) (ka kb : String)
    (ea eb : Entry) (hkeys : List.Sublist [ka, kb] (getOrderedKeys (struct.map Prod.fst)))
    (ha : struct.lookup ka = some ea) (hb : struct.lookup kb = some eb)
    (hle : compareItems (convertEntry ea) (convertEntry eb) ≤ 0) :
    List.Sublist [convertEntry ea, convertEntry eb] (convertToNavigation struct) := by
  unfold convertToNavigation arrangeItems
  have hab : itemLe (convertEntry ea) (convertEntry eb) := hle
  apply List.pair_sublist_insertionSort hab
  rw [convertEntries_keys]
  have h := hkeys.filterMap (convertEntries struct).lookup
  simpa [List.filterMap_cons, convertEntries_lookup, ha, hb] using h

set_option maxRecDepth 100000 in
/-- C23 (counterexample to the claim as stated): the files `b.md` and `a.md`
have the same order 999 and are listed with `b.md` first, and the tree holds
`a` before `b`. -/
theorem buildNavigationTree_ties_counterexample :
    getFileOrder "b.md" = some 999 ∧ getFileOrder "a.md" = some 999 ∧
    buildNavigationTree extractTitleUnread ["b.md", "a.md"]
      = .ok [.file "A" "/a.html" 999, .file "B" "/b.html" 999] ∧
    buildNavigationTree extractTitleUnread ["b.md", "a.md"]
      = buildNavigationTree extractTitleUnread ["a.md", "b.md"] :=
  ⟨rfl, rfl, rfl, rfl⟩

/-- C23 (as amended): ties between `File` nodes are broken by the order of
`getOrderedKeys`, not by the order of the input list: in the children list
built from the object `struct` of any directory, two files with equal order
values stand in the order in which `getOrderedKeys` lists their keys (the
names of the fixed list first, the other names in ascending order); every
`Directory` node holds the list built this way from its own children, and the
root list of `buildNavigationTree` is built this way from the root object. -/
theorem convertToNavigation_ties (struct : List (String × Entry)) :
    (∀ (ka kb pa ta pb tb : String) (order : Nat),
      List.Sublist [ka, kb] (getOrderedKeys (struct.map Prod.fst)) →
      struct.lookup ka = some (.file pa ta order) →
      struct.lookup kb = some (.file pb tb order) →
      List.Sublist
        [NavItem.file ta ("/" ++ replace pa ".md" ".html") order,
         NavItem.file tb ("/" ++ replace pb ".md" ".html") order]
        (convertToNavigation struct)) ∧
    (∀ (children : List (String × Entry)) (path title : String),
      convertEntry (.directory children path title)
        = .directory title ("/" ++ path ++ "/") (convertToNavigation children)) ∧
    (∀ (extractTitle : String → String) (files : List String),
      buildNavigationTree extractTitle files
        = match buildStructure extractTitle files [] with
          | .error e => .error e
          | .ok rootStruct => .ok (convertToNavigation rootStruct)) := by
  refine ⟨?_, ?_, fun _ _ => rfl⟩
  · intro ka kb pa ta pb tb order hkeys ha hb
    have h := convertToNavigation_stable struct ka kb _ _ hkeys ha hb
      (by simp [convertEntry, compareItems, orderOr999])
    simpa [convertEntry] using h
  · intro children path title
    simp [convertEntry, convertToNavigation]

/-! ## Theorems: `getFileOrder` -/

/-- The test of `factorDigits` at one position: the text starts with `factor-`
and a digit follows. -/
theorem factor_prefix_iff (s : List Char) :
    ("factor-".toList.isPrefixOf s = true ∧ (s.drop 7).takeWhile Char.isDigit ≠ [])
      ↔ ∃ d rest, s = "factor-".toList ++ d :: rest ∧ d.isDigit = true := by
  constructor
  · rintro ⟨hp, hd⟩
    obtain ⟨t, ht⟩ := List.isPrefixOf_iff_prefix.mp hp
    subst ht
    have hdrop : ("factor-".toList ++ t).drop 7 = t := by
      simp [String.toList]
    rw [hdrop] at hd
    cases t with
    | nil => simp at hd
    | cons d rest =>
      refine ⟨d, rest, rfl, ?_⟩
      by_contra hnd
      simp [List.takeWhile, hnd] at hd
  · rintro ⟨d, rest, hs, hd⟩
    subst hs
    refine ⟨List.isPrefixOf_iff_prefix.mpr ⟨_, rfl⟩, ?_⟩
    have hdrop : ("factor-".toList ++ d :: rest).drop 7 = d :: rest := by
      simp [String.toList]
    rw [hdrop]
    simp [List.takeWhile, hd]

/-- No match of the factor pattern: nowhere in the name is `factor-` followed
by a digit. -/
theorem factorDigits_eq_none :
    ∀ (s : List Char),
      factorDigits s = none
        ↔ ∀ pre d rest, s = pre ++ "factor-".toList ++ d :: rest → d.isDigit = false
  | [] => by
    simp only [factorDigits, true_iff]
    intro pre d rest h
    have := congrArg List.length h
    simp at this
    omega
  | c :: cs => by
    have ih := factorDigits_eq_none cs
    simp only [factorDigits]
    constructor
    · intro h pre d rest hs
      split_ifs at h with hc
      have hcs := ih.mp h
      cases pre with
      | nil =>
        by_contra hd
        apply hc
        rw [factor_prefix_iff]
        exact ⟨d, rest, by simpa using hs, by simpa using hd⟩
      | cons p pre' =>
        simp only [List.cons_append, List.cons.injEq] at hs
        exact hcs pre' d rest (by simpa using hs.2)
    · intro h
      have hc : ¬ ("factor-".toList.isPrefixOf (c :: cs) = true
          ∧ ((c :: cs).drop 7).takeWhile Char.isDigit ≠ []) := by
        rw [factor_prefix_iff]
        rintro ⟨d, rest, hs, hd⟩
        have := h [] d rest (by simpa using hs)
        rw [this] at hd
        cases hd
      rw [if_neg hc]
      apply ih.mpr
      intro pre d rest hs
      exact h (c :: pre) d rest (by simp [hs])

/-- A match of the factor pattern: the digits returned are the longest run of
digits after the first `factor-` that a digit follows. -/
theorem factorDigits_eq_some :
    ∀ (s digits : List Char), factorDigits s = some digits →
      ∃ pre rest, s = pre ++ "factor-".toList ++ rest
        ∧ digits = rest.takeWhile Char.isDigit ∧ digits ≠ []
        ∧ factorDigits (pre ++ "factor-".toList.dropLast) = none
  | [], digits, h => by simp [factorDigits] at h
  | c :: cs, digits, h => by
    simp only [factorDigits] at h
    split_ifs at h with hc
    · obtain ⟨d, rest, hs, hd⟩ := (factor_prefix_iff (c :: cs)).mp hc
      have hdrop : (c :: cs).drop 7 = d :: rest := by
        rw [hs]; simp [String.toList]
      rw [hdrop] at h hc
      simp only [Option.some.injEq] at h
      exact ⟨[], d :: rest, by simpa using hs, h.symm, by rw [← h]; exact hc.2, by decide⟩
    · obtain ⟨pre, rest, hs, hdig, hne, hfirst⟩ := factorDigits_eq_some cs digits h
      refine ⟨c :: pre, rest, by simp [hs], hdig, hne, ?_⟩
      rw [factorDigits_eq_none] at hfirst ⊢
      intro pre' d rest' hs'
      cases pre' with
      | nil =>
        by_contra hd
        apply hc
        rw [factor_prefix_iff]
        simp only [List.nil_append] at hs'
        have hlen := congrArg List.length hs'
        simp only [List.cons_append, List.length_cons, List.length_append] at hlen
        refine ⟨d, rest' ++ (("factor-".toList.drop 6) ++ rest), ?_, by simpa using hd⟩
        rw [hs]
        have h1 : c :: (pre ++ "factor-".toList ++ rest)
            = (c :: pre ++ "factor-".toList.dropLast) ++ ("factor-".toList.drop 6 ++ rest) := by
          simp [String.toList]
        rw [h1, hs']
        simp
      | cons p pre'' =>
        simp only [List.cons_append, List.cons.injEq] at hs'
        exact hfirst pre'' d rest' (by simpa using hs'.2)

theorem parseDigits_foldl (digits : List Char) (n : Nat) :
    digits.foldl (fun n d => 10 * n + (d.toNat - 48)) n
      = n * 10 ^ digits.length + parseDigits digits := by
  unfold parseDigits
  induction digits generalizing n with
  | nil => simp
  | cons d rest ih =>
    simp only [List.foldl_cons, List.length_cons]
    rw [ih (10 * n + (d.toNat - 48)), ih (10 * 0 + (d.toNat - 48))]
    ring

/-- The number read by `parseInt` from a run of digits is its decimal value:
a digit added at the end counts once and moves the others up by ten, and
zeros in front do not count. -/
theorem parseDigits_decimal (digits : List Char) (d : Char) :
    parseDigits (digits ++ [d]) = 10 * parseDigits digits + (d.toNat - 48) ∧
    parseDigits ('0' :: digits) = parseDigits digits := by
  constructor
  · simp [parseDigits, List.foldl_append]
  · have h := parseDigits_foldl digits (10 * 0 + ('0'.toNat - 48))
    have h0 : 10 * 0 + ('0'.toNat - 48) = 0 := by decide
    rw [h0] at h
    simp only [zero_mul, zero_add] at h
    show List.foldl _ _ _ = _
    simp only [List.foldl_cons]
    rw [h0]
    exact h

/-- What `getFileOrder` returns for a file whose name, without directory and
`.md`, is not the name of a property inherited from `Object.prototype`: the
value of the table `specialOrder` for a name of the table; otherwise the
decimal value of the digits after the first `factor-` that a digit follows;
otherwise 999. -/
theorem getFileOrder_spec (filePath : String) :
    (∀ n, specialOrder.lookup (basename filePath ".md") = some n →
      getFileOrder filePath = some n) ∧
    (specialOrder.lookup (basename filePath ".md") = none →
      basename filePath ".md" ∉ objectPrototypeKeys →
      (∀ digits, factorDigits (basename filePath ".md").toList = some digits →
        parseDigits digits ≤ 2 ^ 53 → getFileOrder filePath = some (parseDigits digits)) ∧
      (factorDigits (basename filePath ".md").toList = none →
        getFileOrder filePath = some 999)) ∧
    specialOrder
      = [("introduction", 1), ("installation", 2), ("first-agent", 3), ("overview", 1),
         ("terminology", 2), ("agent-architecture", 3)] := by
  refine ⟨?_, ?_, rfl⟩
  · intro n h
    simp only [getFileOrder, h]
  · intro hl hp
    constructor
    · intro digits hd hbound
      simp only [getFileOrder, hl, hp, if_false, hd, hbound, if_true]
    · intro hd
      simp only [getFileOrder, hl, hp, if_false, hd]

set_option maxRecDepth 100000 in
/-- C24 (failing input): for `constructor.md` the name `constructor` is no key
of the table and holds no factor number, so the order should be 999; the
lookup `specialOrder[fileName]` finds the property that the table inherits
from `Object.prototype`, and the method returns that property, which is no
number.  The examples of the claim and a plain name give 3, 1 and 999. -/
theorem getFileOrder_inherited :
    basename "constructor.md" ".md" = "constructor" ∧
    specialOrder.lookup "constructor" = none ∧
    factorDigits "constructor".toList = none ∧
    getFileOrder "constructor.md" = none ∧
    getFileOrder "constructor.md" ≠ some 999 ∧
    buildNavigationTree extractTitleUnread ["constructor.md"] = .error .unmodelled ∧
    getFileOrder "factors/factor-03-own-context.md" = some 3 ∧
    getFileOrder "factors/factor-01-natural-language.md" = some 1 ∧
    getFileOrder "getting-started/introduction.md" = some 1 ∧
    getFileOrder "guide/notes.md" = some 999 :=
  ⟨by decide, by decide, by decide, by decide, by decide, rfl, by decide, by decide,
   by decide, by decide⟩

/-! ## Theorems: `generateBreadcrumbsData` -/

theorem lookup_mapSet {α : Type} (key other : String) (value : α) (s : List (String × α)) :
    (mapSet key value s).lookup other = if other = key then some value else s.lookup other := by
  by_cases h : other = key
  · rw [if_pos h, h, lookup_mapSet_self]
  · rw [if_neg h, lookup_mapSet_ne _ _ _ h]

theorem nodup_keys_mapSet {α : Type} (key : String) (value : α) (s : List (String × α))
    (h : (s.map Prod.fst).Nodup) : ((mapSet key value s).map Prod.fst).Nodup := by
  rw [keys_mapSet]
  split_ifs with hk
  · exact h
  · exact List.Nodup.append h (List.nodup_singleton _)
      (by simpa [List.disjoint_singleton] using hk)

theorem mem_keys_mapSet {α : Type} (key other : String) (value : α) (s : List (String × α)) :
    other ∈ (mapSet key value s).map Prod.fst ↔ other ∈ s.map Prod.fst ∨ other = key := by
  rw [keys_mapSet]
  split_ifs with hk
  · constructor
    · exact Or.inl
    · rintro (h | h)
      · exact h
      · rw [h]; exact hk
  · simp

theorem lookup_objectAssign (key : String) :
    ∀ (source target : List (String × List String)),
      (objectAssign target source).lookup key
        = (lastLookup key source).or (target.lookup key)
  | [], target => by simp [objectAssign, lastLookup]
  | (k, v) :: rest, target => by
    have ih := lookup_objectAssign key rest (mapSet k v target)
    simp only [objectAssign, List.foldl_cons] at ih ⊢
    rw [ih, lookup_mapSet]
    simp only [lastLookup]
    cases lastLookup key rest with
    | some w => simp
    | none =>
      by_cases hk : key = k
      · simp [hk]
      · have hk' : ¬ k = key := fun h => hk h.symm
        simp [hk, hk']

theorem nodup_keys_objectAssign :
    ∀ (source target : List (String × List String)),
      (target.map Prod.fst).Nodup → ((objectAssign target source).map Prod.fst).Nodup
  | [], target, h => by simpa [objectAssign] using h
  | (k, v) :: rest, target, h => by
    have ih := nodup_keys_objectAssign rest (mapSet k v target) (nodup_keys_mapSet k v _ h)
    simpa only [objectAssign, List.foldl_cons] using ih

theorem mem_keys_objectAssign (key : String) :
    ∀ (source target : List (String × List String)),
      key ∈ (objectAssign target source).map Prod.fst
        ↔ key ∈ target.map Prod.fst ∨ key ∈ source.map Prod.fst
  | [], target => by simp [objectAssign]
  | (k, v) :: rest, target => by
    have ih := mem_keys_objectAssign key rest (mapSet k v target)
    simp only [objectAssign, List.foldl_cons] at ih ⊢
    rw [ih, mem_keys_mapSet]
    simp only [List.map_cons, List.mem_cons]
    tauto

theorem lastLookup_append (key : String) :
    ∀ (l1 l2 : List (String × List String)),
      lastLookup key (l1 ++ l2) = (lastLookup key l2).or (lastLookup key l1)
  | [], l2 => by simp [lastLookup]
  | (k, v) :: rest, l2 => by
    have ih := lastLookup_append key rest l2
    show lastLookup key ((k, v) :: (rest ++ l2)) = _
    simp only [lastLookup]
    rw [ih]
    cases lastLookup key l2 with
    | some w => simp
    | none => simp

theorem lastLookup_eq_none (key : String) :
    ∀ (l : List (String × List String)), key ∉ l.map Prod.fst → lastLookup key l = none
  | [], _ => rfl
  | (k, v) :: rest, h => by
    simp only [List.map_cons, List.mem_cons, not_or] at h
    have hk : ¬ k = key := fun hk => h.1 hk.symm
    simp [lastLookup, lastLookup_eq_none key rest h.2, hk]

/-- In a list without repeated keys the last entry of a key is its only
entry. -/
theorem lastLookup_of_mem (key : String) (value : List String) :
    ∀ (l : List (String × List String)), (l.map Prod.fst).Nodup → (key, value) ∈ l →
      lastLookup key l = some value
  | [], _, h => by simp at h
  | (k, v) :: rest, hn, h => by
    simp only [List.map_cons, List.nodup_cons] at hn
    rcases List.mem_cons.mp h with h | h
    · cases h
      simp [lastLookup, lastLookup_eq_none key rest hn.1]
    · simp [lastLookup, lastLookup_of_mem key value rest hn.2 h]

theorem lastLookup_eq_lookup (key : String) :
    ∀ (l : List (String × List String)), (l.map Prod.fst).Nodup →
      lastLookup key l = l.lookup key
  | [], _ => rfl
  | (k, v) :: rest, hn => by
    simp only [List.map_cons, List.nodup_cons] at hn
    by_cases hk : key = k
    · subst hk
      simp [lastLookup, lastLookup_eq_none key rest hn.1, List.lookup]
    · have hk' : ¬ k = key := fun h => hk h.symm
      have hb : (key == k) = false := by simpa using hk
      simp only [lastLookup, lastLookup_eq_lookup key rest hn.2, List.lookup, hb, hk',
        if_false]
      cases List.lookup key rest <;> rfl

mutual
theorem breadcrumbsItem_nodup (parentPath : List String) :
    ∀ (item : NavItem) (b : List (String × List String)), (b.map Prod.fst).Nodup →
      ((breadcrumbsItem parentPath item b).map Prod.fst).Nodup
  | .file title path order, b, h => by
    simp only [breadcrumbsItem, assignKey]
    split_ifs
    · exact h
    · exact nodup_keys_mapSet _ _ _ h
  | .directory title path children, b, h => by
    simp only [breadcrumbsItem]
    exact nodup_keys_objectAssign _ _ h
theorem breadcrumbsLoop_nodup (parentPath : List String) :
    ∀ (items : List NavItem) (b : List (String × List String)), (b.map Prod.fst).Nodup →
      ((breadcrumbsLoop parentPath items b).map Prod.fst).Nodup
  | [], b, h => by simpa [breadcrumbsLoop] using h
  | item :: rest, b, h => by
    simp only [breadcrumbsLoop]
    exact breadcrumbsLoop_nodup parentPath rest _ (breadcrumbsItem_nodup parentPath item b h)
end

mutual
/-- The value that the loop body leaves under a key: the trail of the last
`File` node with that path inside the item, or the value the object held. -/
theorem breadcrumbsItem_lookup (key : String) (hkey : key ≠ "__proto__") :
    ∀ (item : NavItem) (parentPath : List String) (b : List (String × List String)),
      (breadcrumbsItem parentPath item b).lookup key
        = (lastLookup key (item.trails parentPath)).or (b.lookup key)
  | .file title path order, parentPath, b => by
    simp only [breadcrumbsItem, assignKey, NavItem.trails, lastLookup]
    by_cases hp : path = "__proto__"
    · have hne : ¬ "__proto__" = key := fun h => hkey h.symm
      simp [hp, hne]
    · rw [if_neg hp, lookup_mapSet]
      by_cases hk : key = path
      · simp [hk]
      · have hk' : ¬ path = key := fun h => hk h.symm
        simp [hk, hk']
  | .directory title path children, parentPath, b => by
    simp only [breadcrumbsItem, NavItem.trails]
    rw [lookup_objectAssign,
      lastLookup_eq_lookup key _
        (breadcrumbsLoop_nodup (parentPath ++ [title]) children [] (by simp)),
      breadcrumbsLoop_lookup key hkey children (parentPath ++ [title]) []]
    simp
theorem breadcrumbsLoop_lookup (key : String) (hkey : key ≠ "__proto__") :
    ∀ (items : List NavItem) (parentPath : List String) (b : List (String × List String)),
      (breadcrumbsLoop parentPath items b).lookup key
        = (lastLookup key (trailsOf parentPath items)).or (b.lookup key)
  | [], parentPath, b => by simp [breadcrumbsLoop, trailsOf, lastLookup]
  | item :: rest, parentPath, b => by
    simp only [breadcrumbsLoop, trailsOf]
    rw [breadcrumbsLoop_lookup key hkey rest parentPath _,
      breadcrumbsItem_lookup key hkey item parentPath b, lastLookup_append]
    cases lastLookup key (trailsOf parentPath rest) <;> simp
end

mutual
theorem breadcrumbsItem_keys (key : String) :
    ∀ (item : NavItem) (parentPath : List String) (b : List (String × List String)),
      key ∈ (breadcrumbsItem parentPath item b).map Prod.fst
        ↔ key ∈ b.map Prod.fst
          ∨ (key ∈ (item.trails parentPath).map Prod.fst ∧ key ≠ "__proto__")
  | .file title path order, parentPath, b => by
    simp only [breadcrumbsItem, assignKey, NavItem.trails, List.map_cons, List.map_nil,
      List.mem_singleton]
    by_cases hp : path = "__proto__"
    · rw [if_pos hp]
      constructor
      · exact Or.inl
      · rintro (h | ⟨h1, h2⟩)
        · exact h
        · exact absurd (h1.trans hp) h2
    · rw [if_neg hp, mem_keys_mapSet]
      constructor
      · rintro (h | h)
        · exact Or.inl h
        · exact Or.inr ⟨h, fun h' => hp (h ▸ h')⟩
      · rintro (h | ⟨h, -⟩)
        · exact Or.inl h
        · exact Or.inr h
  | .directory title path children, parentPath, b => by
    simp only [breadcrumbsItem, NavItem.trails]
    rw [mem_keys_objectAssign,
      breadcrumbsLoop_keys key children (parentPath ++ [title]) []]
    simp
theorem breadcrumbsLoop_keys (key : String) :
    ∀ (items : List NavItem) (parentPath : List String) (b : List (String × List String)),
      key ∈ (breadcrumbsLoop parentPath items b).map Prod.fst
        ↔ key ∈ b.map Prod.fst
          ∨ (key ∈ (trailsOf parentPath items).map Prod.fst ∧ key ≠ "__proto__")
  | [], parentPath, b => by simp [breadcrumbsLoop, trailsOf]
  | item :: rest, parentPath, b => by
    simp only [breadcrumbsLoop, trailsOf, List.map_append, List.mem_append]
    rw [breadcrumbsLoop_keys key rest parentPath _,
      breadcrumbsItem_keys key item parentPath b]
    tauto
end

mutual
theorem trails_depths (ancestors : List String) :
    ∀ (item : NavItem),
      (item.trails ancestors).map (fun p => (p.1, p.2.length))
        = item.depths (ancestors.length + 1)
  | .file title path order => by simp [NavItem.trails, NavItem.depths]
  | .directory title path children => by
    simp only [NavItem.trails, NavItem.depths]
    have h := trailsOf_depths (ancestors ++ [title]) children
    simpa using h
theorem trailsOf_depths (ancestors : List String) :
    ∀ (items : List NavItem),
      (trailsOf ancestors items).map (fun p => (p.1, p.2.length))
        = depthsOf (ancestors.length + 1) items
  | [] => by simp [trailsOf, depthsOf]
  | item :: rest => by
    simp only [trailsOf, depthsOf, List.map_append]
    rw [trails_depths ancestors item, trailsOf_depths ancestors rest]
end

set_option maxRecDepth 100000 in
/-- C25 (counterexample to the claim as stated): in a tree where two `File`
nodes of different directories have the same path, the mapping holds one entry
for that path, the trail of the node visited last; the entry is not the trail
of the other node.  The paths `d.md/a.html.md` and `d.html/a.md.md` give such a
tree. -/
theorem generateBreadcrumbsData_counterexample :
    trailsOf [] samePathTree
      = [("/install.html", ["指南", "安装"]), ("/install.html", ["工具", "配置"])] ∧
    generateBreadcrumbsData samePathTree [] = [("/install.html", ["工具", "配置"])] ∧
    (generateBreadcrumbsData samePathTree []).lookup "/install.html" ≠ some ["指南", "安装"] ∧
    buildNavigationTree extractTitleUnread ["d.md/a.html.md", "d.html/a.md.md"]
      = .ok [.directory "D.Html" "/d.html/" [.file "A.Md" "/d.html/a.html.md" 999],
             .directory "D.Md" "/d.md/" [.file "A.Html" "/d.html/a.html.md" 999]] ∧
    generateBreadcrumbsData
        [.directory "D.Html" "/d.html/" [.file "A.Md" "/d.html/a.html.md" 999],
         .directory "D.Md" "/d.md/" [.file "A.Html" "/d.html/a.html.md" 999]] []
      = [("/d.html/a.html.md", ["D.Md", "A.Html"])] :=
  ⟨by decide, by decide, by decide, rfl, by decide⟩

/-- C25 (as amended): for a tree whose `File` nodes have pairwise distinct
paths, none of them `__proto__`, the keys of the mapping returned by
`generateBreadcrumbsData` are the paths of the `File` nodes of the tree, each
once; the entry of each `File` node is the list of the titles of its enclosing
`Directory` nodes from the outermost to the innermost followed by its own
title; and the length of that list is the depth of the file below the root. -/
theorem generateBreadcrumbsData_spec (items : List NavItem)
    (hnodup : ((trailsOf [] items).map Prod.fst).Nodup)
    (hproto : "__proto__" ∉ (trailsOf [] items).map Prod.fst) :
    (∀ key, key ∈ (generateBreadcrumbsData items []).map Prod.fst
      ↔ key ∈ (trailsOf [] items).map Prod.fst) ∧
    ((generateBreadcrumbsData items []).map Prod.fst).Nodup ∧
    (∀ p ∈ trailsOf [] items, (generateBreadcrumbsData items []).lookup p.1 = some p.2) ∧
    (trailsOf [] items).map (fun p => (p.1, p.2.length)) = depthsOf 1 items := by
  refine ⟨?_, breadcrumbsLoop_nodup [] items [] (by simp), ?_, trailsOf_depths [] items⟩
  · intro key
    unfold generateBreadcrumbsData
    rw [breadcrumbsLoop_keys]
    constructor
    · rintro (h | ⟨h, -⟩)
      · simp at h
      · exact h
    · intro h
      exact Or.inr ⟨h, fun hk => hproto (hk ▸ h)⟩
  · intro p hp
    have hkey : p.1 ≠ "__proto__" :=
      fun hk => hproto (hk ▸ List.mem_map_of_mem Prod.fst hp)
    unfold generateBreadcrumbsData
    rw [breadcrumbsLoop_lookup p.1 hkey, lastLookup_of_mem p.1 p.2 _ hnodup hp]
    rfl

set_option maxRecDepth 100000 in
theorem generateBreadcrumbsData_spec_witness :
    buildNavigationTree extractTitleUnread ["guide/installation.md", "overview.md"]
      = .ok sampleTree ∧
    ((trailsOf [] sampleTree).map Prod.fst).Nodup ∧
    generateBreadcrumbsData sampleTree []
      = [("/guide/installation.html", ["Guide", "环境配置"]), ("/overview.html", ["概述"])] ∧
    (∀ p ∈ trailsOf [] sampleTree,
      (generateBreadcrumbsData sampleTree []).lookup p.1 = some p.2) ∧
    depthsOf 1 sampleTree = [("/guide/installation.html", 2), ("/overview.html", 1)] :=
  ⟨rfl, by decide, by decide,
   (generateBreadcrumbsData_spec sampleTree (by decide) (by decide)).2.2.1, by decide⟩

/-! ## Theorems: `hasMatchingBraces` -/

theorem pairs_cases {o c : Char} (h : (o, c) ∈ pairs) :
    o ∈ pairs.map Prod.fst ∧ c ∉ pairs.map Prod.fst ∧ c ∈ pairs.map Prod.snd
      ∧ pairs.lookup o = some c := by
  simp only [pairs, List.mem_cons, List.mem_singleton, Prod.mk.injEq, List.mem_nil_iff,
    or_false] at h
  rcases h with ⟨h1, h2⟩ | ⟨h1, h2⟩ | ⟨h1, h2⟩ <;> subst h1 <;> subst h2 <;> decide

theorem pairs_of_lookup {o c : Char} (h : pairs.lookup o = some c) : (o, c) ∈ pairs := by
  unfold pairs at h ⊢
  simp only [List.lookup_cons, List.lookup_nil] at h
  split at h
  · rename_i h1; cases h; simp [beq_iff_eq.mp h1]
  · split at h
    · rename_i h1; cases h; simp [beq_iff_eq.mp h1]
    · split at h
      · rename_i h1; cases h; simp [beq_iff_eq.mp h1]
      · cases h

/-- The characters that are no brackets are skipped. -/
theorem matchingLoop_filter :
    ∀ (code stack : List Char),
      matchingLoop code stack = matchingLoop (code.filter isBracket) stack
  | [], stack => rfl
  | char :: rest, stack => by
    by_cases ho : char ∈ pairs.map Prod.fst
    · have hb : isBracket char = true := by simp [isBracket, ho]
      simp only [List.filter_cons, hb, if_true, matchingLoop, ho]
      exact matchingLoop_filter rest _
    · by_cases hc : char ∈ pairs.map Prod.snd
      · have hb : isBracket char = true := by simp [isBracket, hc]
        simp only [List.filter_cons, hb, if_true, matchingLoop, ho, hc, if_false]
        cases stack with
        | nil => rfl
        | cons last stack =>
          simp only []
          split_ifs
          · rfl
          · exact matchingLoop_filter rest _
      · have hb : isBracket char = false := by simp [isBracket, ho, hc]
        simp only [List.filter_cons, hb, matchingLoop, ho, hc, if_false]
        exact matchingLoop_filter rest _

/-- A well nested sequence is read without a change of the stack. -/
theorem matchingLoop_wellNested {u : List Char} (hu : WellNested u) :
    ∀ (rest stack : List Char), matchingLoop (u ++ rest) stack = matchingLoop rest stack := by
  induction hu with
  | nil => intro rest stack; rfl
  | @wrap o c w hp _ ih =>
    intro rest stack
    obtain ⟨ho, hco, hc, hl⟩ := pairs_cases hp
    have h1 : (o :: w ++ [c]) ++ rest = o :: (w ++ (c :: rest)) := by simp
    rw [h1]
    simp only [matchingLoop, ho, if_true]
    rw [ih]
    simp only [matchingLoop, hco, hc, if_false, if_true, hl, ne_eq, not_true_eq_false]
  | @append u v _ _ ihu ihv =>
    intro rest stack
    rw [List.append_assoc, ihu, ihv]

/-- A matching pair put anywhere into a well nested sequence leaves it well
nested. -/
theorem wellNested_insert {o c : Char} (hp : (o, c) ∈ pairs) {z : List Char}
    (hz : WellNested z) :
    ∀ (x y : List Char), z = x ++ y → WellNested (x ++ o :: c :: y) := by
  have hpair : WellNested [o, c] := by
    have := WellNested.wrap hp WellNested.nil
    simpa using this
  induction hz with
  | nil =>
    intro x y h
    have hx : x = [] := by
      cases x with
      | nil => rfl
      | cons a x => simp at h
    have hy : y = [] := by
      subst hx
      simpa using h.symm
    subst hx; subst hy
    simpa using hpair
  | @wrap o' c' w hp' hw ih =>
    intro x y h
    cases x with
    | nil =>
      simp only [List.nil_append] at h ⊢
      rw [← h]
      exact WellNested.append hpair (WellNested.wrap hp' hw)
    | cons a x' =>
      simp only [List.cons_append, List.cons.injEq] at h
      obtain ⟨ha, hrest⟩ := h
      subst ha
      rcases List.eq_nil_or_concat y with hy | ⟨y', b, hy⟩
      · subst hy
        simp only [List.append_nil] at hrest
        rw [← hrest]
        have := WellNested.append (WellNested.wrap hp' hw) hpair
        simpa using this
      · subst hy
        have hrest' : w ++ [c'] = (x' ++ y') ++ [b] := by
          rw [hrest]; simp
        obtain ⟨hw', hb⟩ := List.append_inj' hrest' rfl
        simp only [List.cons.injEq, and_true] at hb
        subst hb
        have := WellNested.wrap hp' (ih x' y' hw')
        simpa using this
  | @append u v hu hv ihu ihv =>
    intro x y h
    rcases List.append_eq_append_iff.mp h with ⟨a, hx, hv'⟩ | ⟨a, hu', hy⟩
    · subst hx
      have := WellNested.append hu (ihv a y hv')
      simpa using this
    · subst hy
      have := WellNested.append (ihu x a hu') hv
      simpa using this

/-- A sequence of brackets that the loop accepts from a stack is well nested
behind the opening brackets of the stack. -/
theorem wellNested_of_matchingLoop :
    ∀ (w stack : List Char), (∀ c ∈ w, isBracket c = true) →
      matchingLoop w stack = true → WellNested (stack.reverse ++ w)
  | [], stack, _, h => by
    simp only [matchingLoop, List.isEmpty_iff] at h
    subst h
    exact WellNested.nil
  | char :: rest, stack, hw, h => by
    have hrest : ∀ c ∈ rest, isBracket c = true :=
      fun c hc => hw c (List.mem_cons_of_mem _ hc)
    simp only [matchingLoop] at h
    by_cases ho : char ∈ pairs.map Prod.fst
    · simp only [ho, if_true] at h
      have := wellNested_of_matchingLoop rest (char :: stack) hrest h
      simpa using this
    · simp only [ho, if_false] at h
      have hb := hw char (List.mem_cons_self _ _)
      have hc : char ∈ pairs.map Prod.snd := by
        simpa [isBracket, ho] using hb
      simp only [hc, if_true] at h
      cases stack with
      | nil => simp at h
      | cons last stack =>
        simp only [] at h
        split_ifs at h with hl
        have hl' : pairs.lookup last = some char := by
          by_contra hne
          exact hl hne
        have ih := wellNested_of_matchingLoop rest stack hrest h
        have := wellNested_insert (pairs_of_lookup hl') ih stack.reverse rest rfl
        simpa using this

/-- C28: `hasMatchingBraces(code)` is true exactly when the brackets of `code`,
taken in their order without the other characters, are well nested; the
characters that are no brackets do not change the answer, and the function
returns on every input. -/
theorem hasMatchingBraces_spec (code : String) :
    (hasMatchingBraces code = true ↔ WellNested (code.toList.filter isBracket)) ∧
    hasMatchingBraces code = matchingLoop (code.toList.filter isBracket) [] ∧
    (∀ c : Char, isBracket c = true
      ↔ c ∈ ['(', ')', '[', ']', '\x7b', '\x7d']) ∧
    (hasMatchingBraces code = true ∨ hasMatchingBraces code = false) := by
  refine ⟨?_, matchingLoop_filter _ _, ?_, ?_⟩
  · unfold hasMatchingBraces
    rw [matchingLoop_filter]
    constructor
    · intro h
      have := wellNested_of_matchingLoop (code.toList.filter isBracket) []
        (fun c hc => (List.mem_filter.mp hc).2) h
      simpa using this
    · intro h
      have := matchingLoop_wellNested h [] []
      simpa [matchingLoop] using this
  · intro c
    simp only [isBracket, pairs, List.map_cons, List.map_nil, Bool.or_eq_true,
      decide_eq_true_eq, List.mem_cons, List.mem_singleton, List.mem_nil_iff, or_false]
    tauto
  · cases hasMatchingBraces code <;> simp

theorem hasMatchingBraces_examples :
    hasMatchingBraces "function f(a) \x7b return [a[0], (a)]; \x7d" = true ∧
    hasMatchingBraces "f(a[0)]" = false ∧
    hasMatchingBraces "f(a" = false ∧
    hasMatchingBraces "a) + (b" = false ∧
    hasMatchingBraces "no brackets" = true ∧
    WellNested ("f(a[0])".toList.filter isBracket) :=
  ⟨by decide, by decide, by decide, by decide, by decide,
   (hasMatchingBraces_spec "f(a[0])").1.mp (by decide)⟩

/-! ## Theorems: `autoFix` -/

/-- When `autoFix` writes the file: exactly when it is not a dry run and
`changes` is positive; it then writes the content it returns, and a dry run
writes nothing. -/
theorem autoFix_written (E : ReplaceEngine) (terminology : List Term) (content : String)
    (dryRun : Bool) (result : AutoFixResult) (written : Option String)
    (h : autoFix E terminology content dryRun = .ok (result, written)) :
    (written.isSome = true ↔ dryRun = false ∧ 0 < result.changes) ∧
    (∀ c, written = some c → c = result.content) ∧
    (dryRun = true → written = none) := by
  unfold autoFix at h
  cases hl : autoFixLoop E terminology { changes := 0, content := content } with
  | error e => simp [hl] at h
  | ok r =>
    simp only [hl, Except.ok.injEq, Prod.mk.injEq] at h
    obtain ⟨hr, hw⟩ := h
    subst hr
    subst hw
    by_cases hd : dryRun = true
    · simp [hd]
    · have hd' : dryRun = false := by simpa using hd
      by_cases hc : 0 < r.changes
      · simp [hd', hc]
      · simp [hd', hc]

set_option maxRecDepth 100000 in
/-- C29 (failing input): for the term `agent` with the translation
`智能体 (agent)` and the content `The agent runs.`, `autoFix` returns a content
that differs from the original with `changes` 0, since the translation holds
the English term and the count after the replacement equals the count before;
without `dryRun` the file is therefore not rewritten.  A translation that holds
the English term twice gives a negative `changes`. -/
theorem autoFix_gloss_changes :
    autoFix jsReplace [glossTerm] "The agent runs." false
      = .ok ({ changes := 0, content := "The 智能体 (agent) runs." }, none) ∧
    "The 智能体 (agent) runs." ≠ "The agent runs." ∧
    jsReplace.matchCount (englishSource glossTerm) false "The agent runs." = .ok 1 ∧
    jsReplace.matchCount (englishSource glossTerm) false "The 智能体 (agent) runs."
      = .ok 1 ∧
    autoFix jsReplace [doubleGlossTerm] "An LLM answers." false
      = .ok ({ changes := -1, content := "An LLM 大语言模型 (LLM) answers." }, none) ∧
    autoFix jsReplace [agentTerm] "The agent runs, the agent stops." false
      = .ok ({ changes := 2, content := "The 智能体 runs, the 智能体 stops." },
             some "The 智能体 runs, the 智能体 stops.") ∧
    autoFix jsReplace [agentTerm] "The agent runs, the agent stops." true
      = .ok ({ changes := 2, content := "The 智能体 runs, the 智能体 stops." }, none) :=
  ⟨rfl, by decide, rfl, rfl, rfl, rfl, rfl⟩

set_option maxRecDepth 100000 in
theorem autoFix_written_example :
    autoFix jsReplace [agentTerm] "The agent runs." false
      = .ok ({ changes := 1, content := "The 智能体 runs." }, some "The 智能体 runs.") ∧
    ((some "The 智能体 runs." : Option String).isSome = true
      ↔ false = false ∧ (0 : Int) < 1) :=
  ⟨rfl, (autoFix_written jsReplace [agentTerm] "The agent runs." false
      { changes := 1, content := "The 智能体 runs." } (some "The 智能体 runs.") rfl).1⟩

/-! ## Theorems: key collisions in `buildNavigationTree` -/

set_option maxRecDepth 100000 in
/-- C30 (failing input): the distinct paths `a.md` and `a/b.md` name a file and
a directory with the same key `a`.  Listed with `a.md` first, the method throws
`TypeError` and returns no tree; listed with `a/b.md` first, the node of `a.md`
replaces the directory and the tree has no `File` node for `a/b.md`. -/
theorem buildNavigationTree_collision :
    ["a.md", "a/b.md"].Nodup ∧
    (∀ file ∈ ["a.md", "a/b.md"], fileNameOf file ≠ "README.md") ∧
    buildNavigationTree extractTitleUnread ["a.md", "a/b.md"] = .error .typeError ∧
    buildNavigationTree extractTitleUnread ["a/b.md", "a.md"]
      = .ok [.file "A" "/a.html" 999] ∧
    fileNodesOf [.file "A" "/a.html" 999] = [.file "A" "/a.html" 999] ∧
    buildNavigationTree extractTitleUnread ["a/b.md"]
      = .ok [.directory "A" "/a/" [.file "B" "/a/b.html" 999]] :=
  ⟨by decide, by decide, rfl, rfl, rfl, rfl⟩

/-! ## Theorems: the issues of `checkFile` and the unescaped patterns -/

set_option maxRecDepth 100000 in
/-- C1 (failing input): for the term `runtime` with the translation
`Node.js 运行时` and the text `The runtime is Node js 运行时.`, the English
term occurs once as a whole word and the translation does not occur, so a
`should_translate` issue with count 1 is due; the pattern built from the raw
translation matches `Node js 运行时`, the count of the translation is 1 and
`checkFile` returns no issue. -/
theorem checkFile_should_translate_missed :
    runtimeTerm.usage ≠ "keep_english" ∧
    jsRegExp.matchCount (englishSource runtimeTerm) true "The runtime is Node js 运行时."
      = .ok 1 ∧
    literalCount runtimeTerm.chinese "The runtime is Node js 运行时." = 0 ∧
    jsRegExp.matchCount runtimeTerm.chinese false "The runtime is Node js 运行时."
      = .ok 1 ∧
    checkFile jsRegExp "The runtime is Node js 运行时." [runtimeTerm] = .ok [] ∧
    shouldTranslateIssue runtimeTerm 1 ∉ ([] : List Issue) :=
  ⟨by decide, rfl, by decide, rfl, rfl, by simp⟩

set_option maxRecDepth 100000 in
/-- C2 (failing input): for the term with usage `keep_english` and the
translation `a.b`, the text `axb a b` does not hold the translation, so no
`should_keep_english` issue is due; the pattern built from the raw translation
matches `axb` and `a b`, and `checkFile` returns a `should_keep_english` issue
with count 2. -/
theorem checkFile_should_keep_english_spurious :
    dottedKeepTerm.usage = "keep_english" ∧
    literalCount dottedKeepTerm.chinese "axb a b" = 0 ∧
    jsRegExp.matchCount dottedKeepTerm.chinese false "axb a b" = .ok 2 ∧
    checkFile jsRegExp "axb a b" [dottedKeepTerm]
      = .ok [shouldKeepEnglishIssue dottedKeepTerm 2] ∧
    (shouldKeepEnglishIssue dottedKeepTerm 2).type = "should_keep_english" ∧
    (shouldKeepEnglishIssue dottedKeepTerm 2).count = 2 :=
  ⟨rfl, by decide, rfl, rfl, rfl, rfl⟩

set_option maxRecDepth 100000 in
/-- C3 (failing input): for the term with the alternative `a.b`, the text
`axb a b` does not hold the alternative, so no `alternative_used` issue is due;
the pattern built from the raw alternative matches `axb` and `a b`, and
`checkFile` returns an `alternative_used` issue for it with count 2. -/
theorem checkFile_alternative_spurious :
    dottedAltTerm.alternatives = some ["a.b"] ∧
    literalCount "a.b" "axb a b" = 0 ∧
    jsRegExp.matchCount "a.b" false "axb a b" = .ok 2 ∧
    checkFile jsRegExp "axb a b" [dottedAltTerm]
      = .ok [alternativeUsedIssue dottedAltTerm "a.b" 2] ∧
    (alternativeUsedIssue dottedAltTerm "a.b" 2).type = "alternative_used" ∧
    (alternativeUsedIssue dottedAltTerm "a.b" 2).term = "a.b" ∧
    (alternativeUsedIssue dottedAltTerm "a.b" 2).count = 2 :=
  ⟨rfl, by decide, rfl, rfl, rfl, rfl, rfl⟩

/-! ## Theorems: rounding to the nearest double -/

theorem roundHalfEven_bounds (q : ℚ) : ⌊q⌋ ≤ roundHalfEven q ∧ roundHalfEven q ≤ ⌊q⌋ + 1 := by
  unfold roundHalfEven
  split_ifs <;> constructor <;> omega

theorem roundHalfEven_intCast (k : ℤ) : roundHalfEven (k : ℚ) = k := by
  unfold roundHalfEven
  simp

theorem roundHalfEven_mono {x y : ℚ} (h : x ≤ y) : roundHalfEven x ≤ roundHalfEven y := by
  have hf : ⌊x⌋ ≤ ⌊y⌋ := Int.floor_mono h
  rcases lt_or_eq_of_le hf with hlt | heq
  · have h1 := (roundHalfEven_bounds x).2
    have h2 := (roundHalfEven_bounds y).1
    omega
  · unfold roundHalfEven
    rw [← heq]
    have hxy : x - ⌊x⌋ ≤ y - ⌊x⌋ := by linarith
    split_ifs <;> first | omega | (exfalso; linarith)

theorem roundHalfEven_le {x : ℚ} {b : ℤ} (h : x ≤ b) : roundHalfEven x ≤ b := by
  have := roundHalfEven_mono h
  rwa [roundHalfEven_intCast] at this

theorem le_roundHalfEven {x : ℚ} {a : ℤ} (h : (a : ℚ) ≤ x) : a ≤ roundHalfEven x := by
  have := roundHalfEven_mono h
  rwa [roundHalfEven_intCast] at this

theorem roundHalfEven_eq {x : ℚ} {m : ℤ} (h : |x - m| < 1 / 2) : roundHalfEven x = m := by
  rw [abs_lt] at h
  have h1 : (m : ℚ) - 1 < x := by linarith [h.1]
  have h2 : x < (m : ℚ) + 1 := by linarith [h.2]
  have hfl : m - 1 ≤ ⌊x⌋ := by
    apply Int.le_floor.mpr
    push_cast
    linarith
  have hfu : ⌊x⌋ ≤ m := by
    have : ⌊x⌋ < m + 1 := by
      apply Int.floor_lt.mpr
      push_cast
      linarith
    omega
  unfold roundHalfEven
  rcases (by omega : ⌊x⌋ = m ∨ ⌊x⌋ = m - 1) with hm | hm
  · have hfrac : x - ⌊x⌋ < 1 / 2 := by rw [hm]; linarith [h.2]
    rw [if_pos hfrac, hm]
  · have hfrac : 1 / 2 < x - ⌊x⌋ := by rw [hm]; push_cast; linarith [h.1]
    have hn : ¬ x - ⌊x⌋ < 1 / 2 := by linarith
    rw [if_neg hn, if_pos hfrac, hm]
    ring


theorem log_eq_of_bounds {q : ℚ} {e : ℤ} (hq : 0 < q) (h1 : (2 : ℚ) ^ e ≤ q)
    (h2 : q < (2 : ℚ) ^ (e + 1)) : Int.log 2 q = e := by
  have ha : e ≤ Int.log 2 q := (Int.zpow_le_iff_le_log (by norm_num) hq).mp (by exact_mod_cast h1)
  have hb : Int.log 2 q < e + 1 :=
    (Int.lt_zpow_iff_log_lt (by norm_num) hq).mp (by exact_mod_cast h2)
  omega

theorem log_bounds {q : ℚ} (hq : 0 < q) :
    (2 : ℚ) ^ Int.log 2 q ≤ q ∧ q < (2 : ℚ) ^ (Int.log 2 q + 1) := by
  constructor
  · have := Int.zpow_log_le_self (b := 2) (by norm_num) hq
    exact_mod_cast this
  · have := Int.lt_zpow_succ_log_self (b := 2) (by norm_num) q
    exact_mod_cast this

theorem binade_pos {q : ℚ} (hq : 0 < q) : binade q = max (Int.log 2 q) (-1022) := by
  unfold binade
  rw [abs_of_pos hq]

theorem roundDouble_zero : roundDouble 0 = 0 := by
  simp [roundDouble, roundHalfEven]

theorem roundDouble_nonneg {q : ℚ} (hq : 0 ≤ q) : 0 ≤ roundDouble q := by
  unfold roundDouble
  have hu : (0 : ℚ) < 2 ^ (binade q - 52) := by positivity
  have h0 : (0 : ℤ) ≤ roundHalfEven (q / 2 ^ (binade q - 52)) := by
    apply le_roundHalfEven
    simp only [Int.cast_zero]
    positivity
  have : (0 : ℚ) ≤ (roundHalfEven (q / 2 ^ (binade q - 52)) : ℚ) := by exact_mod_cast h0
  positivity

/-- The rounded value stays in the closed binade of the number. -/
theorem roundDouble_le_pow {q : ℚ} (hq : 0 < q) : roundDouble q ≤ 2 ^ (binade q + 1) := by
  unfold roundDouble
  have hu : (0 : ℚ) < 2 ^ (binade q - 52) := by positivity
  have hlog := (log_bounds hq).2
  have hb : Int.log 2 q ≤ binade q := by rw [binade_pos hq]; exact le_max_left _ _
  have hq2 : q ≤ (2 : ℚ) ^ (binade q + 1) :=
    hlog.le.trans (zpow_le_zpow_right₀ (by norm_num) (by omega))
  have hsplit : (2 : ℚ) ^ (binade q + 1) = 2 ^ (53 : ℤ) * 2 ^ (binade q - 52) := by
    rw [← zpow_add₀ (by norm_num)]
    congr 1
    ring
  have hdiv : q / 2 ^ (binade q - 52) ≤ ((2 ^ 53 : ℤ) : ℚ) := by
    rw [div_le_iff₀ hu]
    rw [hsplit] at hq2
    have : (((2 : ℤ) ^ 53 : ℤ) : ℚ) = (2 : ℚ) ^ (53 : ℤ) := by norm_num
    rw [this]
    exact hq2
  have hr := roundHalfEven_le hdiv
  have hr' : (roundHalfEven (q / 2 ^ (binade q - 52)) : ℚ) ≤ (2 : ℚ) ^ (53 : ℤ) := by
    have : ((roundHalfEven (q / 2 ^ (binade q - 52)) : ℤ) : ℚ) ≤ ((2 ^ 53 : ℤ) : ℚ) := by
      exact_mod_cast hr
    have h53 : (((2 : ℤ) ^ 53 : ℤ) : ℚ) = (2 : ℚ) ^ (53 : ℤ) := by norm_num
    rw [h53] at this
    exact this
  rw [hsplit]
  exact mul_le_mul_of_nonneg_right hr' hu.le

theorem pow_le_roundDouble {q : ℚ} (hq : 0 < q) (he : -1022 ≤ Int.log 2 q) :
    (2 : ℚ) ^ Int.log 2 q ≤ roundDouble q := by
  have hb : binade q = Int.log 2 q := by rw [binade_pos hq]; exact max_eq_left he
  unfold roundDouble
  rw [hb]
  have hu : (0 : ℚ) < 2 ^ (Int.log 2 q - 52) := by positivity
  have hlog := (log_bounds hq).1
  have hsplit : (2 : ℚ) ^ Int.log 2 q = 2 ^ (52 : ℤ) * 2 ^ (Int.log 2 q - 52) := by
    rw [← zpow_add₀ (by norm_num)]
    congr 1
    ring
  have hdiv : ((2 ^ 52 : ℤ) : ℚ) ≤ q / 2 ^ (Int.log 2 q - 52) := by
    rw [le_div_iff₀ hu]
    have : (((2 : ℤ) ^ 52 : ℤ) : ℚ) = (2 : ℚ) ^ (52 : ℤ) := by norm_num
    rw [this, ← hsplit]
    exact hlog
  have hr := le_roundHalfEven hdiv
  have hr' : (2 : ℚ) ^ (52 : ℤ) ≤ (roundHalfEven (q / 2 ^ (Int.log 2 q - 52)) : ℚ) := by
    have : ((2 ^ 52 : ℤ) : ℚ) ≤ ((roundHalfEven (q / 2 ^ (Int.log 2 q - 52)) : ℤ) : ℚ) := by
      exact_mod_cast hr
    have h52 : (((2 : ℤ) ^ 52 : ℤ) : ℚ) = (2 : ℚ) ^ (52 : ℤ) := by norm_num
    rw [h52] at this
    exact this
  rw [hsplit]
  exact mul_le_mul_of_nonneg_right hr' hu.le

/-- Rounding to the nearest double keeps the order of non-negative numbers. -/
theorem roundDouble_mono {x y : ℚ} (hx : 0 ≤ x) (hxy : x ≤ y) :
    roundDouble x ≤ roundDouble y := by
  rcases eq_or_lt_of_le hx with h0 | hpos
  · rw [← h0, roundDouble_zero]
    exact roundDouble_nonneg (hx.trans hxy)
  · have hy : 0 < y := hpos.trans_le hxy
    have hlog : Int.log 2 x ≤ Int.log 2 y := Int.log_mono_right hpos hxy
    have hbx := binade_pos hpos
    have hby := binade_pos hy
    have hb : binade x ≤ binade y := by
      rw [hbx, hby]
      exact max_le_max hlog le_rfl
    rcases eq_or_lt_of_le hb with heq | hlt
    · unfold roundDouble
      rw [heq]
      have hu : (0 : ℚ) < 2 ^ (binade y - 52) := by positivity
      have hdiv : x / 2 ^ (binade y - 52) ≤ y / 2 ^ (binade y - 52) :=
        div_le_div_of_nonneg_right hxy hu.le
      have hr := roundHalfEven_mono hdiv
      have hr' : (roundHalfEven (x / 2 ^ (binade y - 52)) : ℚ)
          ≤ (roundHalfEven (y / 2 ^ (binade y - 52)) : ℚ) := by exact_mod_cast hr
      exact mul_le_mul_of_nonneg_right hr' hu.le
    · have hge : -1022 ≤ binade x := by rw [hbx]; exact le_max_right _ _
      have hylog : binade y = Int.log 2 y := by
        rw [hby]
        apply max_eq_left
        by_contra hcon
        have : max (Int.log 2 y) (-1022) = -1022 := max_eq_right (by omega)
        rw [hby, this] at hlt
        omega
      have h1 := roundDouble_le_pow hpos
      have h2 := pow_le_roundDouble hy (by rw [← hylog]; omega)
      have h3 : (2 : ℚ) ^ (binade x + 1) ≤ 2 ^ Int.log 2 y :=
        zpow_le_zpow_right₀ (by norm_num) (by rw [← hylog]; omega)
      exact h1.trans (h3.trans h2)

/-- Evaluation of `roundDouble` from the binade and the nearest multiple of
the unit in the last place. -/
theorem roundDouble_eq {q : ℚ} (e m : ℤ) (hq : 0 < q) (h1 : (2 : ℚ) ^ e ≤ q)
    (h2 : q < (2 : ℚ) ^ (e + 1)) (he : -1022 ≤ e)
    (hm : |q / 2 ^ (e - 52) - m| < 1 / 2) : roundDouble q = m * 2 ^ (e - 52) := by
  have hlog := log_eq_of_bounds hq h1 h2
  have hb : binade q = e := by rw [binade_pos hq, hlog]; exact max_eq_left he
  unfold roundDouble
  rw [hb, roundHalfEven_eq hm]


theorem roundDouble_one : roundDouble 1 = 1 := by
  rw [roundDouble_eq 0 (2 ^ 52) (by norm_num) (by norm_num) (by norm_num) (by norm_num)
    (by norm_num)]
  norm_num

theorem roundDouble_thirty : roundDouble 30 = 30 := by
  rw [roundDouble_eq 4 (30 * 2 ^ 48) (by norm_num) (by norm_num) (by norm_num) (by norm_num)
    (by norm_num)]
  norm_num

theorem roundDouble_forty : roundDouble 40 = 40 := by
  rw [roundDouble_eq 5 (40 * 2 ^ 47) (by norm_num) (by norm_num) (by norm_num) (by norm_num)
    (by norm_num)]
  norm_num

theorem roundDouble_seventy : roundDouble 70 = 70 := by
  rw [roundDouble_eq 6 (70 * 2 ^ 46) (by norm_num) (by norm_num) (by norm_num) (by norm_num)
    (by norm_num)]
  norm_num

theorem roundDouble_hundred : roundDouble 100 = 100 := by
  rw [roundDouble_eq 6 (100 * 2 ^ 46) (by norm_num) (by norm_num) (by norm_num) (by norm_num)
    (by norm_num)]
  norm_num

theorem roundHalfEven_half (k : ℤ) :
    roundHalfEven ((k : ℚ) + 1 / 2) = if k % 2 = 0 then k else k + 1 := by
  have hf : ⌊(k : ℚ) + 1 / 2⌋ = k := by
    rw [Int.floor_eq_iff]
    constructor <;> norm_num
  unfold roundHalfEven
  rw [hf]
  norm_num

theorem roundDouble_tie {q : ℚ} (e k : ℤ) (hq : 0 < q) (h1 : (2 : ℚ) ^ e ≤ q)
    (h2 : q < (2 : ℚ) ^ (e + 1)) (he : -1022 ≤ e)
    (hm : q / 2 ^ (e - 52) = k + 1 / 2) :
    roundDouble q = ((if k % 2 = 0 then k else k + 1 : ℤ) : ℚ) * 2 ^ (e - 52) := by
  have hlog := log_eq_of_bounds hq h1 h2
  have hb : binade q = e := by rw [binade_pos hq, hlog]; exact max_eq_left he
  unfold roundDouble
  rw [hb, hm, roundHalfEven_half]

/-! ## Theorems: the score in double arithmetic -/

theorem fl_num {q : ℚ} (h0 : 0 ≤ q) (h1 : q ≤ 100) :
    (JsNum.num q).fl = .num (roundDouble q) := by
  have hr0 := roundDouble_nonneg h0
  have hr1 : roundDouble q ≤ 100 := by
    have := roundDouble_mono h0 h1
    rwa [roundDouble_hundred] at this
  have hlt : ¬ (2 : ℚ) ^ 1024 ≤ |roundDouble q| := by
    rw [abs_of_nonneg hr0, not_le]
    have : (100 : ℚ) < 2 ^ 1024 := by norm_num
    linarith
  simp only [JsNum.fl, hlt, if_false]

/-- Bounds are kept by the rounding when they are doubles themselves. -/
theorem roundDouble_bounds {q : ℚ} (h0 : 0 ≤ q) :
    0 ≤ roundDouble q ∧ (q ≤ 1 → roundDouble q ≤ 1) ∧ (q ≤ 30 → roundDouble q ≤ 30) ∧
    (q ≤ 40 → roundDouble q ≤ 40) ∧ (q ≤ 70 → roundDouble q ≤ 70) ∧
    (q ≤ 100 → roundDouble q ≤ 100) := by
  refine ⟨roundDouble_nonneg h0, ?_, ?_, ?_, ?_, ?_⟩
  · intro h; have := roundDouble_mono h0 h; rwa [roundDouble_one] at this
  · intro h; have := roundDouble_mono h0 h; rwa [roundDouble_thirty] at this
  · intro h; have := roundDouble_mono h0 h; rwa [roundDouble_forty] at this
  · intro h; have := roundDouble_mono h0 h; rwa [roundDouble_seventy] at this
  · intro h; have := roundDouble_mono h0 h; rwa [roundDouble_hundred] at this

theorem maxScore64_eq : maxScore64 = .num 100 := by
  have h30 : (JsNum.num 0).fadd (.num 30) = .num 30 := by
    simp only [JsNum.fadd, JsNum.add, zero_add]
    rw [fl_num (by norm_num) (by norm_num), roundDouble_thirty]
  have h70 : (JsNum.num 30).fadd (.num 40) = .num 70 := by
    simp only [JsNum.fadd, JsNum.add]
    rw [fl_num (by norm_num) (by norm_num)]
    norm_num [roundDouble_seventy]
  have h100 : (JsNum.num 70).fadd (.num 30) = .num 100 := by
    simp only [JsNum.fadd, JsNum.add]
    rw [fl_num (by norm_num) (by norm_num)]
    norm_num [roundDouble_hundred]
  simp only [maxScore64, h30, h70, h100]

/-- The deduction of line 265 in double arithmetic. -/
theorem deduction64 (n : Nat) :
    JsNum.min (.num 30) ((JsNum.num n).fmul (.num 2))
      = .num (min 30 (roundDouble ((n : ℚ) * 2))) := by
  have hn : (0 : ℚ) ≤ (n : ℚ) * 2 := by positivity
  have hr0 := roundDouble_nonneg hn
  simp only [JsNum.fmul, JsNum.mul, JsNum.fl]
  by_cases hover : (2 : ℚ) ^ 1024 ≤ |roundDouble ((n : ℚ) * 2)|
  · rw [abs_of_nonneg hr0] at hover
    have hpos : (0 : ℚ) < (n : ℚ) * 2 := by
      rcases eq_or_lt_of_le hn with h | h
      · rw [← h, roundDouble_zero] at hover
        norm_num at hover
      · exact h
    have h30 : (30 : ℚ) ≤ roundDouble ((n : ℚ) * 2) := by
      have : (30 : ℚ) ≤ 2 ^ 1024 := by norm_num
      linarith
    rw [if_pos (by rw [abs_of_nonneg hr0]; exact hover), if_pos hpos]
    simp [JsNum.min, min_eq_left h30]
  · rw [if_neg hover]
    simp [JsNum.min]

theorem addTerminologyScore64_eq (n : Nat) :
    addTerminologyScore64 { passed := n == 0, totalIssues := some n } (.num 0)
      = .num (if n = 0 then 30
          else roundDouble (max 0 (roundDouble (30 - min 30 (roundDouble ((n : ℚ) * 2)))))) := by
  by_cases hn : n = 0
  · subst hn
    simp only [addTerminologyScore64, beq_self_eq_true, if_true, JsNum.fadd, JsNum.add,
      zero_add]
    rw [fl_num (by norm_num) (by norm_num), roundDouble_thirty]
  · have hb : (n == 0) = false := by simpa using hn
    have hd0 : (0 : ℚ) ≤ min 30 (roundDouble ((n : ℚ) * 2)) :=
      le_min (by norm_num) (roundDouble_nonneg (by positivity))
    have hd1 : min 30 (roundDouble ((n : ℚ) * 2)) ≤ 30 := min_le_left _ _
    have hs0 : (0 : ℚ) ≤ 30 - min 30 (roundDouble ((n : ℚ) * 2)) := by linarith
    have hs1 : 30 - min 30 (roundDouble ((n : ℚ) * 2)) ≤ 30 := by linarith
    have hr := roundDouble_bounds hs0
    have hm0 : (0 : ℚ) ≤ max 0 (roundDouble (30 - min 30 (roundDouble ((n : ℚ) * 2)))) :=
      le_max_left _ _
    have hm1 : max 0 (roundDouble (30 - min 30 (roundDouble ((n : ℚ) * 2)))) ≤ 30 :=
      max_le (by norm_num) (hr.2.2.1 hs1)
    simp only [addTerminologyScore64, hb, truthy, toNumber, hn, bne_iff_ne, ne_eq,
      not_false_eq_true, decide_True, if_true, if_false, Bool.false_eq_true]
    rw [deduction64]
    simp only [JsNum.fsub, JsNum.sub, JsNum.neg, JsNum.add, ← sub_eq_add_neg]
    rw [fl_num hs0 (by linarith)]
    simp only [JsNum.max, JsNum.fadd, JsNum.add, zero_add]
    rw [fl_num hm0 (by linarith)]

theorem addLinksScore64_eq (b t : Nat) (s : ℚ) (hs0 : 0 ≤ s) (hs1 : s ≤ 30) (hbt : b ≤ t) :
    addLinksScore64 { passed := b == 0, totalLinks := some t, brokenLinks := some b } (.num s)
      = .num (if b = 0 then roundDouble (s + 40)
          else roundDouble (s + max 0 (roundDouble (40 * roundDouble
            (1 - roundDouble ((b : ℚ) / t)))))) := by
  by_cases hb : b = 0
  · subst hb
    simp only [addLinksScore64, beq_self_eq_true, if_true, JsNum.fadd, JsNum.add]
    rw [fl_num (by linarith) (by linarith)]
  · have hbb : (b == 0) = false := by simpa using hb
    have ht : t ≠ 0 := by omega
    have htq : (0 : ℚ) < t := by
      have : 0 < t := by omega
      exact_mod_cast this
    have hq0 : (0 : ℚ) ≤ (b : ℚ) / t := by positivity
    have hq1 : (b : ℚ) / t ≤ 1 := by
      rw [div_le_one htq]
      exact_mod_cast hbt
    have hr := roundDouble_bounds hq0
    have hx0 : (0 : ℚ) ≤ 1 - roundDouble ((b : ℚ) / t) := by linarith [hr.2.1 hq1]
    have hx1 : 1 - roundDouble ((b : ℚ) / t) ≤ 1 := by linarith [hr.1]
    have hrx := roundDouble_bounds hx0
    have hy0 : (0 : ℚ) ≤ 40 * roundDouble (1 - roundDouble ((b : ℚ) / t)) := by
      have := hrx.1
      positivity
    have hy1 : 40 * roundDouble (1 - roundDouble ((b : ℚ) / t)) ≤ 40 := by
      have := hrx.2.1 hx1
      linarith
    have hry := roundDouble_bounds hy0
    have hm0 : (0 : ℚ)
        ≤ max 0 (roundDouble (40 * roundDouble (1 - roundDouble ((b : ℚ) / t)))) :=
      le_max_left _ _
    have hm1 : max 0 (roundDouble (40 * roundDouble (1 - roundDouble ((b : ℚ) / t)))) ≤ 40 :=
      max_le (by norm_num) (hry.2.2.2.1 hy1)
    have htq' : (t : ℚ) ≠ 0 := htq.ne'
    simp only [addLinksScore64, hbb, truthy, toNumber, hb, bne_iff_ne, ne_eq,
      not_false_eq_true, decide_True, if_true, if_false, Bool.false_eq_true, JsNum.fdiv,
      JsNum.div, htq']
    rw [fl_num hq0 (by linarith)]
    simp only [JsNum.fsub, JsNum.sub, JsNum.neg, JsNum.add, ← sub_eq_add_neg]
    rw [fl_num hx0 (by linarith)]
    simp only [JsNum.fmul, JsNum.mul]
    rw [fl_num hy0 (by linarith)]
    simp only [JsNum.max, JsNum.fadd, JsNum.add]
    rw [fl_num (by linarith) (by linarith)]

theorem addCodeScore64_eq (v c : Nat) (s : ℚ) (hs0 : 0 ≤ s) (hs1 : s ≤ 70) (hvc : v ≤ c) :
    addCodeScore64
        { passed := v == c, totalCodeBlocks := some c, validCodeBlocks := some v } (.num s)
      = .num (if v = c then roundDouble (s + 30)
          else roundDouble (s + roundDouble (30 * roundDouble ((v : ℚ) / c)))) := by
  by_cases hv : v = c
  · subst hv
    simp only [addCodeScore64, beq_self_eq_true, if_true, JsNum.fadd, JsNum.add]
    rw [fl_num (by linarith) (by linarith)]
  · have hvb : (v == c) = false := by simpa using hv
    have hc : c ≠ 0 := by omega
    have hcq : (0 : ℚ) < c := by
      have : 0 < c := by omega
      exact_mod_cast this
    have hq0 : (0 : ℚ) ≤ (v : ℚ) / c := by positivity
    have hq1 : (v : ℚ) / c ≤ 1 := by
      rw [div_le_one hcq]
      exact_mod_cast hvc
    have hr := roundDouble_bounds hq0
    have hy0 : (0 : ℚ) ≤ 30 * roundDouble ((v : ℚ) / c) := by
      have := hr.1
      positivity
    have hy1 : 30 * roundDouble ((v : ℚ) / c) ≤ 30 := by
      have := hr.2.1 hq1
      linarith
    have hry := roundDouble_bounds hy0
    have hcq' : (c : ℚ) ≠ 0 := hcq.ne'
    simp only [addCodeScore64, hvb, truthy, toNumber, hc, bne_iff_ne, ne_eq,
      not_false_eq_true, decide_True, if_true, if_false, Bool.false_eq_true, JsNum.fdiv,
      JsNum.div, hcq']
    rw [fl_num hq0 (by linarith)]
    simp only [JsNum.fmul, JsNum.mul]
    rw [fl_num hy0 (by linarith)]
    simp only [JsNum.fadd, JsNum.add]
    rw [fl_num (by linarith [hry.1]) (by linarith [hry.2.2.1 hy1]), if_neg hv]

theorem finalScore64_eq (x : ℚ) (h0 : 0 ≤ x) (h1 : x ≤ 100) :
    JsNum.round (((JsNum.num x).fdiv maxScore64).fmul (.num 100))
      = .num ⌊roundDouble (roundDouble (x / 100) * 100) + 1 / 2⌋ := by
  have hq0 : (0 : ℚ) ≤ x / 100 := by positivity
  have hq1 : x / 100 ≤ 1 := by
    rw [div_le_one (by norm_num)]
    exact h1
  have hr := roundDouble_bounds hq0
  have hy0 : (0 : ℚ) ≤ roundDouble (x / 100) * 100 := by
    have := hr.1
    positivity
  have hy1 : roundDouble (x / 100) * 100 ≤ 100 := by
    have := hr.2.1 hq1
    linarith
  rw [maxScore64_eq]
  simp only [JsNum.fdiv, JsNum.div, show ¬ ((100 : ℚ) = 0) by norm_num, if_false]
  rw [fl_num hq0 (by linarith)]
  simp only [JsNum.fmul, JsNum.mul]
  rw [fl_num hy0 hy1]
  simp only [JsNum.round]

/-- The score of `generateOverallReport64` for the results of given counts, as
a chain of roundings. -/
theorem score64_resultsOf (n b t v c : Nat) (hbt : b ≤ t) (hvc : v ≤ c) :
    ∃ T L C : ℚ,
      T = (if n = 0 then 30
        else roundDouble (max 0 (roundDouble (30 - min 30 (roundDouble ((n : ℚ) * 2)))))) ∧
      L = (if b = 0 then roundDouble (T + 40)
        else roundDouble (T + max 0 (roundDouble (40 * roundDouble
          (1 - roundDouble ((b : ℚ) / t)))))) ∧
      C = (if v = c then roundDouble (L + 30)
        else roundDouble (L + roundDouble (30 * roundDouble ((v : ℚ) / c)))) ∧
      0 ≤ T ∧ T ≤ 30 ∧ 0 ≤ L ∧ L ≤ 70 ∧ 0 ≤ C ∧ C ≤ 100 ∧
      (generateOverallReport64 (resultsOf n b t v c)).score
        = .num ⌊roundDouble (roundDouble (C / 100) * 100) + 1 / 2⌋ := by
  refine ⟨_, _, _, rfl, rfl, rfl, ?_⟩
  have hT : (0 : ℚ) ≤ (if n = 0 then (30 : ℚ)
        else roundDouble (max 0 (roundDouble (30 - min 30 (roundDouble ((n : ℚ) * 2))))))
      ∧ (if n = 0 then (30 : ℚ)
        else roundDouble (max 0 (roundDouble (30 - min 30 (roundDouble ((n : ℚ) * 2))))))
        ≤ 30 := by
    split_ifs
    · constructor <;> norm_num
    · have hd1 : min 30 (roundDouble ((n : ℚ) * 2)) ≤ 30 := min_le_left _ _
      have hs0 : (0 : ℚ) ≤ 30 - min 30 (roundDouble ((n : ℚ) * 2)) := by linarith
      have hr := roundDouble_bounds hs0
      have hm0 : (0 : ℚ) ≤ max 0 (roundDouble (30 - min 30 (roundDouble ((n : ℚ) * 2)))) :=
        le_max_left _ _
      have hm1 : max 0 (roundDouble (30 - min 30 (roundDouble ((n : ℚ) * 2)))) ≤ 30 :=
        max_le (by norm_num) (hr.2.2.1 (by
          have : (0 : ℚ) ≤ min 30 (roundDouble ((n : ℚ) * 2)) :=
            le_min (by norm_num) (roundDouble_nonneg (by positivity))
          linarith))
      have hrm := roundDouble_bounds hm0
      exact ⟨hrm.1, hrm.2.2.1 hm1⟩
  obtain ⟨hT0, hT1⟩ := hT
  generalize hTdef : (if n = 0 then (30 : ℚ)
        else roundDouble (max 0 (roundDouble (30 - min 30 (roundDouble ((n : ℚ) * 2))))))
      = T at hT0 hT1 ⊢
  have hL : (0 : ℚ) ≤ (if b = 0 then roundDouble (T + 40)
        else roundDouble (T + max 0 (roundDouble (40 * roundDouble
          (1 - roundDouble ((b : ℚ) / t))))))
      ∧ (if b = 0 then roundDouble (T + 40)
        else roundDouble (T + max 0 (roundDouble (40 * roundDouble
          (1 - roundDouble ((b : ℚ) / t)))))) ≤ 70 := by
    split_ifs with hb
    · have hr := roundDouble_bounds (by linarith : (0 : ℚ) ≤ T + 40)
      exact ⟨hr.1, hr.2.2.2.2.1 (by linarith)⟩
    · have htq : (0 : ℚ) < t := by
        have : 0 < t := by omega
        exact_mod_cast this
      have hq0 : (0 : ℚ) ≤ (b : ℚ) / t := by positivity
      have hq1 : (b : ℚ) / t ≤ 1 := by
        rw [div_le_one htq]
        exact_mod_cast hbt
      have hr := roundDouble_bounds hq0
      have hx0 : (0 : ℚ) ≤ 1 - roundDouble ((b : ℚ) / t) := by linarith [hr.2.1 hq1]
      have hx1 : 1 - roundDouble ((b : ℚ) / t) ≤ 1 := by linarith [hr.1]
      have hrx := roundDouble_bounds hx0
      have hy0 : (0 : ℚ) ≤ 40 * roundDouble (1 - roundDouble ((b : ℚ) / t)) := by
        have := hrx.1
        positivity
      have hy1 : 40 * roundDouble (1 - roundDouble ((b : ℚ) / t)) ≤ 40 := by
        have := hrx.2.1 hx1
        linarith
      have hry := roundDouble_bounds hy0
      have hm0 : (0 : ℚ)
          ≤ max 0 (roundDouble (40 * roundDouble (1 - roundDouble ((b : ℚ) / t)))) :=
        le_max_left _ _
      have hm1 : max 0 (roundDouble (40 * roundDouble (1 - roundDouble ((b : ℚ) / t))))
          ≤ 40 := max_le (by norm_num) (hry.2.2.2.1 hy1)
      have hrs := roundDouble_bounds (by linarith : (0 : ℚ)
        ≤ T + max 0 (roundDouble (40 * roundDouble (1 - roundDouble ((b : ℚ) / t)))))
      exact ⟨hrs.1, hrs.2.2.2.2.1 (by linarith)⟩
  obtain ⟨hL0, hL1⟩ := hL
  have hLeq := addLinksScore64_eq b t T hT0 hT1 hbt
  generalize hLdef : (if b = 0 then roundDouble (T + 40)
        else roundDouble (T + max 0 (roundDouble (40 * roundDouble
          (1 - roundDouble ((b : ℚ) / t)))))) = L at hL0 hL1 hLeq ⊢
  have hC : (0 : ℚ) ≤ (if v = c then roundDouble (L + 30)
        else roundDouble (L + roundDouble (30 * roundDouble ((v : ℚ) / c))))
      ∧ (if v = c then roundDouble (L + 30)
        else roundDouble (L + roundDouble (30 * roundDouble ((v : ℚ) / c)))) ≤ 100 := by
    split_ifs with hv
    · have hr := roundDouble_bounds (by linarith : (0 : ℚ) ≤ L + 30)
      exact ⟨hr.1, hr.2.2.2.2.2 (by linarith)⟩
    · have hcq : (0 : ℚ) < c := by
        have : 0 < c := by omega
        exact_mod_cast this
      have hq0 : (0 : ℚ) ≤ (v : ℚ) / c := by positivity
      have hq1 : (v : ℚ) / c ≤ 1 := by
        rw [div_le_one hcq]
        exact_mod_cast hvc
      have hr := roundDouble_bounds hq0
      have hy0 : (0 : ℚ) ≤ 30 * roundDouble ((v : ℚ) / c) := by
        have := hr.1
        positivity
      have hy1 : 30 * roundDouble ((v : ℚ) / c) ≤ 30 := by
        have := hr.2.1 hq1
        linarith
      have hry := roundDouble_bounds hy0
      have hrs := roundDouble_bounds (by linarith [hry.1] : (0 : ℚ)
        ≤ L + roundDouble (30 * roundDouble ((v : ℚ) / c)))
      exact ⟨hrs.1, hrs.2.2.2.2.2 (by linarith [hry.2.2.1 hy1])⟩
  obtain ⟨hC0, hC1⟩ := hC
  have hCeq := addCodeScore64_eq v c L hL0 hL1 hvc
  generalize hCdef : (if v = c then roundDouble (L + 30)
        else roundDouble (L + roundDouble (30 * roundDouble ((v : ℚ) / c)))) = C
    at hC0 hC1 hCeq ⊢
  refine ⟨hT0, hT1, hL0, hL1, hC0, hC1, ?_⟩
  have hTeq := addTerminologyScore64_eq n
  rw [hTdef] at hTeq
  have htot : totalScore64 (resultsOf n b t v c) = .num C := by
    simp only [totalScore64, resultsOf]
    rw [hTeq, hLeq, hCeq]
  simp only [generateOverallReport64, htot]
  exact finalScore64_eq C hC0 hC1

theorem terminologyStage_mono (n n' : Nat) (hn : n' ≤ n) :
    (if n = 0 then (30 : ℚ)
      else roundDouble (max 0 (roundDouble (30 - min 30 (roundDouble ((n : ℚ) * 2))))))
    ≤ (if n' = 0 then (30 : ℚ)
      else roundDouble (max 0 (roundDouble (30 - min 30 (roundDouble ((n' : ℚ) * 2)))))) := by
  have key : ∀ m : Nat, (0 : ℚ) ≤ 30 - min 30 (roundDouble ((m : ℚ) * 2)) ∧
      roundDouble (max 0 (roundDouble (30 - min 30 (roundDouble ((m : ℚ) * 2))))) ≤ 30 := by
    intro m
    have hd1 : min 30 (roundDouble ((m : ℚ) * 2)) ≤ 30 := min_le_left _ _
    have hd0 : (0 : ℚ) ≤ min 30 (roundDouble ((m : ℚ) * 2)) :=
      le_min (by norm_num) (roundDouble_nonneg (by positivity))
    have hs0 : (0 : ℚ) ≤ 30 - min 30 (roundDouble ((m : ℚ) * 2)) := by linarith
    have hr := roundDouble_bounds hs0
    have hm1 : max 0 (roundDouble (30 - min 30 (roundDouble ((m : ℚ) * 2)))) ≤ 30 :=
      max_le (by norm_num) (hr.2.2.1 (by linarith))
    exact ⟨hs0, (roundDouble_bounds (le_max_left _ _)).2.2.1 hm1⟩
  by_cases h0 : n = 0
  · have h0' : n' = 0 := by omega
    simp [h0, h0']
  · by_cases h0' : n' = 0
    · simp only [h0, h0', if_true, if_false]
      exact (key n).2
    · simp only [h0, h0', if_false]
      have hq : (n' : ℚ) * 2 ≤ (n : ℚ) * 2 := by
        have : (n' : ℚ) ≤ n := by exact_mod_cast hn
        linarith
      have h1 := roundDouble_mono (by positivity : (0 : ℚ) ≤ (n' : ℚ) * 2) hq
      have h2 : min 30 (roundDouble ((n' : ℚ) * 2)) ≤ min 30 (roundDouble ((n : ℚ) * 2)) :=
        min_le_min le_rfl h1
      have h3 := roundDouble_mono (key n).1
        (by linarith : 30 - min 30 (roundDouble ((n : ℚ) * 2))
          ≤ 30 - min 30 (roundDouble ((n' : ℚ) * 2)))
      exact roundDouble_mono (le_max_left _ _) (max_le_max le_rfl h3)

theorem linksStage_mono (b b' t : Nat) (T T' : ℚ) (hb : b' ≤ b) (hbt : b ≤ t)
    (hT0 : 0 ≤ T) (hTT : T ≤ T') :
    (if b = 0 then roundDouble (T + 40)
      else roundDouble (T + max 0 (roundDouble (40 * roundDouble
        (1 - roundDouble ((b : ℚ) / t))))))
    ≤ (if b' = 0 then roundDouble (T' + 40)
      else roundDouble (T' + max 0 (roundDouble (40 * roundDouble
        (1 - roundDouble ((b' : ℚ) / t)))))) := by
  by_cases h0 : b = 0
  · have h0' : b' = 0 := by omega
    simp only [h0, h0', if_true]
    exact roundDouble_mono (by linarith) (by linarith)
  · have ht : (0 : ℚ) < t := by
      have : 0 < t := by omega
      exact_mod_cast this
    have key : ∀ m : Nat, m ≤ t → (0 : ℚ) ≤ 1 - roundDouble ((m : ℚ) / t) ∧
        (0 : ℚ) ≤ 40 * roundDouble (1 - roundDouble ((m : ℚ) / t)) ∧
        max 0 (roundDouble (40 * roundDouble (1 - roundDouble ((m : ℚ) / t)))) ≤ 40 := by
      intro m hm
      have hq0 : (0 : ℚ) ≤ (m : ℚ) / t := by positivity
      have hq1 : (m : ℚ) / t ≤ 1 := by
        rw [div_le_one ht]
        exact_mod_cast hm
      have hr := roundDouble_bounds hq0
      have hx0 : (0 : ℚ) ≤ 1 - roundDouble ((m : ℚ) / t) := by linarith [hr.2.1 hq1]
      have hx1 : 1 - roundDouble ((m : ℚ) / t) ≤ 1 := by linarith [hr.1]
      have hrx := roundDouble_bounds hx0
      have hy0 : (0 : ℚ) ≤ 40 * roundDouble (1 - roundDouble ((m : ℚ) / t)) := by
        have := hrx.1
        positivity
      have hy1 : 40 * roundDouble (1 - roundDouble ((m : ℚ) / t)) ≤ 40 := by
        have := hrx.2.1 hx1
        linarith
      exact ⟨hx0, hy0, max_le (by norm_num) ((roundDouble_bounds hy0).2.2.2.1 hy1)⟩
    have hm0 : (0 : ℚ)
        ≤ max 0 (roundDouble (40 * roundDouble (1 - roundDouble ((b : ℚ) / t)))) :=
      le_max_left _ _
    by_cases h0' : b' = 0
    · simp only [h0, h0', if_true, if_false]
      exact roundDouble_mono (by linarith) (by linarith [(key b hbt).2.2])
    · simp only [h0, h0', if_false]
      have hq : (b' : ℚ) / t ≤ (b : ℚ) / t :=
        div_le_div_of_nonneg_right (by exact_mod_cast hb) ht.le
      have h1 := roundDouble_mono (by positivity : (0 : ℚ) ≤ (b' : ℚ) / t) hq
      have h2 := roundDouble_mono (key b hbt).1
        (by linarith : 1 - roundDouble ((b : ℚ) / t) ≤ 1 - roundDouble ((b' : ℚ) / t))
      have h3 := roundDouble_mono (key b hbt).2.1
        (by linarith : 40 * roundDouble (1 - roundDouble ((b : ℚ) / t))
          ≤ 40 * roundDouble (1 - roundDouble ((b' : ℚ) / t)))
      have h4 : max 0 (roundDouble (40 * roundDouble (1 - roundDouble ((b : ℚ) / t))))
          ≤ max 0 (roundDouble (40 * roundDouble (1 - roundDouble ((b' : ℚ) / t)))) :=
        max_le_max le_rfl h3
      exact roundDouble_mono (by linarith) (by linarith)

theorem codeStage_mono (v v' c : Nat) (L L' : ℚ) (hv : v ≤ v') (hvc : v' ≤ c)
    (hL0 : 0 ≤ L) (hLL : L ≤ L') :
    (if v = c then roundDouble (L + 30)
      else roundDouble (L + roundDouble (30 * roundDouble ((v : ℚ) / c))))
    ≤ (if v' = c then roundDouble (L' + 30)
      else roundDouble (L' + roundDouble (30 * roundDouble ((v' : ℚ) / c)))) := by
  by_cases h0' : v' = c
  · by_cases h0 : v = c
    · simp only [h0, h0', if_true]
      exact roundDouble_mono (by linarith) (by linarith)
    · have hc : (0 : ℚ) < c := by
        have : 0 < c := by omega
        exact_mod_cast this
      simp only [h0, h0', if_true, if_false]
      have hq0 : (0 : ℚ) ≤ (v : ℚ) / c := by positivity
      have hq1 : (v : ℚ) / c ≤ 1 := by
        rw [div_le_one hc]
        exact_mod_cast (by omega : v ≤ c)
      have hr := roundDouble_bounds hq0
      have hy0 : (0 : ℚ) ≤ 30 * roundDouble ((v : ℚ) / c) := by
        have := hr.1
        positivity
      have hy1 : 30 * roundDouble ((v : ℚ) / c) ≤ 30 := by
        have := hr.2.1 hq1
        linarith
      have hry := roundDouble_bounds hy0
      exact roundDouble_mono (by linarith [hry.1]) (by linarith [hry.2.2.1 hy1])
  · have h0 : ¬ v = c := by omega
    have hc : (0 : ℚ) < c := by
      have : 0 < c := by omega
      exact_mod_cast this
    simp only [h0, h0', if_false]
    have hq : (v : ℚ) / c ≤ (v' : ℚ) / c :=
      div_le_div_of_nonneg_right (by exact_mod_cast hv) hc.le
    have hq0 : (0 : ℚ) ≤ (v : ℚ) / c := by positivity
    have h1 := roundDouble_mono hq0 hq
    have hr := roundDouble_bounds hq0
    have hy0 : (0 : ℚ) ≤ 30 * roundDouble ((v : ℚ) / c) := by
      have := hr.1
      positivity
    have h2 := roundDouble_mono hy0
      (by linarith : 30 * roundDouble ((v : ℚ) / c) ≤ 30 * roundDouble ((v' : ℚ) / c))
    exact roundDouble_mono (by linarith [(roundDouble_bounds hy0).1]) (by linarith)

theorem finalStage_range (x : ℚ) (h0 : 0 ≤ x) (h1 : x ≤ 100) :
    0 ≤ ⌊roundDouble (roundDouble (x / 100) * 100) + 1 / 2⌋ ∧
    ⌊roundDouble (roundDouble (x / 100) * 100) + 1 / 2⌋ ≤ 100 := by
  have hq0 : (0 : ℚ) ≤ x / 100 := by positivity
  have hq1 : x / 100 ≤ 1 := by
    rw [div_le_one (by norm_num)]
    exact h1
  have hr := roundDouble_bounds hq0
  have hy0 : (0 : ℚ) ≤ roundDouble (x / 100) * 100 := by
    have := hr.1
    positivity
  have hy1 : roundDouble (x / 100) * 100 ≤ 100 := by
    have := hr.2.1 hq1
    linarith
  have hry := roundDouble_bounds hy0
  constructor
  · apply Int.floor_nonneg.mpr
    linarith [hry.1]
  · have h : roundDouble (roundDouble (x / 100) * 100) + 1 / 2 < ((101 : ℤ) : ℚ) := by
      push_cast
      linarith [hry.2.2.2.2.2 hy1]
    have := Int.floor_lt.mpr h
    omega

theorem finalStage_mono (x y : ℚ) (h0 : 0 ≤ x) (hxy : x ≤ y) :
    ⌊roundDouble (roundDouble (x / 100) * 100) + 1 / 2⌋
      ≤ ⌊roundDouble (roundDouble (y / 100) * 100) + 1 / 2⌋ := by
  apply Int.floor_mono
  have hq0 : (0 : ℚ) ≤ x / 100 := by positivity
  have h1 := roundDouble_mono hq0 (by linarith : x / 100 ≤ y / 100)
  have hy0 : (0 : ℚ) ≤ roundDouble (x / 100) * 100 := by
    have := (roundDouble_bounds hq0).1
    positivity
  have h2 := roundDouble_mono hy0
    (by linarith : roundDouble (x / 100) * 100 ≤ roundDouble (y / 100) * 100)
  linarith

/-- C6: for counts with `brokenLinks ≤ totalLinks` and
`validCodeBlocks ≤ totalCodeBlocks`, the score written by
`generateOverallReport64`, every operation of which is rounded to the nearest
double, is an integer between 0 and 100. -/
theorem score_range (totalIssues brokenLinks totalLinks validCodeBlocks totalCodeBlocks : Nat)
    (hl : brokenLinks ≤ totalLinks) (hc : validCodeBlocks ≤ totalCodeBlocks) :
    ∃ k : ℤ,
      (generateOverallReport64
        (resultsOf totalIssues brokenLinks totalLinks validCodeBlocks totalCodeBlocks)).score
        = .num k ∧ 0 ≤ k ∧ k ≤ 100 := by
  obtain ⟨T, L, C, -, -, -, -, -, -, -, hC0, hC1, hs⟩ :=
    score64_resultsOf totalIssues brokenLinks totalLinks validCodeBlocks totalCodeBlocks hl hc
  refine ⟨_, ?_, finalStage_range C hC0 hC1⟩
  rw [hs]

theorem score_range_witness :
    1 ≤ 3 ∧ 2 ≤ 4 ∧
    ∃ k : ℤ, (generateOverallReport64 (resultsOf 5 1 3 2 4)).score = .num k ∧ 0 ≤ k ∧ k ≤ 100 :=
  ⟨by decide, by decide, score_range 5 1 3 2 4 (by decide) (by decide)⟩

/-- C19: with `brokenLinks ≤ totalLinks` and `validCodeBlocks ≤
totalCodeBlocks`, fewer terminology issues, fewer broken links (same
`totalLinks`) and more valid code blocks (same `totalCodeBlocks`) never lower
the score written by `generateOverallReport64`, every operation of which is
rounded to the nearest double. -/
theorem score_monotone (n n' b b' t v v' c : Nat)
    (hn : n' ≤ n) (hb : b' ≤ b) (hbt : b ≤ t) (hv : v ≤ v') (hvc : v' ≤ c) :
    ∃ k k' : ℤ,
      (generateOverallReport64 (resultsOf n b t v c)).score = .num k ∧
      (generateOverallReport64 (resultsOf n' b' t v' c)).score = .num k' ∧
      k ≤ k' := by
  obtain ⟨T, L, C, hT, hL, hC, hT0, -, hL0, -, hC0, -, hs⟩ :=
    score64_resultsOf n b t v c hbt (by omega)
  obtain ⟨T', L', C', hT', hL', hC', -, -, -, -, -, -, hs'⟩ :=
    score64_resultsOf n' b' t v' c (by omega) hvc
  have hTT : T ≤ T' := by
    rw [hT, hT']
    exact terminologyStage_mono n n' hn
  have hLL : L ≤ L' := by
    rw [hL, hL']
    exact linksStage_mono b b' t T T' hb hbt hT0 hTT
  have hCC : C ≤ C' := by
    rw [hC, hC']
    exact codeStage_mono v v' c L L' hv hvc hL0 hLL
  refine ⟨_, _, ?_, ?_, finalStage_mono C C' hC0 hCC⟩
  · rw [hs]
  · rw [hs']

theorem score_monotone_witness :
    2 ≤ 5 ∧ 1 ≤ 3 ∧ 3 ≤ 4 ∧ 2 ≤ 3 ∧ 3 ≤ 4 ∧
    ∃ k k' : ℤ,
      (generateOverallReport64 (resultsOf 5 3 4 2 4)).score = .num k ∧
      (generateOverallReport64 (resultsOf 2 1 4 3 4)).score = .num k' ∧
      k ≤ k' :=
  ⟨by decide, by decide, by decide, by decide, by decide,
   score_monotone 5 2 3 1 4 2 3 4 (by decide) (by decide) (by decide) (by decide)
     (by decide)⟩

/-- With one broken link of two and one valid code block of four the double
of `totalScore / maxScore * 100` lies just below 57.5 and the score is 57. -/
theorem score64_half_below :
    (generateOverallReport64 (resultsOf 0 1 2 1 4)).score = .num 57 := by
  have r1 : roundDouble (1 / 2) = 1 / 2 := by
    rw [roundDouble_eq (-1) 4503599627370496 (by norm_num) (by norm_num) (by norm_num) (by norm_num)
      (by rw [abs_lt]; constructor <;> norm_num)]
    norm_num
  have r2 : roundDouble (1 / 2) = 1 / 2 := by
    rw [roundDouble_eq (-1) 4503599627370496 (by norm_num) (by norm_num) (by norm_num) (by norm_num)
      (by rw [abs_lt]; constructor <;> norm_num)]
    norm_num
  have r3 : roundDouble (20) = 20 := by
    rw [roundDouble_eq 4 5629499534213120 (by norm_num) (by norm_num) (by norm_num) (by norm_num)
      (by rw [abs_lt]; constructor <;> norm_num)]
    norm_num
  have r4 : roundDouble (50) = 50 := by
    rw [roundDouble_eq 5 7036874417766400 (by norm_num) (by norm_num) (by norm_num) (by norm_num)
      (by rw [abs_lt]; constructor <;> norm_num)]
    norm_num
  have r5 : roundDouble (1 / 4) = 1 / 4 := by
    rw [roundDouble_eq (-2) 4503599627370496 (by norm_num) (by norm_num) (by norm_num) (by norm_num)
      (by rw [abs_lt]; constructor <;> norm_num)]
    norm_num
  have r6 : roundDouble (15 / 2) = 15 / 2 := by
    rw [roundDouble_eq 2 8444249301319680 (by norm_num) (by norm_num) (by norm_num) (by norm_num)
      (by rw [abs_lt]; constructor <;> norm_num)]
    norm_num
  have r7 : roundDouble (115 / 2) = 115 / 2 := by
    rw [roundDouble_eq 5 8092405580431360 (by norm_num) (by norm_num) (by norm_num) (by norm_num)
      (by rw [abs_lt]; constructor <;> norm_num)]
    norm_num
  have r8 : roundDouble (23 / 40) = 2589569785738035 / 4503599627370496 := by
    rw [roundDouble_eq (-1) 5179139571476070 (by norm_num) (by norm_num) (by norm_num) (by norm_num)
      (by rw [abs_lt]; constructor <;> norm_num)]
    norm_num
  have r9 : roundDouble (64739244643450875 / 1125899906842624) = 8092405580431359 / 140737488355328 := by
    rw [roundDouble_eq 5 8092405580431359 (by norm_num) (by norm_num) (by norm_num) (by norm_num)
      (by rw [abs_lt]; constructor <;> norm_num)]
    norm_num
  obtain ⟨T, L, C, hT, hL, hC, -, -, -, -, -, -, hs⟩ :=
    score64_resultsOf 0 1 2 1 4 (by decide) (by decide)
  have hT1 : T = 30 := by rw [hT]; simp
  have hL1 : L = 50 := by
    rw [hL, hT1]
    norm_num [r1, r2, r3, r4]
  have hC1 : C = 115 / 2 := by
    rw [hC, hL1]
    norm_num [r5, r6, r7]
  have hk : ⌊roundDouble (roundDouble (C / 100) * 100) + 1 / 2⌋ = 57 := by
    rw [hC1]
    norm_num [r8, r9]
  have hscore : (generateOverallReport64 (resultsOf 0 1 2 1 4)).score = .num 57 := by
    rw [hs, hk]
    norm_num
  exact hscore

/-- With one broken link of thirty and twenty-five valid code blocks of
thirty-six the total of the doubles lies just below 89.5: the score is 89, the
grade B and the report has not passed. -/
theorem score64_grade_below :
    (generateOverallReport64 (resultsOf 0 1 30 25 36)).score = .num 89 ∧
    (generateOverallReport64 (resultsOf 0 1 30 25 36)).grade = "B" ∧
    (generateOverallReport64 (resultsOf 0 1 30 25 36)).passed = false := by
  have r1 : roundDouble (1 / 30) = 4803839602528529 / 144115188075855872 := by
    rw [roundDouble_eq (-5) 4803839602528529 (by norm_num) (by norm_num) (by norm_num) (by norm_num)
      (by rw [abs_lt]; constructor <;> norm_num)]
    norm_num
  have r2 : roundDouble (139311348473327343 / 144115188075855872) = 8706959279582959 / 9007199254740992 := by
    rw [roundDouble_eq (-1) 8706959279582959 (by norm_num) (by norm_num) (by norm_num) (by norm_num)
      (by rw [abs_lt]; constructor <;> norm_num)]
    norm_num
  have r3 : roundDouble (43534796397914795 / 1125899906842624) = 5441849549739349 / 140737488355328 := by
    rw [roundDouble_eq 5 5441849549739349 (by norm_num) (by norm_num) (by norm_num) (by norm_num)
      (by rw [abs_lt]; constructor <;> norm_num)]
    norm_num
  have r4 : roundDouble (9663974200399189 / 140737488355328) = 2415993550099797 / 35184372088832 := by
    rw [roundDouble_tie 6 4831987100199594 (by norm_num) (by norm_num) (by norm_num) (by norm_num)
      (by norm_num)]
    norm_num
  have r5 : roundDouble (25 / 36) = 3127499741229511 / 4503599627370496 := by
    rw [roundDouble_eq (-1) 6254999482459022 (by norm_num) (by norm_num) (by norm_num) (by norm_num)
      (by rw [abs_lt]; constructor <;> norm_num)]
    norm_num
  have r6 : roundDouble (46912496118442665 / 2251799813685248) = 5864062014805333 / 281474976710656 := by
    rw [roundDouble_eq 4 5864062014805333 (by norm_num) (by norm_num) (by norm_num) (by norm_num)
      (by rw [abs_lt]; constructor <;> norm_num)]
    norm_num
  have r7 : roundDouble (25192010415603709 / 281474976710656) = 6298002603900927 / 70368744177664 := by
    rw [roundDouble_eq 6 6298002603900927 (by norm_num) (by norm_num) (by norm_num) (by norm_num)
      (by rw [abs_lt]; constructor <;> norm_num)]
    norm_num
  have r8 : roundDouble (6298002603900927 / 7036874417766400) = 8061443332993187 / 9007199254740992 := by
    rw [roundDouble_eq (-1) 8061443332993187 (by norm_num) (by norm_num) (by norm_num) (by norm_num)
      (by rw [abs_lt]; constructor <;> norm_num)]
    norm_num
  have r9 : roundDouble (201536083324829675 / 2251799813685248) = 6298002603900927 / 70368744177664 := by
    rw [roundDouble_eq 6 6298002603900927 (by norm_num) (by norm_num) (by norm_num) (by norm_num)
      (by rw [abs_lt]; constructor <;> norm_num)]
    norm_num
  obtain ⟨T, L, C, hT, hL, hC, -, -, -, -, -, -, hs⟩ :=
    score64_resultsOf 0 1 30 25 36 (by decide) (by decide)
  have hT1 : T = 30 := by rw [hT]; simp
  have hL1 : L = 2415993550099797 / 35184372088832 := by
    rw [hL, hT1]
    norm_num [r1, r2, r3, r4]
  have hC1 : C = 6298002603900927 / 70368744177664 := by
    rw [hC, hL1]
    norm_num [r5, r6, r7]
  have hk : ⌊roundDouble (roundDouble (C / 100) * 100) + 1 / 2⌋ = 89 := by
    rw [hC1]
    norm_num [r8, r9]
  have hscore : (generateOverallReport64 (resultsOf 0 1 30 25 36)).score = .num 89 := by
    rw [hs, hk]
    norm_num
  refine ⟨hscore, ?_, ?_⟩
  · show getGrade (generateOverallReport64 (resultsOf 0 1 30 25 36)).score = "B"
    rw [hscore]
    norm_num [getGrade, JsNum.ge]
  · show (generateOverallReport64 (resultsOf 0 1 30 25 36)).score.ge (.num 90) = false
    rw [hscore]
    norm_num [JsNum.ge]

end DocsZh
